import Mathlib

/-!
# Verification of the succinct-filesystem core structures

This development embeds the core data structures of the succinct
filesystem (dynamic bit vector, two-bit wavelet tree, FLOUDS directory
encoding, inode table, monotonic block allocator, and their
serializers) as executable Lean definitions, and proves or refutes the
specification claims about them.

Machine words (`size_t`) are modelled as `Nat`, reduced `% 2 ^ 64`
exactly where the C++ arithmetic can wrap.  Operations that throw
`std::out_of_range` in C++ are modelled as `Option`-valued functions
returning `none` where the exception escapes.
-/

namespace SuccinctFS

/-! ## Generic list toolkit: rank (prefix counting) and select -/

/-- `rkP p l pos` — number of positions `i ≤ pos` with `p l[i]`.
This is the semantics of the inclusive `rank` of the bit vector
interface (the array strategy counts matches in `[0, pos]`). -/
def rkP (p : α → Bool) (l : List α) (pos : Nat) : Nat :=
  (l.take (pos + 1)).countP p

/-- Core select recursion: position of the `n`-th (1-based) element
satisfying `p`, or `none` if there are fewer than `n`. -/
def selPAux (p : α → Bool) : List α → Nat → Option Nat
  | [], _ => none
  | x :: xs, n =>
    if p x then
      if n = 1 then some 0 else (selPAux p xs (n - 1)).map (· + 1)
    else
      (selPAux p xs n).map (· + 1)

/-- `selP p l n` — the 0-based position of the `n`-th (1-based) element
satisfying `p`; `none` when `n = 0` or `n` exceeds the number of
matches.  This is the semantics of `select` of the bit vector
interface (which throws in exactly those two cases). -/
def selP (p : α → Bool) (l : List α) (n : Nat) : Option Nat :=
  if n = 0 then none else selPAux p l n

theorem isSome_map_add_one (o : Option Nat) :
    (o.map (· + 1)).isSome = o.isSome := by
  cases o <;> rfl

theorem selPAux_isSome_iff (p : α → Bool) :
    ∀ (l : List α) (n : Nat), 1 ≤ n →
      ((selPAux p l n).isSome ↔ n ≤ l.countP p) := by
  intro l
  induction l with
  | nil => intro n hn; simp [selPAux]; omega
  | cons x xs ih =>
    intro n hn
    cases hx : p x with
    | true =>
      rcases Nat.eq_or_lt_of_le hn with h1 | h1
      · simp [selPAux, hx, ← h1, List.countP_cons]
      · have hne : ¬ (n = 1) := by omega
        simp only [selPAux, hx, if_true, if_neg hne, isSome_map_add_one]
        rw [ih (n-1) (by omega)]
        simp [List.countP_cons, hx]
    | false =>
      simp only [selPAux, hx, Bool.false_eq_true, if_false, isSome_map_add_one]
      rw [ih n hn]
      simp [List.countP_cons, hx]

theorem selP_isSome_iff (p : α → Bool) (l : List α) (n : Nat) :
    (selP p l n).isSome ↔ 1 ≤ n ∧ n ≤ l.countP p := by
  by_cases hn : n = 0
  · simp [selP, hn]
  · simp only [selP, hn, if_false]
    rw [selPAux_isSome_iff p l n (by omega)]
    omega

/-- Characterisation of a successful select: the returned position is a
match and exactly `n - 1` matches precede it. -/
theorem selPAux_eq_some_iff (p : α → Bool) :
    ∀ (l : List α) (n q : Nat), 1 ≤ n →
      (selPAux p l n = some q ↔
        ∃ h : q < l.length, p (l.get ⟨q, h⟩) ∧ (l.take q).countP p = n - 1) := by
  intro l
  induction l with
  | nil => intro n q hn; simp [selPAux]
  | cons x xs ih =>
    intro n q hn
    cases hx : p x with
    | true =>
      rcases Nat.eq_or_lt_of_le hn with h1 | h1
      · subst h1
        simp only [selPAux, hx, if_true, if_pos rfl]
        constructor
        · rintro h; cases h
          exact ⟨by simp, by simpa using hx, by simp⟩
        · rintro ⟨h, hp, hc⟩
          cases q with
          | zero => rfl
          | succ q' =>
            exfalso
            simp [List.take_succ_cons, List.countP_cons, hx] at hc
      · have hne : ¬ (n = 1) := by omega
        simp only [selPAux, hx, if_true, if_neg hne]
        constructor
        · intro h
          rcases Option.map_eq_some'.mp h with ⟨q', hq', rfl⟩
          rcases (ih (n-1) q' (by omega)).mp hq' with ⟨hl, hp, hc⟩
          refine ⟨by simpa using Nat.succ_lt_succ hl, by simpa using hp, ?_⟩
          simp [List.take_succ_cons, List.countP_cons, hx, hc]
          omega
        · rintro ⟨h, hp, hc⟩
          cases q with
          | zero => exfalso; simp at hc; omega
          | succ q' =>
            have hl : q' < xs.length := by simpa using h
            have hp' : p (xs.get ⟨q', hl⟩) := by simpa using hp
            have hc' : (xs.take q').countP p = n - 1 - 1 := by
              simp [List.take_succ_cons, List.countP_cons, hx] at hc
              omega
            rw [(ih (n-1) q' (by omega)).mpr ⟨hl, hp', hc'⟩]
            rfl
    | false =>
      simp only [selPAux, hx, Bool.false_eq_true, if_false]
      constructor
      · intro h
        rcases Option.map_eq_some'.mp h with ⟨q', hq', rfl⟩
        rcases (ih n q' hn).mp hq' with ⟨hl, hp, hc⟩
        refine ⟨by simpa using Nat.succ_lt_succ hl, by simpa using hp, ?_⟩
        simpa [List.take_succ_cons, List.countP_cons, hx] using hc
      · rintro ⟨h, hp, hc⟩
        cases q with
        | zero =>
          exfalso
          simp at hp
          rw [hp] at hx
          cases hx
        | succ q' =>
          have hl : q' < xs.length := by simpa using h
          have hp' : p (xs.get ⟨q', hl⟩) := by simpa using hp
          have hc' : (xs.take q').countP p = n - 1 := by
            simpa [List.take_succ_cons, List.countP_cons, hx] using hc
          rw [(ih n q' hn).mpr ⟨hl, hp', hc'⟩]
          rfl

theorem selP_eq_some_iff (p : α → Bool) (l : List α) (n q : Nat) :
    selP p l n = some q ↔
      1 ≤ n ∧ ∃ h : q < l.length, p (l.get ⟨q, h⟩) ∧ (l.take q).countP p = n - 1 := by
  by_cases hn : n = 0
  · simp [selP, hn]
  · simp only [selP, hn, if_false]
    rw [selPAux_eq_some_iff p l n q (by omega)]
    constructor
    · intro h; exact ⟨by omega, h⟩
    · intro h; exact h.2

/-- `getD`-phrased version of the select characterisation. -/
theorem selP_eq_some_iff_getD (p : α → Bool) (l : List α) (n q : Nat) (d : α) :
    selP p l n = some q ↔
      1 ≤ n ∧ q < l.length ∧ p (l.getD q d) ∧ (l.take q).countP p = n - 1 := by
  rw [selP_eq_some_iff]
  constructor
  · rintro ⟨hn, hq, hp, hc⟩
    refine ⟨hn, hq, ?_, hc⟩
    rw [List.getD_eq_getElem l d hq]
    simpa [List.get_eq_getElem] using hp
  · rintro ⟨hn, hq, hp, hc⟩
    refine ⟨hn, hq, ?_, hc⟩
    rw [List.getD_eq_getElem l d hq] at hp
    simpa [List.get_eq_getElem] using hp

theorem selP_isSome_exists (p : α → Bool) (l : List α) (n : Nat)
    (h1 : 1 ≤ n) (h2 : n ≤ l.countP p) : ∃ q, selP p l n = some q := by
  have := (selP_isSome_iff p l n).mpr ⟨h1, h2⟩
  rcases Option.isSome_iff_exists.mp this with ⟨q, hq⟩
  exact ⟨q, hq⟩

/-- Select positions are strictly monotone in the occurrence index. -/
theorem selP_lt_selP (p : α → Bool) (l : List α) (n₁ n₂ q₁ q₂ : Nat)
    (h₁ : selP p l n₁ = some q₁) (h₂ : selP p l n₂ = some q₂)
    (hlt : n₁ < n₂) : q₁ < q₂ := by
  rcases (selP_eq_some_iff p l n₁ q₁).mp h₁ with ⟨hn₁, hq₁, hp₁, hc₁⟩
  rcases (selP_eq_some_iff p l n₂ q₂).mp h₂ with ⟨hn₂, hq₂, hp₂, hc₂⟩
  by_contra hle
  have hle' : q₂ ≤ q₁ := by omega
  have : (l.take q₂).countP p ≤ (l.take q₁).countP p := by
    have : l.take q₂ = (l.take q₁).take q₂ := by
      rw [List.take_take, Nat.min_eq_left hle']
    rw [this]
    exact List.Sublist.countP_le p (List.take_sublist _ _)
  omega

theorem countP_take_le_countP (p : α → Bool) (l : List α) (k : Nat) :
    (l.take k).countP p ≤ l.countP p :=
  List.Sublist.countP_le p (List.take_sublist _ _)

theorem countP_take_mono (p : α → Bool) (l : List α) {j k : Nat} (h : j ≤ k) :
    (l.take j).countP p ≤ (l.take k).countP p := by
  have : l.take j = (l.take k).take j := by
    rw [List.take_take, Nat.min_eq_left h]
  rw [this]
  exact List.Sublist.countP_le p (List.take_sublist _ _)

/-- Splitting the inclusive prefix count at its last position. -/
theorem countP_take_succ_of_lt (p : α → Bool) (l : List α) (k : Nat) (d : α)
    (h : k < l.length) :
    (l.take (k+1)).countP p
      = (l.take k).countP p + (if p (l.getD k d) then 1 else 0) := by
  have h2 : l[k]? = some (l.getD k d) := by
    rw [List.getElem?_eq_getElem h, List.getD_eq_getElem l d h]
  rw [List.take_succ, h2, List.countP_append]
  have h3 : (some (l.getD k d)).toList = [l.getD k d] := rfl
  rw [h3, List.countP_cons, List.countP_nil, Nat.zero_add]

theorem countP_take_of_length_le (p : α → Bool) (l : List α) (k : Nat)
    (h : l.length ≤ k) : (l.take k).countP p = l.countP p := by
  rw [List.take_of_length_le h]

/-! ### Prefix counts and positional access through `insertIdx`,
`eraseIdx` and `set` -/

theorem countP_take_insertIdx_le (q : α → Bool) (a : α) :
    ∀ (l : List α) (i k : Nat), k ≤ i →
      ((l.insertIdx i a).take k).countP q = (l.take k).countP q := by
  intro l
  induction l with
  | nil =>
    intro i k hk
    cases i with
    | zero =>
      have : k = 0 := by omega
      simp [this]
    | succ i' => simp [List.insertIdx_succ_nil]
  | cons x xs ih =>
    intro i k hk
    cases i with
    | zero =>
      have : k = 0 := by omega
      simp [this]
    | succ i' =>
      cases k with
      | zero => simp
      | succ k' =>
        have hih := ih i' k' (by omega)
        simp only [List.insertIdx_succ_cons, List.take_succ_cons, List.countP_cons]
        omega

theorem countP_take_insertIdx_gt (q : α → Bool) (a : α) :
    ∀ (l : List α) (i k : Nat), i ≤ l.length → i < k →
      ((l.insertIdx i a).take k).countP q
        = (l.take (k-1)).countP q + (if q a then 1 else 0) := by
  intro l
  induction l with
  | nil =>
    intro i k hi hk
    have hi0 : i = 0 := by simpa using hi
    subst hi0
    cases k with
    | zero => omega
    | succ k' =>
      simp only [List.insertIdx_zero, List.take_succ_cons, List.take_nil,
        List.countP_cons, List.countP_nil, Nat.succ_sub_one]
  | cons x xs ih =>
    intro i k hi hk
    cases i with
    | zero =>
      cases k with
      | zero => omega
      | succ k' =>
        simp only [List.insertIdx_zero, List.take_succ_cons, List.countP_cons,
          Nat.succ_sub_one]
    | succ i' =>
      cases k with
      | zero => omega
      | succ k' =>
        cases k' with
        | zero => omega
        | succ k'' =>
          have hih := ih i' (k''+1) (by simpa using hi) (by omega)
          simp only [Nat.succ_sub_one] at hih ⊢
          simp only [List.insertIdx_succ_cons, List.take_succ_cons,
            List.countP_cons] at hih ⊢
          omega

theorem countP_take_eraseIdx_le (q : α → Bool) :
    ∀ (l : List α) (i k : Nat), k ≤ i →
      ((l.eraseIdx i).take k).countP q = (l.take k).countP q := by
  intro l
  induction l with
  | nil => intro i k hk; simp
  | cons x xs ih =>
    intro i k hk
    cases i with
    | zero =>
      have : k = 0 := by omega
      simp [this]
    | succ i' =>
      cases k with
      | zero => simp
      | succ k' =>
        have hih := ih i' k' (by omega)
        simp only [List.eraseIdx_cons_succ, List.take_succ_cons, List.countP_cons]
        omega

theorem countP_take_eraseIdx_ge (q : α → Bool) (d : α) :
    ∀ (l : List α) (i k : Nat), i < l.length → i ≤ k →
      ((l.eraseIdx i).take k).countP q + (if q (l.getD i d) then 1 else 0)
        = (l.take (k+1)).countP q := by
  intro l
  induction l with
  | nil => intro i k hi; simp at hi
  | cons x xs ih =>
    intro i k hi hk
    cases i with
    | zero =>
      simp only [List.eraseIdx_cons_zero, List.take_succ_cons, List.countP_cons,
        List.getD_cons_zero]
    | succ i' =>
      cases k with
      | zero => omega
      | succ k' =>
        have hih := ih i' k' (by simpa using hi) (by omega)
        simp only [List.eraseIdx_cons_succ, List.take_succ_cons, List.countP_cons,
          List.getD_cons_succ] at hih ⊢
        omega

theorem countP_take_set_le (q : α → Bool) (a : α) :
    ∀ (l : List α) (i k : Nat), k ≤ i →
      ((l.set i a).take k).countP q = (l.take k).countP q := by
  intro l
  induction l with
  | nil => intro i k hk; simp
  | cons x xs ih =>
    intro i k hk
    cases i with
    | zero =>
      have : k = 0 := by omega
      simp [this]
    | succ i' =>
      cases k with
      | zero => simp
      | succ k' =>
        have hih := ih i' k' (by omega)
        simp only [List.set_cons_succ, List.take_succ_cons, List.countP_cons]
        omega

theorem countP_take_set_gt (q : α → Bool) (a : α) (d : α) :
    ∀ (l : List α) (i k : Nat), i < l.length → i < k →
      ((l.set i a).take k).countP q + (if q (l.getD i d) then 1 else 0)
        = (l.take k).countP q + (if q a then 1 else 0) := by
  intro l
  induction l with
  | nil => intro i k hi; simp at hi
  | cons x xs ih =>
    intro i k hi hk
    cases i with
    | zero =>
      cases k with
      | zero => omega
      | succ k' =>
        simp only [List.set_cons_zero, List.take_succ_cons, List.countP_cons,
          List.getD_cons_zero]
        omega
    | succ i' =>
      cases k with
      | zero => omega
      | succ k' =>
        have hih := ih i' k' (by simpa using hi) (by omega)
        simp only [List.set_cons_succ, List.take_succ_cons, List.countP_cons,
          List.getD_cons_succ] at hih ⊢
        omega

theorem getD_insertIdx_lt (a d : α) :
    ∀ (l : List α) (i j : Nat), j < i →
      (l.insertIdx i a).getD j d = l.getD j d := by
  intro l
  induction l with
  | nil =>
    intro i j hj
    cases i with
    | zero => omega
    | succ i' => simp [List.insertIdx_succ_nil]
  | cons x xs ih =>
    intro i j hj
    cases i with
    | zero => omega
    | succ i' =>
      cases j with
      | zero => simp [List.insertIdx_succ_cons]
      | succ j' =>
        rw [List.insertIdx_succ_cons]
        simp only [List.getD_cons_succ]
        exact ih i' j' (by omega)

theorem getD_insertIdx_self (a d : α) :
    ∀ (l : List α) (i : Nat), i ≤ l.length →
      (l.insertIdx i a).getD i d = a := by
  intro l
  induction l with
  | nil =>
    intro i hi
    have : i = 0 := by simpa using hi
    simp [this]
  | cons x xs ih =>
    intro i hi
    cases i with
    | zero => simp
    | succ i' =>
      rw [List.insertIdx_succ_cons]
      simp only [List.getD_cons_succ]
      exact ih i' (by simpa using hi)

theorem getD_insertIdx_gt (a d : α) :
    ∀ (l : List α) (i j : Nat), i < j →
      (l.insertIdx i a).getD j d = l.getD (j-1) d := by
  intro l
  induction l with
  | nil =>
    intro i j hj
    cases i with
    | zero =>
      cases j with
      | zero => omega
      | succ j' => simp [List.insertIdx_zero]
    | succ i' => simp [List.insertIdx_succ_nil]
  | cons x xs ih =>
    intro i j hj
    cases i with
    | zero =>
      cases j with
      | zero => omega
      | succ j' => simp [List.insertIdx_zero]
    | succ i' =>
      cases j with
      | zero => omega
      | succ j' =>
        rw [List.insertIdx_succ_cons]
        simp only [List.getD_cons_succ]
        rw [ih i' j' (by omega)]
        cases j' with
        | zero => omega
        | succ j'' => simp

theorem getD_eraseIdx_lt (d : α) :
    ∀ (l : List α) (i j : Nat), j < i →
      (l.eraseIdx i).getD j d = l.getD j d := by
  intro l
  induction l with
  | nil => intro i j hj; simp
  | cons x xs ih =>
    intro i j hj
    cases i with
    | zero => omega
    | succ i' =>
      cases j with
      | zero => simp
      | succ j' =>
        rw [List.eraseIdx_cons_succ]
        simp only [List.getD_cons_succ]
        exact ih i' j' (by omega)

theorem getD_eraseIdx_ge (d : α) :
    ∀ (l : List α) (i j : Nat), i < l.length → i ≤ j →
      (l.eraseIdx i).getD j d = l.getD (j+1) d := by
  intro l
  induction l with
  | nil => intro i j hi; simp at hi
  | cons x xs ih =>
    intro i j hi hj
    cases i with
    | zero => simp
    | succ i' =>
      cases j with
      | zero => omega
      | succ j' =>
        rw [List.eraseIdx_cons_succ]
        simp only [List.getD_cons_succ]
        exact ih i' j' (by simpa using hi) (by omega)

theorem getD_set_self (a d : α) (l : List α) (i : Nat) (h : i < l.length) :
    (l.set i a).getD i d = a := by
  rw [List.getD_eq_getElem _ d (by simpa using h)]
  simp

theorem getD_set_ne (a d : α) (l : List α) (i j : Nat) (h : i ≠ j) :
    (l.set i a).getD j d = l.getD j d := by
  by_cases hj : j < l.length
  · rw [List.getD_eq_getElem _ d (by simpa using hj), List.getD_eq_getElem _ d hj]
    exact List.getElem_set_ne (by omega) _
  · have hlen : l.length ≤ j := by omega
    have h1 : (l.set i a).getD j d = d := List.getD_eq_default _ d (by simpa using hlen)
    have h2 : l.getD j d = d := List.getD_eq_default _ d hlen
    rw [h1, h2]

theorem countP_insertIdx (q : α → Bool) (a : α) (l : List α) (i : Nat)
    (h : i ≤ l.length) :
    (l.insertIdx i a).countP q = l.countP q + (if q a then 1 else 0) := by
  have h1 := countP_take_insertIdx_gt q a l i (l.length + 1) h (by omega)
  rw [countP_take_of_length_le q _ _ (by rw [List.length_insertIdx _ _ h])] at h1
  rw [countP_take_of_length_le q _ _ (by omega)] at h1
  exact h1

theorem countP_eraseIdx (q : α → Bool) (d : α) (l : List α) (i : Nat)
    (h : i < l.length) :
    (l.eraseIdx i).countP q + (if q (l.getD i d) then 1 else 0) = l.countP q := by
  have h1 := countP_take_eraseIdx_ge q d l i l.length h (by omega)
  rw [countP_take_of_length_le q _ _ (by rw [List.length_eraseIdx_of_lt h]; omega)] at h1
  rw [countP_take_of_length_le q _ _ (by omega)] at h1
  exact h1

theorem countP_set (q : α → Bool) (a d : α) (l : List α) (i : Nat)
    (h : i < l.length) :
    (l.set i a).countP q + (if q (l.getD i d) then 1 else 0)
      = l.countP q + (if q a then 1 else 0) := by
  have h1 := countP_take_set_gt q a d l i l.length h (by omega)
  rw [countP_take_of_length_le q _ _ (by simp)] at h1
  rw [countP_take_of_length_le q _ _ (by omega)] at h1
  exact h1

/-! ### Filter and map versus positional edits (wavelet-tree engine) -/

theorem filter_take_countP (p : α → Bool) :
    ∀ (l : List α) (m : Nat),
      (l.filter p).take ((l.take m).countP p) = (l.take m).filter p := by
  intro l
  induction l with
  | nil => intro m; simp
  | cons x xs ih =>
    intro m
    cases m with
    | zero => simp
    | succ m' =>
      cases hx : p x with
      | true =>
        rw [List.take_succ_cons, List.filter_cons_of_pos hx,
          List.filter_cons_of_pos hx, List.countP_cons_of_pos _ _ hx,
          List.take_succ_cons, ih m']
      | false =>
        rw [List.take_succ_cons, List.filter_cons_of_neg (by simp [hx]),
          List.filter_cons_of_neg (by simp [hx]),
          List.countP_cons_of_neg _ _ (by simp [hx]), ih m']

theorem getD_filter_countP (p : α → Bool) (d : α) :
    ∀ (l : List α) (i : Nat), i < l.length → p (l.getD i d) →
      (l.filter p).getD ((l.take i).countP p) d = l.getD i d := by
  intro l
  induction l with
  | nil => intro i hi; simp at hi
  | cons x xs ih =>
    intro i hi hp
    cases i with
    | zero =>
      simp only [List.getD_cons_zero] at hp ⊢
      rw [List.filter_cons_of_pos hp]
      simp
    | succ i' =>
      simp only [List.getD_cons_succ] at hp ⊢
      cases hx : p x with
      | true =>
        rw [List.take_succ_cons, List.countP_cons_of_pos _ _ hx,
          List.filter_cons_of_pos hx]
        simp only [List.getD_cons_succ]
        exact ih i' (by simpa using hi) hp
      | false =>
        rw [List.take_succ_cons, List.countP_cons_of_neg _ _ (by simp [hx]),
          List.filter_cons_of_neg (by simp [hx])]
        exact ih i' (by simpa using hi) hp

theorem filter_insertIdx_pos (p : α → Bool) (a : α) (hpa : p a) :
    ∀ (l : List α) (i : Nat), i ≤ l.length →
      (l.insertIdx i a).filter p
        = (l.filter p).insertIdx ((l.take i).countP p) a := by
  intro l
  induction l with
  | nil =>
    intro i hi
    have : i = 0 := by simpa using hi
    subst this
    simp [List.filter_cons_of_pos hpa]
  | cons x xs ih =>
    intro i hi
    cases i with
    | zero =>
      simp only [List.insertIdx_zero, List.take_zero, List.countP_nil,
        List.filter_cons_of_pos hpa]
    | succ i' =>
      rw [List.insertIdx_succ_cons, List.take_succ_cons]
      cases hx : p x with
      | true =>
        rw [List.filter_cons_of_pos hx, List.filter_cons_of_pos hx,
          List.countP_cons_of_pos _ _ hx, List.insertIdx_succ_cons,
          ih i' (by simpa using hi)]
      | false =>
        rw [List.filter_cons_of_neg (by simp [hx]),
          List.filter_cons_of_neg (by simp [hx]),
          List.countP_cons_of_neg _ _ (by simp [hx]),
          ih i' (by simpa using hi)]

theorem filter_insertIdx_neg (p : α → Bool) (a : α) (hpa : p a = false) :
    ∀ (l : List α) (i : Nat),
      (l.insertIdx i a).filter p = l.filter p := by
  intro l
  induction l with
  | nil =>
    intro i
    cases i with
    | zero =>
      have ha : ¬ (p a = true) := by simp [hpa]
      simp [List.filter_cons_of_neg ha]
    | succ i' => simp [List.insertIdx_succ_nil]
  | cons x xs ih =>
    intro i
    cases i with
    | zero =>
      have ha : ¬ (p a = true) := by simp [hpa]
      rw [List.insertIdx_zero, List.filter_cons_of_neg ha]
    | succ i' =>
      rw [List.insertIdx_succ_cons]
      cases hx : p x with
      | true =>
        rw [List.filter_cons_of_pos hx, List.filter_cons_of_pos hx, ih i']
      | false =>
        rw [List.filter_cons_of_neg (by simp [hx]),
          List.filter_cons_of_neg (by simp [hx]), ih i']

theorem map_insertIdx (f : α → β) (a : α) :
    ∀ (l : List α) (i : Nat),
      (l.insertIdx i a).map f = (l.map f).insertIdx i (f a) := by
  intro l
  induction l with
  | nil =>
    intro i
    cases i with
    | zero => simp
    | succ i' => simp [List.insertIdx_succ_nil]
  | cons x xs ih =>
    intro i
    cases i with
    | zero => simp
    | succ i' =>
      rw [List.insertIdx_succ_cons, List.map_cons, List.map_cons,
        List.insertIdx_succ_cons, ih i']

theorem filter_eraseIdx_pos (p : α → Bool) (d : α) :
    ∀ (l : List α) (i : Nat), i < l.length → p (l.getD i d) →
      (l.eraseIdx i).filter p
        = (l.filter p).eraseIdx ((l.take i).countP p) := by
  intro l
  induction l with
  | nil => intro i hi; simp at hi
  | cons x xs ih =>
    intro i hi hp
    cases i with
    | zero =>
      simp only [List.getD_cons_zero] at hp
      rw [List.eraseIdx_cons_zero, List.filter_cons_of_pos hp]
      simp
    | succ i' =>
      simp only [List.getD_cons_succ] at hp
      rw [List.eraseIdx_cons_succ, List.take_succ_cons]
      cases hx : p x with
      | true =>
        rw [List.filter_cons_of_pos hx, List.filter_cons_of_pos hx,
          List.countP_cons_of_pos _ _ hx, List.eraseIdx_cons_succ,
          ih i' (by simpa using hi) hp]
      | false =>
        rw [List.filter_cons_of_neg (by simp [hx]),
          List.filter_cons_of_neg (by simp [hx]),
          List.countP_cons_of_neg _ _ (by simp [hx]),
          ih i' (by simpa using hi) hp]

theorem filter_eraseIdx_neg (p : α → Bool) (d : α) :
    ∀ (l : List α) (i : Nat), i < l.length → p (l.getD i d) = false →
      (l.eraseIdx i).filter p = l.filter p := by
  intro l
  induction l with
  | nil => intro i hi; simp at hi
  | cons x xs ih =>
    intro i hi hp
    cases i with
    | zero =>
      simp only [List.getD_cons_zero] at hp
      rw [List.eraseIdx_cons_zero, List.filter_cons_of_neg (by simp [hp])]
    | succ i' =>
      simp only [List.getD_cons_succ] at hp
      rw [List.eraseIdx_cons_succ]
      cases hx : p x with
      | true =>
        rw [List.filter_cons_of_pos hx, List.filter_cons_of_pos hx,
          ih i' (by simpa using hi) hp]
      | false =>
        rw [List.filter_cons_of_neg (by simp [hx]),
          List.filter_cons_of_neg (by simp [hx]), ih i' (by simpa using hi) hp]

theorem map_eraseIdx (f : α → β) :
    ∀ (l : List α) (i : Nat),
      (l.eraseIdx i).map f = (l.map f).eraseIdx i := by
  intro l
  induction l with
  | nil => intro i; simp
  | cons x xs ih =>
    intro i
    cases i with
    | zero => simp
    | succ i' =>
      rw [List.eraseIdx_cons_succ, List.map_cons, List.map_cons,
        List.eraseIdx_cons_succ, ih i']

theorem selP_map (f : α → β) (p : β → Bool) :
    ∀ (l : List α) (n : Nat), selP p (l.map f) n = selP (fun x => p (f x)) l n := by
  have aux : ∀ (l : List α) (n : Nat),
      selPAux p (l.map f) n = selPAux (fun x => p (f x)) l n := by
    intro l
    induction l with
    | nil => intro n; simp [selPAux]
    | cons x xs ih =>
      intro n
      simp only [List.map_cons, selPAux, ih]
  intro l n
  by_cases hn : n = 0
  · simp [selP, hn]
  · simp only [selP, hn, if_false, aux]

theorem selP_congr (p q : α → Bool) :
    ∀ (l : List α) (n : Nat), (∀ x ∈ l, p x = q x) → selP p l n = selP q l n := by
  have aux : ∀ (l : List α) (n : Nat), (∀ x ∈ l, p x = q x) →
      selPAux p l n = selPAux q l n := by
    intro l
    induction l with
    | nil => intro n h; rfl
    | cons x xs ih =>
      intro n h
      have hx : p x = q x := h x (by simp)
      have ihx : ∀ m, selPAux p xs m = selPAux q xs m :=
        fun m => ih m (fun y hy => h y (by simp [hy]))
      simp only [selPAux, hx, ihx]
  intro l n h
  by_cases hn : n = 0
  · simp [selP, hn]
  · simp only [selP, hn, if_false, aux l n h]

theorem countP_congr_mem (p q : α → Bool) :
    ∀ (l : List α), (∀ x ∈ l, p x = q x) → l.countP p = l.countP q := by
  intro l
  induction l with
  | nil => intro h; rfl
  | cons x xs ih =>
    intro h
    rw [List.countP_cons, List.countP_cons, h x (by simp),
      ih (fun y hy => h y (by simp [hy]))]

/-- Shifting a bound position map through `Option.bind`. -/
theorem bind_shift (o : Option Nat) (f g : Nat → Option Nat)
    (h : ∀ j, f j = (g j).map (· + 1)) :
    o.bind f = (o.bind g).map (· + 1) := by
  cases o with
  | none => rfl
  | some j => simpa using h j

theorem bind_shift_succ (o : Option Nat) (f g : Nat → Option Nat)
    (h : ∀ j, f (j + 1) = (g j).map (· + 1)) :
    (o.map (· + 1)).bind f = (o.bind g).map (· + 1) := by
  cases o with
  | none => rfl
  | some j => simpa using h j

/-- The core select composition: selecting the `n`-th `b`-match inside
`l.filter p` and then locating that element back in `l` (via select on
`p`) finds the `n`-th element of `l` matching both predicates. -/
theorem selP_filter_compose (p b : α → Bool) (l : List α) (n : Nat) :
    ((selP b (l.filter p) n).bind (fun j => selP p l (j + 1)))
      = selP (fun x => p x && b x) l n := by
  induction l generalizing n with
  | nil => simp [selP, selPAux]
  | cons x xs ih =>
    by_cases hn : n = 0
    · simp [selP, hn]
    · cases hpx : p x with
      | false =>
        have h2f : ∀ m, 1 ≤ m →
            selP p (x :: xs) m = (selP p xs m).map (· + 1) := by
          intro m hm
          have hm0 : ¬ (m = 0) := by omega
          simp only [selP, selPAux, hpx, Bool.false_eq_true, if_false, hm0]
        have h1 : (x :: xs).filter p = xs.filter p := by
          rw [List.filter_cons_of_neg (by simp [hpx])]
        have h3 : selP (fun y => p y && b y) (x :: xs) n
            = (selP (fun y => p y && b y) xs n).map (· + 1) := by
          simp only [selP, hn, if_false, selPAux, hpx, Bool.false_and,
            Bool.false_eq_true, if_false]
        rw [h1, h3, ← ih]
        exact bind_shift _ _ _ (fun j => h2f (j+1) (by omega))
      | true =>
        have h2 : ∀ m, 1 ≤ m →
            selP p (x :: xs) (m + 1) = (selP p xs m).map (· + 1) := by
          intro m hm
          simp only [selP, selPAux, hpx, if_true]
          have hm1 : ¬ (m + 1 = 0) := by omega
          have hm2 : ¬ (m + 1 = 1) := by omega
          have hm3 : ¬ (m = 0) := by omega
          simp [hm1, hm2, hm3]
        have hf : (x :: xs).filter p = x :: xs.filter p :=
          List.filter_cons_of_pos hpx
        cases hbx : b x with
        | true =>
          by_cases h1 : n = 1
          · subst h1
            rw [hf]
            have hsel1 : selP b (x :: xs.filter p) 1 = some 0 := by
              simp [selP, selPAux, hbx]
            have hsel2 : selP p (x :: xs) 1 = some 0 := by
              simp [selP, selPAux, hpx]
            have hsel3 : selP (fun y => p y && b y) (x :: xs) 1 = some 0 := by
              simp [selP, selPAux, hpx, hbx]
            rw [hsel1, hsel3]
            simpa using hsel2
          · rw [hf]
            have hnn : ¬ (n - 1 = 0) := by omega
            have hsel1 : selP b (x :: xs.filter p) n
                = (selP b (xs.filter p) (n-1)).map (· + 1) := by
              simp only [selP, hn, if_false, selPAux, hbx, if_true, if_neg h1,
                hnn]
            have hsel3 : selP (fun y => p y && b y) (x :: xs) n
                = (selP (fun y => p y && b y) xs (n-1)).map (· + 1) := by
              simp only [selP, hn, if_false, selPAux, hpx, hbx, Bool.and_self,
                if_true, if_neg h1, hnn]
            rw [hsel1, hsel3, ← ih]
            exact bind_shift_succ _ _ _ (fun j => h2 (j+1) (by omega))
        | false =>
          rw [hf]
          have hsel1 : selP b (x :: xs.filter p) n
              = (selP b (xs.filter p) n).map (· + 1) := by
            simp only [selP, hn, if_false, selPAux, hbx, Bool.false_eq_true,
              if_false]
          have hsel3 : selP (fun y => p y && b y) (x :: xs) n
              = (selP (fun y => p y && b y) xs n).map (· + 1) := by
            simp only [selP, hn, if_false, selPAux, hpx, hbx, Bool.and_false,
              Bool.false_eq_true, if_false]
          rw [hsel1, hsel3, ← ih]
          exact bind_shift_succ _ _ _ (fun j => h2 (j+1) (by omega))

/-! ## The reference bit-vector semantics

The `BitVector` interface of the repository (rank inclusive in
`[0, position]`, 1-based select, positional insert/remove) is realised
on `List Bool`, exactly as the reference `ArrayBitVectorStrategy`
computes it (`rank0` is implemented there as `position + 1 - rank1`). -/

def rank1L (l : List Bool) (position : Nat) : Nat :=
  rkP (fun b => b) l position

def rank0L (l : List Bool) (position : Nat) : Nat :=
  position + 1 - rank1L l position

def select1L (l : List Bool) (n : Nat) : Option Nat :=
  selP (fun b => b) l n

def select0L (l : List Bool) (n : Nat) : Option Nat :=
  selP (fun b => !b) l n

theorem countP_not_split (p : α → Bool) (l : List α) :
    l.countP p + l.countP (fun x => !p x) = l.length := by
  induction l with
  | nil => rfl
  | cons x xs ih =>
    cases hx : p x <;>
      simp [List.countP_cons, hx] <;> omega

/-- On a prefix that stays inside the list, the subtraction-based
`rank0` agrees with directly counting the 0-bits. -/
theorem rank0L_eq_countP (l : List Bool) (position : Nat)
    (h : position < l.length) :
    rank0L l position = rkP (fun b => !b) l position := by
  unfold rank0L rank1L rkP
  have hlen : (l.take (position + 1)).length = position + 1 := by
    rw [List.length_take]
    omega
  have := countP_not_split (fun b => b) (l.take (position + 1))
  omega

/-! ## The two-bit wavelet tree

Faithful embedding of `TwoBitWaveletTree` (file
`two_bit_wavelet_tree.hpp`): three bit vectors, `root_bv` holding the
high bit of each symbol, `left_bv`/`right_bv` the low bits of the
symbols `< 2` / `≥ 2` in order.  Out-of-range accesses throw in C++;
every use below is guarded to stay in range, so list `getD`/`insertIdx`
defaults are never reached in the verified statements. -/

structure TwoBitWaveletTree where
  root_bv : List Bool
  left_bv : List Bool
  right_bv : List Bool
  deriving Repr, DecidableEq

namespace TwoBitWaveletTree

def size (w : TwoBitWaveletTree) : Nat := w.root_bv.length

/-- `access` of `TwoBitWaveletTree` (rank-indexed child lookup). -/
def access (w : TwoBitWaveletTree) (position : Nat) : Nat :=
  if w.root_bv.getD position false then
    (if w.right_bv.getD (rank1L w.root_bv position - 1) false then 3 else 2)
  else
    (if w.left_bv.getD (rank0L w.root_bv position - 1) false then 1 else 0)

/-- `rank` of `TwoBitWaveletTree` (inclusive, `rank(symbol, position)`). -/
def rank (w : TwoBitWaveletTree) (symbol : Nat) (position : Nat) : Nat :=
  if symbol < 2 then
    let root_rank := rank0L w.root_bv position
    if root_rank = 0 then 0
    else if symbol = 0 then rank0L w.left_bv (root_rank - 1)
    else rank1L w.left_bv (root_rank - 1)
  else
    let root_rank := rank1L w.root_bv position
    if root_rank = 0 then 0
    else if symbol = 2 then rank0L w.right_bv (root_rank - 1)
    else rank1L w.right_bv (root_rank - 1)

/-- `select` of `TwoBitWaveletTree` (`select(symbol, n)`, 1-based `n`). -/
def select (w : TwoBitWaveletTree) (symbol : Nat) (n : Nat) : Option Nat :=
  if n = 0 then none
  else if symbol = 0 then
    (select0L w.left_bv n).bind (fun j => select0L w.root_bv (j + 1))
  else if symbol = 1 then
    (select1L w.left_bv n).bind (fun j => select0L w.root_bv (j + 1))
  else if symbol = 2 then
    (select0L w.right_bv n).bind (fun j => select1L w.root_bv (j + 1))
  else
    (select1L w.right_bv n).bind (fun j => select1L w.root_bv (j + 1))

/-- `insert` of `TwoBitWaveletTree`: the root vector grows at
`position`, the selected child at the rank-derived `child_pos`. -/
def insert (w : TwoBitWaveletTree) (position : Nat) (symbol : Nat) :
    TwoBitWaveletTree :=
  let child_pos :=
    if position = 0 then 0
    else if symbol < 2 then rank0L w.root_bv (position - 1)
    else rank1L w.root_bv (position - 1)
  { root_bv := w.root_bv.insertIdx position (decide (2 ≤ symbol)),
    left_bv :=
      if symbol < 2 then w.left_bv.insertIdx child_pos (decide (symbol = 1))
      else w.left_bv,
    right_bv :=
      if symbol < 2 then w.right_bv
      else w.right_bv.insertIdx child_pos (decide (symbol = 3)) }

/-- `remove` of `TwoBitWaveletTree`. -/
def remove (w : TwoBitWaveletTree) (position : Nat) : TwoBitWaveletTree :=
  let root_bit := w.root_bv.getD position false
  let child_pos :=
    (if root_bit then rank1L w.root_bv position
     else rank0L w.root_bv position) - 1
  { root_bv := w.root_bv.eraseIdx position,
    left_bv := if root_bit then w.left_bv else w.left_bv.eraseIdx child_pos,
    right_bv := if root_bit then w.right_bv.eraseIdx child_pos else w.right_bv }

/-- `set` of `TwoBitWaveletTree` — implemented in the source as
`remove` followed by `insert`. -/
def set (w : TwoBitWaveletTree) (position : Nat) (symbol : Nat) :
    TwoBitWaveletTree :=
  TwoBitWaveletTree.insert (TwoBitWaveletTree.remove w position) position symbol

end TwoBitWaveletTree

/-- High bit of a symbol (chooses the right child). -/
def isHighSym (c : Nat) : Bool := decide (2 ≤ c)

/-- Low bit of a symbol (the bit stored in the chosen child). -/
def lowBitSym (c : Nat) : Bool := decide (c % 2 = 1)

/-- The canonical wavelet representation of a symbol sequence; this is
what `create_two_bit_wavelet_tree(data, n)` builds. -/
def wtEncode (s : List Nat) : TwoBitWaveletTree :=
  { root_bv := s.map isHighSym,
    left_bv := (s.filter (fun c => !isHighSym c)).map lowBitSym,
    right_bv := (s.filter isHighSym).map lowBitSym }

/-- All symbols of the sequence fit in two bits. -/
def SymBounded (s : List Nat) : Prop := ∀ c ∈ s, c ≤ 3

/-- Representation invariant of the wavelet tree: it is the encoding of
some two-bit symbol sequence (this is what holds in every quiescent
state reachable from `create_two_bit_wavelet_tree`). -/
def wtWF (w : TwoBitWaveletTree) : Prop :=
  ∃ s : List Nat, SymBounded s ∧ w = wtEncode s

theorem wtEncode_root_length (s : List Nat) :
    (wtEncode s).root_bv.length = s.length := by
  simp [wtEncode]

theorem wtEncode_left_length (s : List Nat) :
    (wtEncode s).left_bv.length = s.countP (fun c => !isHighSym c) := by
  simp [wtEncode, List.countP_eq_length_filter]

theorem wtEncode_right_length (s : List Nat) :
    (wtEncode s).right_bv.length = s.countP isHighSym := by
  simp [wtEncode, List.countP_eq_length_filter]

theorem wtEncode_child_length_sum (s : List Nat) :
    (wtEncode s).left_bv.length + (wtEncode s).right_bv.length
      = (wtEncode s).root_bv.length := by
  rw [wtEncode_root_length, wtEncode_left_length, wtEncode_right_length]
  have := countP_not_split isHighSym s
  omega

theorem rank1L_map (f : α → Bool) (s : List α) (position : Nat) :
    rank1L (s.map f) position = (s.take (position + 1)).countP f := by
  unfold rank1L rkP
  rw [← List.map_take, List.countP_map]
  rfl

theorem rank0L_map (f : α → Bool) (s : List α) (position : Nat)
    (h : position < s.length) :
    rank0L (s.map f) position = (s.take (position + 1)).countP (fun x => !f x) := by
  rw [rank0L_eq_countP _ _ (by simpa using h)]
  unfold rkP
  rw [← List.map_take, List.countP_map]
  rfl

theorem getD_map (f : α → β) (s : List α) (i : Nat) (d : α) (e : β)
    (h : i < s.length) :
    (s.map f).getD i e = f (s.getD i d) := by
  rw [List.getD_eq_getElem _ e (by simpa using h), List.getD_eq_getElem _ d h,
    List.getElem_map]

theorem getD_mem_of_lt (s : List α) (i : Nat) (d : α) (h : i < s.length) :
    s.getD i d ∈ s := by
  rw [List.getD_eq_getElem _ d h]
  exact List.getElem_mem h

theorem mem_take_subset (s : List α) (m : Nat) :
    ∀ x ∈ s.take m, x ∈ s :=
  fun _ hx => List.mem_of_mem_take hx

/-! ### The wavelet tree computes symbol-sequence access/rank/select -/

/-- `access` on the encoding reads back the symbol. -/
theorem access_encode (s : List Nat) (hb : SymBounded s) (i : Nat)
    (h : i < s.length) :
    (wtEncode s).access i = s.getD i 0 := by
  have hc3 : s.getD i 0 ≤ 3 := hb _ (getD_mem_of_lt s i 0 h)
  have hroot : (wtEncode s).root_bv.getD i false = isHighSym (s.getD i 0) := by
    unfold wtEncode
    exact getD_map isHighSym s i 0 false h
  have hsucc := countP_take_succ_of_lt isHighSym s i 0 h
  have hsuccn := countP_take_succ_of_lt (fun c => !isHighSym c) s i 0 h
  unfold TwoBitWaveletTree.access
  rw [hroot]
  cases hhigh : isHighSym (s.getD i 0) with
  | true =>
    simp only [if_true]
    have hr : rank1L (wtEncode s).root_bv i
        = (s.take (i+1)).countP isHighSym := by
      unfold wtEncode
      exact rank1L_map isHighSym s i
    have hrpos : (s.take (i+1)).countP isHighSym
        = (s.take i).countP isHighSym + 1 := by
      rw [hsucc, hhigh]
      rfl
    have hklt : (s.take i).countP isHighSym < s.countP isHighSym := by
      have h1 : (s.take (i+1)).countP isHighSym ≤ s.countP isHighSym :=
        countP_take_le_countP _ _ _
      omega
    have hgetr : (wtEncode s).right_bv.getD ((s.take i).countP isHighSym) false
        = lowBitSym (s.getD i 0) := by
      unfold wtEncode
      have hlen : (s.take i).countP isHighSym < (s.filter isHighSym).length := by
        rw [← List.countP_eq_length_filter]
        exact hklt
      rw [getD_map lowBitSym _ _ 0 false hlen,
        getD_filter_countP isHighSym 0 s i h hhigh]
    rw [hr, hrpos, Nat.add_sub_cancel, hgetr]
    have h2 : 2 ≤ s.getD i 0 := by
      have := of_decide_eq_true hhigh
      exact this
    rcases Nat.lt_or_ge (s.getD i 0) 3 with h3 | h3
    · have : s.getD i 0 = 2 := by omega
      rw [this]
      rfl
    · have : s.getD i 0 = 3 := by omega
      rw [this]
      rfl
  | false =>
    simp only [Bool.false_eq_true, if_false]
    have hr : rank0L (wtEncode s).root_bv i
        = (s.take (i+1)).countP (fun c => !isHighSym c) := by
      unfold wtEncode
      exact rank0L_map isHighSym s i h
    have hrpos : (s.take (i+1)).countP (fun c => !isHighSym c)
        = (s.take i).countP (fun c => !isHighSym c) + 1 := by
      simp only [hhigh] at hsuccn
      simpa using hsuccn
    have hklt : (s.take i).countP (fun c => !isHighSym c)
        < s.countP (fun c => !isHighSym c) := by
      have h1 : (s.take (i+1)).countP (fun c => !isHighSym c)
          ≤ s.countP (fun c => !isHighSym c) :=
        countP_take_le_countP _ _ _
      omega
    have hgetl : (wtEncode s).left_bv.getD
        ((s.take i).countP (fun c => !isHighSym c)) false
        = lowBitSym (s.getD i 0) := by
      unfold wtEncode
      have hlen : (s.take i).countP (fun c => !isHighSym c)
          < (s.filter (fun c => !isHighSym c)).length := by
        rw [← List.countP_eq_length_filter]
        exact hklt
      rw [getD_map lowBitSym _ _ 0 false hlen,
        getD_filter_countP (fun c => !isHighSym c) 0 s i h
          (by simp only [hhigh]; rfl)]
    rw [hr, hrpos, Nat.add_sub_cancel, hgetl]
    have h2 : s.getD i 0 < 2 := by
      by_contra hc
      have hde : isHighSym (s.getD i 0) = true := decide_eq_true (by omega)
      rw [hde] at hhigh
      cases hhigh
    rcases Nat.lt_or_ge (s.getD i 0) 1 with h3 | h3
    · have : s.getD i 0 = 0 := by omega
      rw [this]
      rfl
    · have : s.getD i 0 = 1 := by omega
      rw [this]
      rfl

/-- Membership-congruence: on two-bit symbols the combined child/root
predicates coincide with symbol equality. -/
theorem sym_pred_eq (sym : Nat) (hsym : sym ≤ 3) (c : Nat) (hc : c ≤ 3) :
    ((if sym < 2 then (fun x => !isHighSym x) else isHighSym) c
      && (if sym % 2 = 1 then lowBitSym c else !lowBitSym c))
      = decide (c = sym) := by
  interval_cases sym <;> interval_cases c <;> rfl

/-- `rank` on the encoding counts symbol occurrences in the inclusive
prefix. -/
theorem rank_encode (s : List Nat) (hb : SymBounded s) (sym i : Nat)
    (hsym : sym ≤ 3) (h : i < s.length) :
    (wtEncode s).rank sym i
      = (s.take (i+1)).countP (fun c => decide (c = sym)) := by
  have hbtake : ∀ c ∈ s.take (i+1), c ≤ 3 :=
    fun c hc => hb c (mem_take_subset s (i+1) c hc)
  have hcong : ∀ p : Nat → Bool,
      (∀ c, c ≤ 3 → p c = decide (c = sym)) →
      (s.take (i+1)).countP p
        = (s.take (i+1)).countP (fun c => decide (c = sym)) := by
    intro p hp
    exact countP_congr_mem _ _ _ (fun c hc => hp c (hbtake c hc))
  rcases Nat.lt_or_ge sym 2 with hs2 | hs2
  · -- left half: the root rank is a 0-rank
    have hrr : rank0L (wtEncode s).root_bv i
        = (s.take (i+1)).countP (fun c => !isHighSym c) := by
      unfold wtEncode
      exact rank0L_map isHighSym s i h
    set rr := (s.take (i+1)).countP (fun c => !isHighSym c) with hrrdef
    unfold TwoBitWaveletTree.rank
    rw [if_pos hs2, hrr]
    by_cases hz : rr = 0
    · rw [if_pos hz]
      have : (s.take (i+1)).countP (fun c => decide (c = sym)) = 0 := by
        have hle : (s.take (i+1)).countP (fun c => decide (c = sym))
            ≤ (s.take (i+1)).countP (fun c => !isHighSym c) := by
          apply List.countP_mono_left
          intro c hc hcs
          have : c = sym := of_decide_eq_true hcs
          subst this
          have : ¬ (2 ≤ c) := by omega
          simpa [isHighSym] using this
        omega
      omega
    · rw [if_neg hz]
      have hrr_le : rr ≤ s.countP (fun c => !isHighSym c) :=
        countP_take_le_countP _ _ _
      have hfl : (wtEncode s).left_bv
          = (s.filter (fun c => !isHighSym c)).map lowBitSym := rfl
      have htake : ((s.filter (fun c => !isHighSym c)).take rr)
          = (s.take (i+1)).filter (fun c => !isHighSym c) := by
        rw [hrrdef]
        exact filter_take_countP (fun c => !isHighSym c) s (i+1)
      by_cases hs0 : sym = 0
      · rw [if_pos hs0]
        have hlt : rr - 1 < (wtEncode s).left_bv.length := by
          rw [hfl, List.length_map, ← List.countP_eq_length_filter]
          omega
        rw [rank0L_eq_countP _ _ hlt]
        unfold rkP
        have hone : rr - 1 + 1 = rr := by omega
        rw [hone, hfl, ← List.map_take, List.countP_map, htake,
          List.countP_filter]
        subst hs0
        apply hcong
        intro c hc
        interval_cases c <;> rfl
      · have hs1 : sym = 1 := by omega
        rw [if_neg hs0]
        rw [hfl]
        unfold rank1L rkP
        have hone : rr - 1 + 1 = rr := by omega
        rw [hone, ← List.map_take, List.countP_map, htake, List.countP_filter]
        subst hs1
        apply hcong
        intro c hc
        interval_cases c <;> rfl
  · -- right half: the root rank is a 1-rank
    have hrr : rank1L (wtEncode s).root_bv i
        = (s.take (i+1)).countP isHighSym := by
      unfold wtEncode
      exact rank1L_map isHighSym s i
    set rr := (s.take (i+1)).countP isHighSym with hrrdef
    unfold TwoBitWaveletTree.rank
    rw [if_neg (by omega), hrr]
    by_cases hz : rr = 0
    · rw [if_pos hz]
      have : (s.take (i+1)).countP (fun c => decide (c = sym)) = 0 := by
        have hle : (s.take (i+1)).countP (fun c => decide (c = sym))
            ≤ (s.take (i+1)).countP isHighSym := by
          apply List.countP_mono_left
          intro c hc hcs
          have : c = sym := of_decide_eq_true hcs
          subst this
          exact decide_eq_true (by omega)
        omega
      omega
    · rw [if_neg hz]
      have hrr_le : rr ≤ s.countP isHighSym :=
        countP_take_le_countP _ _ _
      have hfr : (wtEncode s).right_bv
          = (s.filter isHighSym).map lowBitSym := rfl
      have htake : ((s.filter isHighSym).take rr)
          = (s.take (i+1)).filter isHighSym := by
        rw [hrrdef]
        exact filter_take_countP isHighSym s (i+1)
      by_cases hs22 : sym = 2
      · rw [if_pos hs22]
        have hlt : rr - 1 < (wtEncode s).right_bv.length := by
          rw [hfr, List.length_map, ← List.countP_eq_length_filter]
          omega
        rw [rank0L_eq_countP _ _ hlt]
        unfold rkP
        have hone : rr - 1 + 1 = rr := by omega
        rw [hone, hfr, ← List.map_take, List.countP_map, htake,
          List.countP_filter]
        subst hs22
        apply hcong
        intro c hc
        interval_cases c <;> rfl
      · have hs3 : sym = 3 := by omega
        rw [if_neg hs22]
        rw [hfr]
        unfold rank1L rkP
        have hone : rr - 1 + 1 = rr := by omega
        rw [hone, ← List.map_take, List.countP_map, htake, List.countP_filter]
        subst hs3
        apply hcong
        intro c hc
        interval_cases c <;> rfl

/-- `select` on the encoding finds the `n`-th occurrence of the
symbol. -/
theorem select_encode (s : List Nat) (hb : SymBounded s) (sym n : Nat)
    (hsym : sym ≤ 3) :
    (wtEncode s).select sym n = selP (fun c => decide (c = sym)) s n := by
  by_cases hn : n = 0
  · subst hn
    unfold TwoBitWaveletTree.select
    simp [selP]
  have hcong : ∀ p : Nat → Bool, (∀ c, c ≤ 3 → p c = decide (c = sym)) →
      selP p s n = selP (fun c => decide (c = sym)) s n := by
    intro p hp
    exact selP_congr _ _ s n (fun c hc => hp c (hb c hc))
  unfold TwoBitWaveletTree.select
  rw [if_neg hn]
  have hroot : (wtEncode s).root_bv = s.map isHighSym := rfl
  have hleft : (wtEncode s).left_bv
      = (s.filter (fun c => !isHighSym c)).map lowBitSym := rfl
  have hright : (wtEncode s).right_bv = (s.filter isHighSym).map lowBitSym := rfl
  by_cases h0 : sym = 0
  · rw [if_pos h0]
    unfold select0L
    rw [hleft, hroot]
    simp only [selP_map]
    rw [selP_filter_compose (fun c => !isHighSym c) (fun c => !lowBitSym c) s n]
    subst h0
    apply hcong
    intro c hc
    interval_cases c <;> rfl
  by_cases h1 : sym = 1
  · rw [if_neg h0, if_pos h1]
    unfold select1L select0L
    rw [hleft, hroot]
    simp only [selP_map]
    rw [selP_filter_compose (fun c => !isHighSym c) (fun c => lowBitSym c) s n]
    subst h1
    apply hcong
    intro c hc
    interval_cases c <;> rfl
  by_cases h2 : sym = 2
  · rw [if_neg h0, if_neg h1, if_pos h2]
    unfold select0L select1L
    rw [hright, hroot]
    simp only [selP_map]
    rw [selP_filter_compose isHighSym (fun c => !lowBitSym c) s n]
    subst h2
    apply hcong
    intro c hc
    interval_cases c <;> rfl
  · have h3 : sym = 3 := by omega
    rw [if_neg h0, if_neg h1, if_neg h2]
    unfold select1L
    rw [hright, hroot]
    simp only [selP_map]
    rw [selP_filter_compose isHighSym (fun c => lowBitSym c) s n]
    subst h3
    apply hcong
    intro c hc
    interval_cases c <;> rfl

theorem wt_eq_of_parts (w1 w2 : TwoBitWaveletTree)
    (h1 : w1.root_bv = w2.root_bv) (h2 : w1.left_bv = w2.left_bv)
    (h3 : w1.right_bv = w2.right_bv) : w1 = w2 := by
  cases w1; cases w2
  simp only at h1 h2 h3
  rw [h1, h2, h3]

theorem wt_insert_root (w : TwoBitWaveletTree) (i sym : Nat) :
    (w.insert i sym).root_bv = w.root_bv.insertIdx i (decide (2 ≤ sym)) := rfl

theorem wt_insert_left (w : TwoBitWaveletTree) (i sym : Nat) :
    (w.insert i sym).left_bv
      = if sym < 2 then
          w.left_bv.insertIdx
            (if i = 0 then 0
             else if sym < 2 then rank0L w.root_bv (i - 1)
             else rank1L w.root_bv (i - 1)) (decide (sym = 1))
        else w.left_bv := rfl

theorem wt_insert_right (w : TwoBitWaveletTree) (i sym : Nat) :
    (w.insert i sym).right_bv
      = if sym < 2 then w.right_bv
        else w.right_bv.insertIdx
          (if i = 0 then 0
           else if sym < 2 then rank0L w.root_bv (i - 1)
           else rank1L w.root_bv (i - 1)) (decide (sym = 3)) := rfl

theorem wt_remove_root (w : TwoBitWaveletTree) (i : Nat) :
    (w.remove i).root_bv = w.root_bv.eraseIdx i := rfl

theorem wt_remove_left (w : TwoBitWaveletTree) (i : Nat) :
    (w.remove i).left_bv
      = if w.root_bv.getD i false then w.left_bv
        else w.left_bv.eraseIdx
          ((if w.root_bv.getD i false then rank1L w.root_bv i
            else rank0L w.root_bv i) - 1) := rfl

theorem wt_remove_right (w : TwoBitWaveletTree) (i : Nat) :
    (w.remove i).right_bv
      = if w.root_bv.getD i false then
          w.right_bv.eraseIdx
            ((if w.root_bv.getD i false then rank1L w.root_bv i
              else rank0L w.root_bv i) - 1)
        else w.right_bv := rfl

/-- The wavelet `insert` is the encoding of the sequence insert. -/
theorem insert_encode (s : List Nat) (sym i : Nat) (hsym : sym ≤ 3)
    (hi : i ≤ s.length) :
    (wtEncode s).insert i sym = wtEncode (s.insertIdx i sym) := by
  have hroot : (wtEncode s).root_bv = s.map isHighSym := rfl
  have hleft : (wtEncode s).left_bv
      = (s.filter (fun c => !isHighSym c)).map lowBitSym := rfl
  have hright : (wtEncode s).right_bv = (s.filter isHighSym).map lowBitSym := rfl
  rcases Nat.lt_or_ge sym 2 with hs2 | hs2
  · -- low symbol: the left child receives the low bit
    have hcp : (if i = 0 then 0
        else if sym < 2 then rank0L (wtEncode s).root_bv (i - 1)
        else rank1L (wtEncode s).root_bv (i - 1))
        = (s.take i).countP (fun c => !isHighSym c) := by
      by_cases hi0 : i = 0
      · subst hi0; simp
      · rw [if_neg hi0, if_pos hs2, hroot,
          rank0L_map isHighSym s (i-1) (by omega)]
        have h11 : i - 1 + 1 = i := by omega
        rw [h11]
    have hlow : (fun c => !isHighSym c) sym = true := by
      have hn2 : ¬ (2 ≤ sym) := by omega
      simpa [isHighSym] using hn2
    apply wt_eq_of_parts
    · rw [wt_insert_root, hroot]
      show _ = (s.insertIdx i sym).map isHighSym
      rw [map_insertIdx]
      rfl
    · rw [wt_insert_left, if_pos hs2, hcp, hleft]
      show _ = ((s.insertIdx i sym).filter (fun c => !isHighSym c)).map lowBitSym
      rw [filter_insertIdx_pos (fun c => !isHighSym c) sym hlow s i hi,
        map_insertIdx]
      have hl1 : lowBitSym sym = decide (sym = 1) := by
        interval_cases sym <;> rfl
      rw [hl1]
    · rw [wt_insert_right, if_pos hs2, hright]
      show _ = ((s.insertIdx i sym).filter isHighSym).map lowBitSym
      rw [filter_insertIdx_neg isHighSym sym (by simpa [isHighSym] using hs2) s i]
  · -- high symbol: the right child receives the low bit
    have hcp : (if i = 0 then 0
        else if sym < 2 then rank0L (wtEncode s).root_bv (i - 1)
        else rank1L (wtEncode s).root_bv (i - 1))
        = (s.take i).countP isHighSym := by
      by_cases hi0 : i = 0
      · subst hi0; simp
      · rw [if_neg hi0, if_neg (by omega), hroot, rank1L_map isHighSym s (i-1)]
        have h11 : i - 1 + 1 = i := by omega
        rw [h11]
    have hhigh : isHighSym sym = true := decide_eq_true hs2
    apply wt_eq_of_parts
    · rw [wt_insert_root, hroot]
      show _ = (s.insertIdx i sym).map isHighSym
      rw [map_insertIdx]
      rfl
    · rw [wt_insert_left, if_neg (by omega), hleft]
      show _ = ((s.insertIdx i sym).filter (fun c => !isHighSym c)).map lowBitSym
      rw [filter_insertIdx_neg (fun c => !isHighSym c) sym (by simp [hhigh]) s i]
    · rw [wt_insert_right, if_neg (by omega), hcp, hright]
      show _ = ((s.insertIdx i sym).filter isHighSym).map lowBitSym
      rw [filter_insertIdx_pos isHighSym sym hhigh s i hi, map_insertIdx]
      have hl1 : lowBitSym sym = decide (sym = 3) := by
        interval_cases sym <;> rfl
      rw [hl1]

/-- The wavelet `remove` is the encoding of the sequence erase. -/
theorem remove_encode (s : List Nat) (i : Nat) (hi : i < s.length) :
    (wtEncode s).remove i = wtEncode (s.eraseIdx i) := by
  have hroot : (wtEncode s).root_bv = s.map isHighSym := rfl
  have hleft : (wtEncode s).left_bv
      = (s.filter (fun c => !isHighSym c)).map lowBitSym := rfl
  have hright : (wtEncode s).right_bv = (s.filter isHighSym).map lowBitSym := rfl
  have hrb : (wtEncode s).root_bv.getD i false = isHighSym (s.getD i 0) := by
    rw [hroot]
    exact getD_map isHighSym s i 0 false hi
  have hsucc := countP_take_succ_of_lt isHighSym s i 0 hi
  have hsuccn := countP_take_succ_of_lt (fun c => !isHighSym c) s i 0 hi
  cases hhigh : isHighSym (s.getD i 0) with
  | true =>
    have hcp : (if (wtEncode s).root_bv.getD i false
          then rank1L (wtEncode s).root_bv i
          else rank0L (wtEncode s).root_bv i) - 1
        = (s.take i).countP isHighSym := by
      rw [hrb, hhigh, if_pos rfl, hroot, rank1L_map isHighSym s i, hsucc, hhigh]
      simp
    apply wt_eq_of_parts
    · rw [wt_remove_root, hroot]
      show _ = (s.eraseIdx i).map isHighSym
      rw [map_eraseIdx]
    · rw [wt_remove_left, hrb, hhigh, if_pos rfl, hleft]
      show _ = ((s.eraseIdx i).filter (fun c => !isHighSym c)).map lowBitSym
      rw [filter_eraseIdx_neg (fun c => !isHighSym c) 0 s i hi
        (by simp only [hhigh]; rfl)]
    · rw [wt_remove_right, hcp, hrb, hhigh, if_pos rfl, hright]
      show _ = ((s.eraseIdx i).filter isHighSym).map lowBitSym
      rw [filter_eraseIdx_pos isHighSym 0 s i hi hhigh, map_eraseIdx]
  | false =>
    have hcp : (if (wtEncode s).root_bv.getD i false
          then rank1L (wtEncode s).root_bv i
          else rank0L (wtEncode s).root_bv i) - 1
        = (s.take i).countP (fun c => !isHighSym c) := by
      rw [hrb, hhigh, if_neg (by simp), hroot, rank0L_map isHighSym s i hi]
      simp only [hhigh] at hsuccn
      simp at hsuccn
      omega
    apply wt_eq_of_parts
    · rw [wt_remove_root, hroot]
      show _ = (s.eraseIdx i).map isHighSym
      rw [map_eraseIdx]
    · rw [wt_remove_left, hcp, hrb, hhigh, if_neg (by simp), hleft]
      show _ = ((s.eraseIdx i).filter (fun c => !isHighSym c)).map lowBitSym
      rw [filter_eraseIdx_pos (fun c => !isHighSym c) 0 s i hi
        (by simp only [hhigh]; rfl), map_eraseIdx]
    · rw [wt_remove_right, hrb, hhigh, if_neg (by simp), hright]
      show _ = ((s.eraseIdx i).filter isHighSym).map lowBitSym
      rw [filter_eraseIdx_neg isHighSym 0 s i hi hhigh]

theorem eraseIdx_insertIdx_eq_set (a : α) :
    ∀ (l : List α) (i : Nat), i < l.length →
      (l.eraseIdx i).insertIdx i a = l.set i a := by
  intro l
  induction l with
  | nil => intro i hi; simp at hi
  | cons x xs ih =>
    intro i hi
    cases i with
    | zero => simp
    | succ i' =>
      rw [List.eraseIdx_cons_succ, List.insertIdx_succ_cons,
        List.set_cons_succ, ih i' (by simpa using hi)]

/-- The wavelet `set` (remove-then-insert) is the encoding of the
sequence update. -/
theorem set_encode (s : List Nat) (sym i : Nat) (hsym : sym ≤ 3)
    (hi : i < s.length) :
    (wtEncode s).set i sym = wtEncode (s.set i sym) := by
  unfold TwoBitWaveletTree.set
  rw [remove_encode s i hi, insert_encode _ _ _ hsym
    (by rw [List.length_eraseIdx_of_lt hi]; omega),
    eraseIdx_insertIdx_eq_set sym s i hi]

theorem symBounded_insertIdx (s : List Nat) (sym i : Nat) (hb : SymBounded s)
    (hsym : sym ≤ 3) (hi : i ≤ s.length) :
    SymBounded (s.insertIdx i sym) := by
  intro c hc
  rcases (List.mem_insertIdx hi).mp hc with h | h
  · omega
  · exact hb c h

theorem symBounded_eraseIdx (s : List Nat) (i : Nat) (hb : SymBounded s) :
    SymBounded (s.eraseIdx i) :=
  fun c hc => hb c (List.mem_of_mem_eraseIdx hc)

theorem symBounded_set (s : List Nat) (sym i : Nat) (hb : SymBounded s)
    (hsym : sym ≤ 3) :
    SymBounded (s.set i sym) := by
  intro c hc
  rcases List.mem_or_eq_of_mem_set hc with h | h
  · exact hb c h
  · omega

/-- **C2.** For the two-bit wavelet tree, after every single mutation
(`insert`, `remove`, or `set`) applied to any quiescent
(well-formed) state, the length of the left child bit vector plus the
length of the right child bit vector equals the length of the root bit
vector, which is the number `n` of symbols: after an in-range insert the
common value is `n + 1`, after a remove it is `n - 1`, and after a set
it is unchanged. -/
theorem C2_wavelet_child_length_invariant (w : TwoBitWaveletTree)
    (hwf : wtWF w) :
    (∀ i sym, i ≤ w.size → sym ≤ 3 →
        (w.insert i sym).left_bv.length + (w.insert i sym).right_bv.length
          = (w.insert i sym).root_bv.length
        ∧ (w.insert i sym).root_bv.length = w.size + 1)
    ∧ (∀ i, i < w.size →
        (w.remove i).left_bv.length + (w.remove i).right_bv.length
          = (w.remove i).root_bv.length
        ∧ (w.remove i).root_bv.length = w.size - 1)
    ∧ (∀ i sym, i < w.size → sym ≤ 3 →
        (w.set i sym).left_bv.length + (w.set i sym).right_bv.length
          = (w.set i sym).root_bv.length
        ∧ (w.set i sym).root_bv.length = w.size) := by
  rcases hwf with ⟨s, hb, rfl⟩
  have hsz : (wtEncode s).size = s.length := wtEncode_root_length s
  refine ⟨?_, ?_, ?_⟩
  · intro i sym hi hsym
    rw [hsz] at hi
    rw [insert_encode s sym i hsym hi]
    refine ⟨wtEncode_child_length_sum _, ?_⟩
    rw [wtEncode_root_length, hsz, List.length_insertIdx _ _ hi]
  · intro i hi
    rw [hsz] at hi
    rw [remove_encode s i hi]
    refine ⟨wtEncode_child_length_sum _, ?_⟩
    rw [wtEncode_root_length, hsz, List.length_eraseIdx_of_lt hi]
  · intro i sym hi hsym
    rw [hsz] at hi
    rw [set_encode s sym i hsym hi]
    refine ⟨wtEncode_child_length_sum _, ?_⟩
    rw [wtEncode_root_length, hsz, List.length_set]

/-- Witness for C2: the singleton wavelet holding the root folder symbol
(the state built by `create_flouds`), mutated by one insert, one remove
and one set. -/
theorem C2_wavelet_child_length_invariant_witness :
    (((wtEncode [2]).insert 1 0).left_bv.length
        + ((wtEncode [2]).insert 1 0).right_bv.length
      = ((wtEncode [2]).insert 1 0).root_bv.length)
    ∧ (((wtEncode [2]).remove 0).left_bv.length
        + ((wtEncode [2]).remove 0).right_bv.length
      = ((wtEncode [2]).remove 0).root_bv.length)
    ∧ (((wtEncode [2]).set 0 1).left_bv.length
        + ((wtEncode [2]).set 0 1).right_bv.length
      = ((wtEncode [2]).set 0 1).root_bv.length) := by
  have hsb : SymBounded [2] := by
    intro c hc
    simp at hc
    omega
  have h := C2_wavelet_child_length_invariant (wtEncode [2]) ⟨[2], hsb, rfl⟩
  exact ⟨(h.1 1 0 (by decide) (by decide)).1,
    (h.2.1 0 (by decide)).1,
    (h.2.2 0 1 (by decide) (by decide)).1⟩

/-! ## FLOUDS — the directory hierarchy encoding

Faithful embedding of `Flouds` (`flouds.cpp`): a structure bit vector
(first-child marks), a four-symbol wavelet tree of node types
(0 = file, 1 = non-empty folder, 2 = empty folder), and the name
sequence (byte strings, as stored by `ImmerNameSequenceStrategy`).
`size_t` out-of-range exceptions surface as `none`. -/

structure Flouds where
  structure_bv : List Bool
  types : TwoBitWaveletTree
  names : List (List Nat)
  deriving Repr, DecidableEq

namespace Flouds

def size (f : Flouds) : Nat := f.structure_bv.length

/-- `Flouds::parent`: `select(types, 1, rank1(structure, v) - 1)`.
For `v = 0` the select argument is `0` and the call throws
(`none`); for `v ≥ |structure|` the rank throws. -/
def parent (f : Flouds) (node_id : Nat) : Option Nat :=
  if f.structure_bv.length ≤ node_id then none
  else f.types.select 1 (rank1L f.structure_bv node_id - 1)

/-- `Flouds::is_folder` (callers guard `node_id` in range). -/
def is_folder (f : Flouds) (node_id : Nat) : Bool :=
  f.types.access node_id = 1 || f.types.access node_id = 2

/-- `Flouds::is_file`. -/
def is_file (f : Flouds) (node_id : Nat) : Bool :=
  f.types.access node_id = 0

/-- `Flouds::is_empty_folder`. -/
def is_empty_folder (f : Flouds) (node_id : Nat) : Bool :=
  f.types.access node_id = 2

/-- `Flouds::get_name`. -/
def get_name (f : Flouds) (node_id : Nat) : List Nat :=
  f.names.getD node_id []

/-- `Flouds::children_count`.  An empty folder has no children;
otherwise the children block runs from `select1(structure, fi)` to the
next first-child mark (or the end of the structure). -/
def children_count (f : Flouds) (node_id : Nat) : Option Nat :=
  if f.types.size ≤ node_id then none
  else if f.types.access node_id = 2 then some 0
  else
    let folder_index := f.types.rank 1 node_id + 1
    (select1L f.structure_bv folder_index).bind (fun start =>
      let total_folders := rank1L f.structure_bv (f.structure_bv.length - 1)
      if folder_index + 1 ≤ total_folders then
        (select1L f.structure_bv (folder_index + 1)).map (fun np => np - start)
      else some (f.structure_bv.length - start))

/-- `Flouds::child`: `select1(structure, rank(types,1,v) + 1) + k`. -/
def child (f : Flouds) (node_id child_index : Nat) : Option Nat :=
  if f.types.size ≤ node_id then none
  else (select1L f.structure_bv (f.types.rank 1 node_id + 1)).map
    (· + child_index)

/-- `Flouds::insert`: append a new last child under `parent_id`.  The
`select1` fallback (`catch`) uses `structure->size()`.  Returns the new
state and the inserted position. -/
def insert (f : Flouds) (parent_id : Nat) (name : List Nat)
    (is_folder : Bool) : Option (Flouds × Nat) :=
  if f.types.size ≤ parent_id then none
  else
    let was_empty := f.types.access parent_id = 2
    let types1 := if was_empty then f.types.set parent_id 1 else f.types
    (if was_empty then some 0 else f.children_count parent_id).bind
      (fun cc =>
        let parent_folder_index := types1.rank 1 parent_id + 1
        let insert_pos :=
          match select1L f.structure_bv parent_folder_index with
          | some st => st + cc
          | none => f.structure_bv.length + cc
        some ({ structure_bv := f.structure_bv.insertIdx insert_pos was_empty,
                types := types1.insert insert_pos (if is_folder then 2 else 0),
                names := f.names.insertIdx insert_pos name }, insert_pos))

/-- `Flouds::remove`: remove the node from all three sequences; if it
was the only child its parent becomes an empty folder, otherwise a
removed first-child mark moves to the next sibling. -/
def remove (f : Flouds) (node_id : Nat) : Option Flouds :=
  (f.parent node_id).bind (fun parent_index =>
    (f.children_count parent_index).bind (fun parent_children_before =>
      let was_first_child := f.structure_bv.getD node_id false
      let structure1 := f.structure_bv.eraseIdx node_id
      let names1 := f.names.eraseIdx node_id
      let types1 := f.types.remove node_id
      if parent_children_before = 1 then
        some { structure_bv := structure1,
               types := types1.set parent_index 2,
               names := names1 }
      else if was_first_child then
        some { structure_bv := structure1.set node_id true,
               types := types1,
               names := names1 }
      else
        some { structure_bv := structure1, types := types1, names := names1 }))

end Flouds

/-- `create_flouds()`: a single root node, marked first child, typed
empty folder (2), named `"root"` (bytes). -/
def create_flouds : Flouds :=
  { structure_bv := [true],
    types := wtEncode [2],
    names := [[114, 111, 111, 116]] }

/-- States reachable from the initial single-root tree by insert
operations under a folder and removals of non-root files or empty
folders (the preconditions the specification places on the two
mutations). -/
inductive Reach : Flouds → Prop where
  | init : Reach create_flouds
  | insert_step (f : Flouds) (parent_id : Nat) (name : List Nat)
      (is_folder : Bool) (f2 : Flouds) (v : Nat) :
      Reach f → parent_id < f.types.size →
      (f.types.access parent_id = 1 ∨ f.types.access parent_id = 2) →
      Flouds.insert f parent_id name is_folder = some (f2, v) → Reach f2
  | remove_step (f : Flouds) (node_id : Nat) (f2 : Flouds) :
      Reach f → node_id ≠ 0 → node_id < f.types.size →
      (f.types.access node_id = 0 ∨ f.types.access node_id = 2) →
      Flouds.remove f node_id = some f2 → Reach f2

/-- Symbol-1 predicate (non-empty folder) on the type sequence. -/
def isOne (c : Nat) : Bool := decide (c = 1)

/-- Exclusive prefix count of 1-bits of the structure vector. -/
def ones (bs : List Bool) (k : Nat) : Nat := (bs.take k).countP (fun b => b)

/-- Exclusive prefix count of non-empty folders in the type sequence. -/
def folders (tl : List Nat) (k : Nat) : Nat := (tl.take k).countP isOne

/-- The concrete well-formedness invariant of a FLOUDS state, over the
decoded type sequence `tl`. -/
structure FloudsInv (bs : List Bool) (tl : List Nat) (ns : List (List Nat)) :
    Prop where
  len_types : tl.length = bs.length
  len_names : ns.length = bs.length
  npos : 0 < bs.length
  bounded : ∀ c ∈ tl, c ≤ 2
  root_mark : bs.getD 0 false = true
  root_type : tl.getD 0 0 = 1 ∨ tl.getD 0 0 = 2
  ones_eq : bs.countP (fun b => b) = tl.countP isOne + 1
  block1 : 1 < bs.length → bs.getD 1 false = true ∧ tl.getD 0 0 = 1
  order : ∀ k, k < bs.length → ones bs (k+1) ≤ folders tl k + 1

/-- Well-formedness of a FLOUDS state. -/
def FloudsWF (f : Flouds) : Prop :=
  ∃ tl : List Nat, f.types = wtEncode tl
    ∧ FloudsInv f.structure_bv tl f.names

/-! ### Select positions versus inclusive prefix counts -/

theorem selP_le_of_count (p : α → Bool) (l : List α) (v q : Nat)
    (h : selP p l ((l.take (v+1)).countP p) = some q) : q ≤ v := by
  rcases (selP_eq_some_iff p l _ q).mp h with ⟨hn, hq, hp, hc⟩
  by_contra hgt
  have hvq : v + 1 ≤ q := by omega
  have h1 : (l.take (v+1)).countP p ≤ (l.take q).countP p :=
    countP_take_mono p l hvq
  omega

theorem selP_gt_of_count_succ [Inhabited α] (p : α → Bool) (l : List α)
    (v q : Nat)
    (h : selP p l ((l.take (v+1)).countP p + 1) = some q) : v < q := by
  rcases (selP_eq_some_iff_getD p l _ q default).mp h with ⟨hn, hq, hp, hc⟩
  by_contra hle
  have hqv : q + 1 ≤ v + 1 := by omega
  have h1 : (l.take (q+1)).countP p ≤ (l.take (v+1)).countP p :=
    countP_take_mono p l hqv
  have h2 := countP_take_succ_of_lt p l q (default : α) hq
  rw [hp] at h2
  simp only [if_true] at h2
  omega

/-- A matching position is found by select at its own inclusive rank. -/
theorem selP_at_own_rank [Inhabited α] (p : α → Bool) (l : List α) (v : Nat)
    (hv : v < l.length) (hp : p (l.getD v default)) :
    selP p l ((l.take (v+1)).countP p) = some v := by
  have h2 := countP_take_succ_of_lt p l v (default : α) hv
  rw [hp] at h2
  simp only [if_true] at h2
  apply (selP_eq_some_iff_getD p l _ v default).mpr
  refine ⟨by omega, hv, hp, by omega⟩

/-- The inclusive rank at a position between the `j`-th match and the
next match is `j`. -/
theorem count_take_between [Inhabited α] (p : α → Bool) (l : List α)
    (j st u : Nat)
    (hst : selP p l j = some st) (hu : st ≤ u)
    (hub : ∀ q2, selP p l (j+1) = some q2 → u < q2)
    (hun : u < l.length) :
    (l.take (u+1)).countP p = j := by
  rcases (selP_eq_some_iff_getD p l j st default).mp hst
    with ⟨hj1, hstlen, hpst, hcst⟩
  have hlow : j ≤ (l.take (u+1)).countP p := by
    have h1 : (l.take (st+1)).countP p ≤ (l.take (u+1)).countP p :=
      countP_take_mono p l (by omega)
    have h2 := countP_take_succ_of_lt p l st (default : α) hstlen
    rw [hpst] at h2
    simp only [if_true] at h2
    omega
  by_contra hne
  have hhigh : j + 1 ≤ (l.take (u+1)).countP p := by omega
  have hcnt : j + 1 ≤ l.countP p := by
    have := countP_take_le_countP p l (u+1)
    omega
  rcases selP_isSome_exists p l (j+1) (by omega) hcnt with ⟨q2, hq2⟩
  have hq2gt := hub q2 hq2
  rcases (selP_eq_some_iff p l (j+1) q2).mp hq2 with ⟨h1x, hq2len, hq2p, hq2c⟩
  have : (l.take (u+1)).countP p ≤ (l.take q2).countP p :=
    countP_take_mono p l (by omega)
  omega

/-- If there is no `(j+1)`-th match, the inclusive rank anywhere at or
beyond the `j`-th match is `j`. -/
theorem count_take_after_last [Inhabited α] (p : α → Bool) (l : List α)
    (j st u : Nat)
    (hst : selP p l j = some st) (hu : st ≤ u)
    (hlast : l.countP p = j) (hun : u < l.length) :
    (l.take (u+1)).countP p = j := by
  rcases (selP_eq_some_iff_getD p l j st default).mp hst
    with ⟨hj1, hstlen, hpst, hcst⟩
  have hlow : j ≤ (l.take (u+1)).countP p := by
    have h1 : (l.take (st+1)).countP p ≤ (l.take (u+1)).countP p :=
      countP_take_mono p l (by omega)
    have h2 := countP_take_succ_of_lt p l st (default : α) hstlen
    rw [hpst] at h2
    simp only [if_true] at h2
    omega
  have hup : (l.take (u+1)).countP p ≤ j := by
    have := countP_take_le_countP p l (u+1)
    omega
  omega

theorem isOne_def : isOne = fun c => decide (c = 1) := rfl

theorem symBounded_of_inv {bs tl ns} (hinv : FloudsInv bs tl ns) :
    SymBounded tl :=
  fun c hc => Nat.le_trans (hinv.bounded c hc) (by omega)

theorem types_size_eq {f : Flouds} {tl : List Nat}
    (hty : f.types = wtEncode tl)
    (hinv : FloudsInv f.structure_bv tl f.names) :
    f.types.size = f.structure_bv.length := by
  rw [hty]
  unfold TwoBitWaveletTree.size
  rw [wtEncode_root_length]
  exact hinv.len_types

theorem ones_full {bs : List Bool} (k : Nat) (h : bs.length ≤ k) :
    ones bs k = bs.countP (fun b => b) := by
  unfold ones
  exact countP_take_of_length_le _ _ _ h

theorem ones_pos {bs : List Bool} (hn : 0 < bs.length)
    (h0 : bs.getD 0 false = true) (k : Nat) (hk : 1 ≤ k) :
    1 ≤ ones bs k := by
  show 1 ≤ (bs.take k).countP (fun b => b)
  have h1 : (bs.take 1).countP (fun b => b) = 1 := by
    have h2 := countP_take_succ_of_lt (fun b => b) bs 0 false hn
    rw [h0] at h2
    simpa using h2
  have h3 := countP_take_mono (fun b => b) bs hk
  omega

theorem ones_ge_two {bs : List Bool} (hn : 1 < bs.length)
    (h0 : bs.getD 0 false = true) (h1 : bs.getD 1 false = true)
    (k : Nat) (hk : 2 ≤ k) :
    2 ≤ ones bs k := by
  show 2 ≤ (bs.take k).countP (fun b => b)
  have ha : (bs.take 1).countP (fun b => b) = 1 := by
    have h2 := countP_take_succ_of_lt (fun b => b) bs 0 false (by omega)
    rw [h0] at h2
    simpa using h2
  have hb : (bs.take 2).countP (fun b => b) = 2 := by
    have h2 := countP_take_succ_of_lt (fun b => b) bs 1 false hn
    rw [h1] at h2
    have h4 : ((fun b : Bool => b) true) = true := rfl
    have h5 : (1:Nat) + 1 = 2 := rfl
    rw [h4, if_pos rfl, h5] at h2
    omega
  have h3 := countP_take_mono (fun b => b) bs hk
  omega

/-- The children block of a non-empty node `v` (a file or a non-empty
folder — anything whose type is not 2): `children_count` returns the
width of the block between the `(r+1)`-st and `(r+2)`-nd first-child
marks, and every position of that block has inclusive structure rank
`r + 1`, where `r` is the number of non-empty folders at positions
`≤ v`. -/
theorem children_block (f : Flouds) (tl : List Nat)
    (hty : f.types = wtEncode tl)
    (hinv : FloudsInv f.structure_bv tl f.names)
    (v : Nat) (hv : v < f.structure_bv.length) (hnot2 : tl.getD v 0 ≠ 2) :
    ∃ st en,
      select1L f.structure_bv (folders tl (v+1) + 1) = some st
      ∧ f.children_count v = some (en - st)
      ∧ st < en ∧ en ≤ f.structure_bv.length
      ∧ (∀ u, st ≤ u → u < en →
          ones f.structure_bv (u+1) = folders tl (v+1) + 1)
      ∧ (en = f.structure_bv.length
          ∨ ones f.structure_bv (en+1) = folders tl (v+1) + 2) := by
  set bs := f.structure_bv with hbs
  set n := bs.length with hn
  set r := folders tl (v+1) with hr
  have hsb := symBounded_of_inv hinv
  have hvt : v < tl.length := by rw [hinv.len_types]; exact hv
  have hone := hinv.ones_eq
  have hrle : r ≤ tl.countP isOne := countP_take_le_countP _ _ _
  -- the start of the block
  have hstex : ∃ st, select1L bs (r + 1) = some st := by
    apply selP_isSome_exists
    · omega
    · omega
  rcases hstex with ⟨st, hst⟩
  have hstchar := (selP_eq_some_iff_getD (fun b => b) bs (r+1) st false).mp hst
  rcases hstchar with ⟨h1x, hstlen, hstbit, hstcnt⟩
  -- unfold children_count
  have hsize : f.types.size = n := types_size_eq hty hinv
  have hacc : f.types.access v = tl.getD v 0 := by
    rw [hty]
    exact access_encode tl hsb v hvt
  have hrank : f.types.rank 1 v = r := by
    rw [hty, rank_encode tl hsb 1 v (by omega) hvt, hr]
    rfl
  have htot : rank1L bs (n - 1) = tl.countP isOne + 1 := by
    unfold rank1L rkP
    have h2 : n - 1 + 1 = n := by
      have := hinv.npos
      omega
    rw [h2]
    have h3 := countP_take_of_length_le (fun b => b) bs n (by omega)
    rw [h3]
    exact hone
  have hccdef : f.children_count v
      = (select1L bs (r+1)).bind (fun start =>
          if r + 2 ≤ rank1L bs (n-1) then
            (select1L bs (r + 2)).map (fun np => np - start)
          else some (n - start)) := by
    unfold Flouds.children_count
    rw [if_neg (by omega), hacc, if_neg hnot2, hrank]
  by_cases hlast : r + 1 ≤ tl.countP isOne
  · -- there is a following block
    have henex : ∃ en, select1L bs (r + 2) = some en := by
      apply selP_isSome_exists
      · omega
      · omega
    rcases henex with ⟨en, hen⟩
    rcases (selP_eq_some_iff_getD (fun b => b) bs (r+2) en false).mp hen
      with ⟨h2x, henlen, henbit, hencnt⟩
    refine ⟨st, en, hst, ?_, ?_, by omega, ?_, ?_⟩
    · rw [hccdef, hst]
      simp only [Option.some_bind]
      rw [if_pos (by omega), hen]
      rfl
    · exact selP_lt_selP _ _ _ _ _ _ hst hen (by omega)
    · intro u hu1 hu2
      show (bs.take (u+1)).countP (fun b => b) = r + 1
      apply count_take_between (fun b => b) bs (r+1) st u hst hu1
      · intro q2 hq2
        have hen2 : selP (fun b => b) bs (r + 1 + 1) = some en := hen
        rw [hen2] at hq2
        cases hq2
        omega
      · omega
    · right
      have h5 := countP_take_succ_of_lt (fun b => b) bs en false henlen
      rw [show bs.getD en false = true from henbit] at h5
      have h6 : (if ((fun b : Bool => b) true) then (1:Nat) else 0) = 1 := rfl
      rw [h6] at h5
      show (bs.take (en+1)).countP (fun b => b) = r + 2
      omega
  · -- v's block is the last one
    have hreq : r = tl.countP isOne := by omega
    refine ⟨st, n, hst, ?_, by omega, by omega, ?_, Or.inl rfl⟩
    · rw [hccdef, hst]
      simp only [Option.some_bind]
      rw [if_neg (by omega)]
    · intro u hu1 hu2
      show (bs.take (u+1)).countP (fun b => b) = r + 1
      apply count_take_after_last (fun b => b) bs (r+1) st u hst hu1
      · omega
      · omega

/-- Under the invariant, `children_count` succeeds on every node and
returns `0` exactly for empty folders. -/
theorem children_count_spec (f : Flouds) (tl : List Nat)
    (hty : f.types = wtEncode tl)
    (hinv : FloudsInv f.structure_bv tl f.names)
    (v : Nat) (hv : v < f.structure_bv.length) :
    ∃ c, f.children_count v = some c ∧ (c = 0 ↔ tl.getD v 0 = 2) := by
  have hsb := symBounded_of_inv hinv
  have hvt : v < tl.length := by rw [hinv.len_types]; exact hv
  have hacc : f.types.access v = tl.getD v 0 := by
    rw [hty]
    exact access_encode tl hsb v hvt
  by_cases h2 : tl.getD v 0 = 2
  · refine ⟨0, ?_, ⟨fun _ => h2, fun _ => rfl⟩⟩
    unfold Flouds.children_count
    rw [if_neg (by rw [types_size_eq hty hinv]; omega), hacc, if_pos h2]
  · rcases children_block f tl hty hinv v hv h2 with
      ⟨st, en, hsel, hcc, hlt, hle, hblock⟩
    refine ⟨en - st, hcc, ?_⟩
    constructor
    · intro h0
      omega
    · intro hc
      exact absurd hc h2

/-- Under the invariant, `parent (child v k) = v` for every non-empty
folder `v` and every `k` below its child count. -/
theorem parent_child_spec (f : Flouds) (tl : List Nat)
    (hty : f.types = wtEncode tl)
    (hinv : FloudsInv f.structure_bv tl f.names)
    (v : Nat) (hv : v < f.structure_bv.length) (hfold : tl.getD v 0 = 1)
    (k c : Nat) (hcc : f.children_count v = some c) (hk : k < c) :
    ∃ w, f.child v k = some w ∧ f.parent w = some v := by
  have hsb := symBounded_of_inv hinv
  have hvt : v < tl.length := by rw [hinv.len_types]; exact hv
  have hnot2 : tl.getD v 0 ≠ 2 := by omega
  rcases children_block f tl hty hinv v hv hnot2 with
    ⟨st, en, hsel, hcc', hlt, hle, hblock, -⟩
  rw [hcc] at hcc'
  injection hcc' with hceq
  subst hceq
  have hrank : f.types.rank 1 v = folders tl (v+1) := by
    rw [hty, rank_encode tl hsb 1 v (by omega) hvt]
    rfl
  have hchild : f.child v k = some (st + k) := by
    unfold Flouds.child
    rw [if_neg (by rw [types_size_eq hty hinv]; omega), hrank, hsel]
    rfl
  refine ⟨st + k, hchild, ?_⟩
  have hwlt : st + k < f.structure_bv.length := by omega
  have hones : ones f.structure_bv (st + k + 1) = folders tl (v+1) + 1 :=
    hblock (st + k) (by omega) (by omega)
  have hrank1 : rank1L f.structure_bv (st + k) = folders tl (v+1) + 1 := by
    unfold rank1L rkP
    exact hones
  unfold Flouds.parent
  rw [if_neg (by omega), hrank1]
  have hstep : folders tl (v+1) + 1 - 1 = folders tl (v+1) := by omega
  rw [hstep, hty, select_encode tl hsb 1 (folders tl (v+1)) (by omega)]
  have hfold2 : isOne (tl.getD v 0) = true := by
    rw [hfold]
    rfl
  have hown := selP_at_own_rank isOne tl v hvt hfold2
  rw [isOne_def] at hown
  rw [← isOne_def]
  exact hown

/-- Under the invariant, `parent` of a non-root node succeeds and
returns the position of the `(rank1(structure, v) - 1)`-th non-empty
folder, which lies strictly before `v`. -/
theorem parent_spec (f : Flouds) (tl : List Nat)
    (hty : f.types = wtEncode tl)
    (hinv : FloudsInv f.structure_bv tl f.names)
    (v : Nat) (hv1 : 1 ≤ v) (hv : v < f.structure_bv.length) :
    ∃ p, f.parent v = some p
      ∧ selP isOne tl (rank1L f.structure_bv v - 1) = some p
      ∧ tl.getD p 0 = 1 ∧ p < v := by
  have hsb := symBounded_of_inv hinv
  have hn2 : 1 < f.structure_bv.length := by omega
  have hblk := hinv.block1 hn2
  have ht2 : 2 ≤ rank1L f.structure_bv v :=
    ones_ge_two hn2 hinv.root_mark hblk.1 (v+1) (by omega)
  have htle : rank1L f.structure_bv v ≤ tl.countP isOne + 1 := by
    have h1 : rank1L f.structure_bv v ≤ f.structure_bv.countP (fun b => b) := by
      unfold rank1L rkP
      exact countP_take_le_countP _ _ _
    have := hinv.ones_eq
    omega
  have hpex : ∃ p, selP isOne tl (rank1L f.structure_bv v - 1) = some p := by
    apply selP_isSome_exists
    · omega
    · omega
  rcases hpex with ⟨p, hp⟩
  rcases (selP_eq_some_iff_getD isOne tl (rank1L f.structure_bv v - 1) p 0).mp hp
    with ⟨hp1, hplen, hpbit, hpcnt⟩
  have hpt : tl.getD p 0 = 1 := by
    have := of_decide_eq_true hpbit
    exact this
  refine ⟨p, ?_, hp, hpt, ?_⟩
  · unfold Flouds.parent
    rw [if_neg (by omega), hty,
      select_encode tl hsb 1 (rank1L f.structure_bv v - 1) (by omega),
      ← isOne_def]
    exact hp
  · -- the order invariant bounds the structure rank at the parent
    by_contra hge
    have hvp : v ≤ p := by omega
    have hplt : p < f.structure_bv.length := by
      rw [← hinv.len_types]
      exact hplen
    have hord := hinv.order p hplt
    have hmono : rank1L f.structure_bv v ≤ ones f.structure_bv (p+1) := by
      unfold rank1L rkP ones
      exact countP_take_mono _ _ (by omega)
    unfold folders at hord
    omega

/-- `parent(0)` throws: the root has no parent. -/
theorem parent_root_none (f : Flouds) (tl : List Nat)
    (hty : f.types = wtEncode tl)
    (hinv : FloudsInv f.structure_bv tl f.names) :
    f.parent 0 = none := by
  have h1 : rank1L f.structure_bv 0 = 1 := by
    unfold rank1L rkP
    have h2 := countP_take_succ_of_lt (fun b => b) f.structure_bv 0 false
      hinv.npos
    rw [hinv.root_mark] at h2
    have h4 : ((fun b : Bool => b) true) = true := rfl
    rw [h4, if_pos rfl] at h2
    simpa using h2
  unfold Flouds.parent
  rw [if_neg (by have := hinv.npos; omega), h1]
  rw [hty]
  unfold TwoBitWaveletTree.select
  rfl

/-! ### Prefix-count helpers for the FLOUDS invariant -/

theorem ones_le (bs : List Bool) (k : Nat) : ones bs k ≤ k := by
  unfold ones
  have h1 : (bs.take k).countP (fun b => b) ≤ (bs.take k).length :=
    List.countP_le_length _
  have h2 : (bs.take k).length ≤ k := by
    rw [List.length_take]
    omega
  omega

theorem folders_le (tl : List Nat) (k : Nat) : folders tl k ≤ k := by
  unfold folders
  have h1 : (tl.take k).countP isOne ≤ (tl.take k).length :=
    List.countP_le_length _
  have h2 : (tl.take k).length ≤ k := by
    rw [List.length_take]
    omega
  omega

theorem ones_succ (bs : List Bool) (k : Nat) (hk : k < bs.length) :
    ones bs (k+1) = ones bs k + (if bs.getD k false then 1 else 0) :=
  countP_take_succ_of_lt (fun b => b) bs k false hk

theorem folders_succ (tl : List Nat) (k : Nat) (hk : k < tl.length) :
    folders tl (k+1) = folders tl k + (if isOne (tl.getD k 0) then 1 else 0) :=
  countP_take_succ_of_lt isOne tl k 0 hk

theorem folders_mono (tl : List Nat) {j k : Nat} (h : j ≤ k) :
    folders tl j ≤ folders tl k := countP_take_mono isOne tl h

theorem ones_mono (bs : List Bool) {j k : Nat} (h : j ≤ k) :
    ones bs j ≤ ones bs k := countP_take_mono (fun b => b) bs h

theorem folders_full (tl : List Nat) (k : Nat) (h : tl.length ≤ k) :
    folders tl k = tl.countP isOne := countP_take_of_length_le isOne tl k h

theorem ones_insertIdx_le (a : Bool) (bs : List Bool) (i k : Nat)
    (hk : k ≤ i) : ones (bs.insertIdx i a) k = ones bs k :=
  countP_take_insertIdx_le (fun b => b) a bs i k hk

theorem ones_insertIdx_gt (a : Bool) (bs : List Bool) (i k : Nat)
    (hi : i ≤ bs.length) (hk : i < k) :
    ones (bs.insertIdx i a) k = ones bs (k-1) + (if a then 1 else 0) :=
  countP_take_insertIdx_gt (fun b => b) a bs i k hi hk

theorem folders_insertIdx_le (a : Nat) (tl : List Nat) (i k : Nat)
    (hk : k ≤ i) : folders (tl.insertIdx i a) k = folders tl k :=
  countP_take_insertIdx_le isOne a tl i k hk

theorem folders_insertIdx_gt (a : Nat) (tl : List Nat) (i k : Nat)
    (hi : i ≤ tl.length) (hk : i < k) :
    folders (tl.insertIdx i a) k
      = folders tl (k-1) + (if isOne a then 1 else 0) :=
  countP_take_insertIdx_gt isOne a tl i k hi hk

theorem folders_set_le (a : Nat) (tl : List Nat) (i k : Nat) (hk : k ≤ i) :
    folders (tl.set i a) k = folders tl k :=
  countP_take_set_le isOne a tl i k hk

theorem folders_set_gt (a : Nat) (tl : List Nat) (i k : Nat)
    (hi : i < tl.length) (hk : i < k) :
    folders (tl.set i a) k + (if isOne (tl.getD i 0) then 1 else 0)
      = folders tl k + (if isOne a then 1 else 0) :=
  countP_take_set_gt isOne a 0 tl i k hi hk

theorem selP_eq_none_of_gt (p : α → Bool) (l : List α) (n : Nat)
    (h : l.countP p < n) : selP p l n = none := by
  cases hs : selP p l n with
  | none => rfl
  | some q =>
    have h2 := (selP_isSome_iff p l n).mp (by rw [hs]; rfl)
    omega

theorem if_id_true : (if ((fun b : Bool => b) true) then (1:Nat) else 0) = 1 :=
  rfl

theorem if_id_false :
    (if ((fun b : Bool => b) false) then (1:Nat) else 0) = 0 := rfl

theorem if_true_nat : (if (true : Bool) then (1:Nat) else 0) = 1 := rfl

theorem if_false_nat : (if (false : Bool) then (1:Nat) else 0) = 0 := rfl

theorem if_isOne0 : (if isOne 0 then (1:Nat) else 0) = 0 := rfl

theorem if_isOne1 : (if isOne 1 then (1:Nat) else 0) = 1 := rfl

theorem if_isOne2 : (if isOne 2 then (1:Nat) else 0) = 0 := rfl

/-! ### Preservation of the invariant by `insert` -/

theorem flouds_insert_unfold (f : Flouds) (u : Nat) (name : List Nat)
    (isf : Bool) (hu : u < f.types.size) (cc ipos : Nat)
    (types1 : TwoBitWaveletTree)
    (htypes1 : types1
      = (if f.types.access u = 2 then f.types.set u 1 else f.types))
    (hcc : (if f.types.access u = 2 then some 0 else f.children_count u)
      = some cc)
    (hipos : (match select1L f.structure_bv (types1.rank 1 u + 1) with
               | some st => st + cc
               | none => f.structure_bv.length + cc) = ipos) :
    Flouds.insert f u name isf
      = some (⟨f.structure_bv.insertIdx ipos
                 (decide (f.types.access u = 2)),
               types1.insert ipos (if isf then 2 else 0),
               f.names.insertIdx ipos name⟩, ipos) := by
  subst htypes1
  subst hipos
  simp only [Flouds.insert]
  rw [if_neg (by omega), hcc, Option.some_bind]

/-- The invariant is preserved when a node of a non-folder type is
inserted at any position strictly after an empty folder `u` whose type
is updated to 1. -/
theorem floudsInv_insert_empty (bs : List Bool) (tl : List Nat)
    (ns : List (List Nat)) (hinv : FloudsInv bs tl ns)
    (u : Nat) (hu : u < bs.length) (h2 : tl.getD u 0 = 2)
    (ipos : Nat) (hupos : u < ipos) (hle : ipos ≤ bs.length)
    (name : List Nat) (s : Nat) (hs2 : s ≤ 2) (hsOne : isOne s = false) :
    FloudsInv (bs.insertIdx ipos true) ((tl.set u 1).insertIdx ipos s)
      (ns.insertIdx ipos name) := by
  have hnpos := hinv.npos
  have hone := hinv.ones_eq
  have hut : u < tl.length := by rw [hinv.len_types]; exact hu
  have htl1len : (tl.set u 1).length = bs.length := by
    rw [List.length_set]
    exact hinv.len_types
  have hipt : ipos ≤ (tl.set u 1).length := by rw [htl1len]; exact hle
  have htl10 : (tl.set u 1).getD 0 0 = 1 := by
    by_cases hu0 : u = 0
    · subst hu0
      exact getD_set_self 1 0 tl 0 hut
    · rw [getD_set_ne 1 0 tl u 0 hu0]
      exact (hinv.block1 (by omega)).2
  have hCgen : ∀ k, k ≤ u → folders (tl.set u 1) k = folders tl k :=
    fun k hk => folders_set_le 1 tl u k hk
  have hCgt : ∀ k, u < k → folders (tl.set u 1) k = folders tl k + 1 := by
    intro k hk
    have h5 := folders_set_gt 1 tl u k hut hk
    rw [h2, if_isOne2, if_isOne1] at h5
    omega
  have hkey : ones bs ipos ≤ folders tl ipos + 1 := by
    rcases Nat.eq_zero_or_pos ipos with h0 | h0
    · rw [h0]
      have h5 : ones bs 0 = 0 := rfl
      omega
    · have h5 := hinv.order (ipos - 1) (by omega)
      have h6 : ipos - 1 + 1 = ipos := by omega
      rw [h6] at h5
      have h7 : folders tl (ipos - 1) ≤ folders tl ipos :=
        folders_mono tl (by omega)
      omega
  refine ⟨?_, ?_, ?_, ?_, ?_, ?_, ?_, ?_, ?_⟩
  · rw [List.length_insertIdx _ _ hipt, List.length_insertIdx _ _ hle,
      htl1len]
  · rw [List.length_insertIdx _ _ (by rw [hinv.len_names]; exact hle),
      List.length_insertIdx _ _ hle, hinv.len_names]
  · rw [List.length_insertIdx _ _ hle]
    omega
  · intro c hc
    rcases (List.mem_insertIdx hipt).mp hc with h | h
    · omega
    · rcases List.mem_or_eq_of_mem_set h with h3 | h3
      · exact hinv.bounded c h3
      · omega
  · rw [getD_insertIdx_lt true false bs ipos 0 (by omega)]
    exact hinv.root_mark
  · rw [getD_insertIdx_lt s 0 (tl.set u 1) ipos 0 (by omega)]
    exact Or.inl htl10
  · have hA := countP_insertIdx (fun b => b) true bs ipos hle
    have hB := countP_insertIdx isOne s (tl.set u 1) ipos hipt
    have hC := countP_set isOne 1 0 tl u hut
    rw [if_id_true] at hA
    rw [hsOne, if_false_nat] at hB
    rw [h2, if_isOne2, if_isOne1] at hC
    omega
  · intro h1n
    constructor
    · by_cases hn1 : 1 < bs.length
      · have hip2 : 2 ≤ ipos := by
          by_cases hu0 : u = 0
          · exfalso
            rw [hu0] at h2
            have h5 := (hinv.block1 hn1).2
            omega
          · omega
        rw [getD_insertIdx_lt true false bs ipos 1 (by omega)]
        exact (hinv.block1 hn1).1
      · have hip1 : ipos = 1 := by omega
        rw [hip1]
        exact getD_insertIdx_self true false bs 1 (by omega)
    · rw [getD_insertIdx_lt s 0 (tl.set u 1) ipos 0 (by omega)]
      exact htl10
  · intro k hk
    rw [List.length_insertIdx _ _ hle] at hk
    rcases Nat.lt_trichotomy k ipos with hklt | hkeq | hkgt
    · have hA : ones (bs.insertIdx ipos true) (k+1) = ones bs (k+1) :=
        ones_insertIdx_le true bs ipos (k+1) (by omega)
      have hB : folders ((tl.set u 1).insertIdx ipos s) k
          = folders (tl.set u 1) k :=
        folders_insertIdx_le s (tl.set u 1) ipos k (by omega)
      have hC : folders tl k ≤ folders (tl.set u 1) k := by
        by_cases hku : k ≤ u
        · rw [hCgen k hku]
        · rw [hCgt k (by omega)]
          omega
      have hD := hinv.order k (by omega)
      rw [hA, hB]
      omega
    · rw [hkeq]
      have hA : ones (bs.insertIdx ipos true) (ipos+1)
          = ones bs ipos + 1 := by
        have h5 := ones_insertIdx_gt true bs ipos (ipos+1) hle (by omega)
        rw [if_true_nat] at h5
        have h6 : ipos + 1 - 1 = ipos := rfl
        rw [h6] at h5
        exact h5
      have hB : folders ((tl.set u 1).insertIdx ipos s) ipos
          = folders tl ipos + 1 := by
        rw [folders_insertIdx_le s (tl.set u 1) ipos ipos (by omega),
          hCgt ipos hupos]
      rw [hA, hB]
      omega
    · have hA : ones (bs.insertIdx ipos true) (k+1) = ones bs k + 1 := by
        have h5 := ones_insertIdx_gt true bs ipos (k+1) hle (by omega)
        rw [if_true_nat] at h5
        have h6 : k + 1 - 1 = k := rfl
        rw [h6] at h5
        exact h5
      have hB : folders ((tl.set u 1).insertIdx ipos s) k
          = folders tl (k-1) + 1 := by
        have h5 := folders_insertIdx_gt s (tl.set u 1) ipos k hipt (by omega)
        rw [hsOne, if_false_nat] at h5
        rw [h5, hCgt (k-1) (by omega)]
      have hD := hinv.order (k-1) (by omega)
      have h7 : k - 1 + 1 = k := by omega
      rw [h7] at hD
      rw [hA, hB]
      omega

/-- The invariant is preserved when a node of a non-folder type is
inserted with an unmarked structure bit at any position `≥ 2`. -/
theorem floudsInv_insert_nonempty (bs : List Bool) (tl : List Nat)
    (ns : List (List Nat)) (hinv : FloudsInv bs tl ns)
    (ipos : Nat) (hip2 : 2 ≤ ipos) (hle : ipos ≤ bs.length)
    (name : List Nat) (s : Nat) (hs2 : s ≤ 2) (hsOne : isOne s = false) :
    FloudsInv (bs.insertIdx ipos false) (tl.insertIdx ipos s)
      (ns.insertIdx ipos name) := by
  have hnpos := hinv.npos
  have hone := hinv.ones_eq
  have htllen : tl.length = bs.length := hinv.len_types
  have hipt : ipos ≤ tl.length := by omega
  have hkey : ones bs ipos ≤ folders tl ipos + 1 := by
    have h5 := hinv.order (ipos - 1) (by omega)
    have h6 : ipos - 1 + 1 = ipos := by omega
    rw [h6] at h5
    have h7 : folders tl (ipos - 1) ≤ folders tl ipos :=
      folders_mono tl (by omega)
    omega
  refine ⟨?_, ?_, ?_, ?_, ?_, ?_, ?_, ?_, ?_⟩
  · rw [List.length_insertIdx _ _ hipt, List.length_insertIdx _ _ hle,
      htllen]
  · rw [List.length_insertIdx _ _ (by rw [hinv.len_names]; exact hle),
      List.length_insertIdx _ _ hle, hinv.len_names]
  · rw [List.length_insertIdx _ _ hle]
    omega
  · intro c hc
    rcases (List.mem_insertIdx hipt).mp hc with h | h
    · omega
    · exact hinv.bounded c h
  · rw [getD_insertIdx_lt false false bs ipos 0 (by omega)]
    exact hinv.root_mark
  · rw [getD_insertIdx_lt s 0 tl ipos 0 (by omega)]
    exact hinv.root_type
  · have hA := countP_insertIdx (fun b => b) false bs ipos hle
    have hB := countP_insertIdx isOne s tl ipos hipt
    rw [if_id_false] at hA
    rw [hsOne, if_false_nat] at hB
    omega
  · intro h1n
    refine ⟨?_, ?_⟩
    · rw [getD_insertIdx_lt false false bs ipos 1 (by omega)]
      exact (hinv.block1 (by omega)).1
    · rw [getD_insertIdx_lt s 0 tl ipos 0 (by omega)]
      exact (hinv.block1 (by omega)).2
  · intro k hk
    rw [List.length_insertIdx _ _ hle] at hk
    rcases Nat.lt_trichotomy k ipos with hklt | hkeq | hkgt
    · rw [ones_insertIdx_le false bs ipos (k+1) (by omega),
        folders_insertIdx_le s tl ipos k (by omega)]
      exact hinv.order k (by omega)
    · rw [hkeq]
      have hA : ones (bs.insertIdx ipos false) (ipos+1) = ones bs ipos := by
        have h5 := ones_insertIdx_gt false bs ipos (ipos+1) hle (by omega)
        rw [if_false_nat] at h5
        have h6 : ipos + 1 - 1 = ipos := rfl
        rw [h6] at h5
        omega
      rw [hA, folders_insertIdx_le s tl ipos ipos (by omega)]
      omega
    · have hA : ones (bs.insertIdx ipos false) (k+1) = ones bs k := by
        have h5 := ones_insertIdx_gt false bs ipos (k+1) hle (by omega)
        rw [if_false_nat] at h5
        have h6 : k + 1 - 1 = k := rfl
        rw [h6] at h5
        omega
      have hB : folders (tl.insertIdx ipos s) k = folders tl (k-1) := by
        have h5 := folders_insertIdx_gt s tl ipos k hipt (by omega)
        rw [hsOne, if_false_nat] at h5
        omega
      have hD := hinv.order (k-1) (by omega)
      have h7 : k - 1 + 1 = k := by omega
      rw [h7] at hD
      rw [hA, hB]
      omega

/-- `Flouds::insert` under the invariant: on a folder parent it
succeeds, the insertion position satisfies `1 ≤ ipos ≤ n`, all three
sequences receive one new entry at `ipos`, and the well-formedness
invariant is preserved. -/
theorem flouds_insert_spec (f : Flouds) (tl : List Nat)
    (hty : f.types = wtEncode tl)
    (hinv : FloudsInv f.structure_bv tl f.names)
    (u : Nat) (hu : u < f.structure_bv.length)
    (hfold : tl.getD u 0 = 1 ∨ tl.getD u 0 = 2)
    (name : List Nat) (isf : Bool) :
    ∃ ipos,
      Flouds.insert f u name isf
        = some ({ structure_bv := f.structure_bv.insertIdx ipos
                    (decide (tl.getD u 0 = 2)),
                  types := wtEncode
                    ((if tl.getD u 0 = 2 then tl.set u 1 else tl).insertIdx
                      ipos (if isf then 2 else 0)),
                  names := f.names.insertIdx ipos name }, ipos)
      ∧ 1 ≤ ipos ∧ ipos ≤ f.structure_bv.length
      ∧ FloudsInv
          (f.structure_bv.insertIdx ipos (decide (tl.getD u 0 = 2)))
          ((if tl.getD u 0 = 2 then tl.set u 1 else tl).insertIdx ipos
            (if isf then 2 else 0))
          (f.names.insertIdx ipos name) := by
  have hnpos := hinv.npos
  have hone := hinv.ones_eq
  have hsb := symBounded_of_inv hinv
  have hut : u < tl.length := by rw [hinv.len_types]; exact hu
  have hsize : f.types.size = f.structure_bv.length := types_size_eq hty hinv
  have hacc : f.types.access u = tl.getD u 0 := by
    rw [hty]
    exact access_encode tl hsb u hut
  have hsym3 : (if isf then (2:Nat) else 0) ≤ 3 := by cases isf <;> decide
  have hsym2 : (if isf then (2:Nat) else 0) ≤ 2 := by cases isf <;> decide
  have hsymOne : isOne (if isf then (2:Nat) else 0) = false := by
    cases isf <;> rfl
  by_cases h2 : tl.getD u 0 = 2
  · -- the parent is an empty folder
    have hsetty : f.types.set u 1 = wtEncode (tl.set u 1) := by
      rw [hty]
      exact set_encode tl 1 u (by omega) hut
    have htl1b : SymBounded (tl.set u 1) := symBounded_set tl 1 u hsb (by omega)
    have hut1 : u < (tl.set u 1).length := by
      rw [List.length_set]
      exact hut
    have htl1u : (tl.set u 1).getD u 0 = 1 := getD_set_self 1 0 tl u hut
    have hfu1 : folders (tl.set u 1) (u+1) = folders tl u + 1 := by
      have h3 := folders_succ (tl.set u 1) u hut1
      rw [htl1u, if_isOne1] at h3
      rw [folders_set_le 1 tl u u (by omega)] at h3
      omega
    have hrk : (f.types.set u 1).rank 1 u + 1 = folders tl u + 2 := by
      rw [hsetty, rank_encode (tl.set u 1) htl1b 1 u (by omega) hut1,
        ← isOne_def]
      show folders (tl.set u 1) (u+1) + 1 = folders tl u + 2
      rw [hfu1]
    by_cases hm : folders tl u + 2 ≤ tl.countP isOne + 1
    · -- a later first-child mark exists: insert before it
      rcases selP_isSome_exists (fun b => b) f.structure_bv
        (folders tl u + 2) (by omega) (by omega) with ⟨st, hst⟩
      rcases (selP_eq_some_iff_getD (fun b => b) f.structure_bv
        (folders tl u + 2) st false).mp hst with
        ⟨hst1, hstlen, hstbit, hstcnt⟩
      have hstones : ones f.structure_bv st = folders tl u + 1 := by
        show (f.structure_bv.take st).countP (fun b => b) = folders tl u + 1
        omega
      have hult : u < st := by
        by_contra hle2
        have h5 := hinv.order u hu
        have h6 := ones_succ f.structure_bv st hstlen
        rw [show f.structure_bv.getD st false = true from hstbit,
          if_true_nat] at h6
        have h7 : ones f.structure_bv (st+1) ≤ ones f.structure_bv (u+1) :=
          ones_mono f.structure_bv (by omega)
        omega
      refine ⟨st, ?_, by omega, by omega, ?_⟩
      · have hst2 : select1L f.structure_bv (folders tl u + 2) = some st := hst
        have hcomp := flouds_insert_unfold f u name isf (by omega) 0 st
          (f.types.set u 1)
          (by rw [hacc, if_pos h2])
          (by rw [hacc, if_pos h2])
          (by rw [hrk, hst2]
              show st + 0 = st
              rfl)
        rw [hacc] at hcomp
        rw [hsetty, insert_encode (tl.set u 1) (if isf then 2 else 0) st hsym3
          (by rw [List.length_set, hinv.len_types]; omega)] at hcomp
        rw [if_pos h2]
        exact hcomp
      · rw [if_pos h2, show decide (tl.getD u 0 = 2) = true
            from decide_eq_true h2]
        exact floudsInv_insert_empty f.structure_bv tl f.names hinv u hu h2 st
          hult (by omega) name (if isf then 2 else 0) hsym2 hsymOne
    · -- no later first-child mark: append at the end
      have hnone : select1L f.structure_bv (folders tl u + 2) = none := by
        show selP (fun b => b) f.structure_bv (folders tl u + 2) = none
        exact selP_eq_none_of_gt (fun b => b) f.structure_bv _ (by omega)
      refine ⟨f.structure_bv.length, ?_, by omega, by omega, ?_⟩
      · have hcomp := flouds_insert_unfold f u name isf (by omega) 0
          f.structure_bv.length (f.types.set u 1)
          (by rw [hacc, if_pos h2])
          (by rw [hacc, if_pos h2])
          (by rw [hrk, hnone]
              show f.structure_bv.length + 0 = f.structure_bv.length
              rfl)
        rw [hacc] at hcomp
        rw [hsetty, insert_encode (tl.set u 1) (if isf then 2 else 0)
          f.structure_bv.length hsym3
          (by rw [List.length_set, hinv.len_types])] at hcomp
        rw [if_pos h2]
        exact hcomp
      · rw [if_pos h2, show decide (tl.getD u 0 = 2) = true
            from decide_eq_true h2]
        exact floudsInv_insert_empty f.structure_bv tl f.names hinv u hu h2
          f.structure_bv.length hu (by omega) name (if isf then 2 else 0)
          hsym2 hsymOne
  · -- the parent is a non-empty folder: insert at the end of its block
    have htu1 : tl.getD u 0 = 1 := by
      rcases hfold with h | h
      · exact h
      · exact absurd h h2
    rcases children_block f tl hty hinv u hu h2 with
      ⟨st, en, hsel, hcc, hsten, henle, hblock, -⟩
    rcases (selP_eq_some_iff_getD (fun b => b) f.structure_bv
      (folders tl (u+1) + 1) st false).mp hsel with
      ⟨hs1, hstlen, hstbit, hstcnt⟩
    have hfu : folders tl (u+1) = folders tl u + 1 := by
      have h3 := folders_succ tl u hut
      rw [htu1, if_isOne1] at h3
      omega
    have hst1 : 1 ≤ st := by
      have h5 := ones_le f.structure_bv st
      have h6 : ones f.structure_bv st = folders tl (u+1) := by
        show (f.structure_bv.take st).countP (fun b => b)
          = folders tl (u+1)
        omega
      omega
    have hult : u < en := by
      by_contra hle2
      have h5 := hblock (en-1) (by omega) (by omega)
      have h6 : en - 1 + 1 = en := by omega
      rw [h6] at h5
      have h7 : ones f.structure_bv en ≤ ones f.structure_bv (u+1) :=
        ones_mono f.structure_bv (by omega)
      have h8 := hinv.order u hu
      omega
    have hrk2 : f.types.rank 1 u + 1 = folders tl (u+1) + 1 := by
      rw [hty, rank_encode tl hsb 1 u (by omega) hut, ← isOne_def]
      rfl
    refine ⟨en, ?_, by omega, by omega, ?_⟩
    · have hcomp := flouds_insert_unfold f u name isf (by omega) (en - st) en
        f.types
        (by rw [hacc, if_neg h2])
        (by rw [hacc, if_neg h2]; exact hcc)
        (by rw [hrk2, hsel]
            show st + (en - st) = en
            omega)
      rw [hacc] at hcomp
      rw [hty, insert_encode tl (if isf then 2 else 0) en hsym3
        (by rw [hinv.len_types]; omega)] at hcomp
      rw [if_neg h2]
      exact hcomp
    · rw [if_neg h2, show decide (tl.getD u 0 = 2) = false
          from decide_eq_false h2]
      exact floudsInv_insert_nonempty f.structure_bv tl f.names hinv en
        (by omega) (by omega) name (if isf then 2 else 0) hsym2 hsymOne

/-! ### Preservation of the invariant by `remove` -/

theorem ones_eraseIdx_le (bs : List Bool) (i k : Nat) (hk : k ≤ i) :
    ones (bs.eraseIdx i) k = ones bs k :=
  countP_take_eraseIdx_le (fun b => b) bs i k hk

theorem ones_eraseIdx_ge (bs : List Bool) (i k : Nat) (hi : i < bs.length)
    (hk : i ≤ k) :
    ones (bs.eraseIdx i) k + (if bs.getD i false then 1 else 0)
      = ones bs (k+1) :=
  countP_take_eraseIdx_ge (fun b => b) false bs i k hi hk

theorem folders_eraseIdx_le (tl : List Nat) (i k : Nat) (hk : k ≤ i) :
    folders (tl.eraseIdx i) k = folders tl k :=
  countP_take_eraseIdx_le isOne tl i k hk

theorem folders_eraseIdx_ge (tl : List Nat) (i k : Nat) (hi : i < tl.length)
    (hk : i ≤ k) :
    folders (tl.eraseIdx i) k + (if isOne (tl.getD i 0) then 1 else 0)
      = folders tl (k+1) :=
  countP_take_eraseIdx_ge isOne 0 tl i k hi hk

theorem ones_set_le (a : Bool) (bs : List Bool) (i k : Nat) (hk : k ≤ i) :
    ones (bs.set i a) k = ones bs k :=
  countP_take_set_le (fun b => b) a bs i k hk

theorem ones_set_gt (a : Bool) (bs : List Bool) (i k : Nat)
    (hi : i < bs.length) (hk : i < k) :
    ones (bs.set i a) k + (if bs.getD i false then 1 else 0)
      = ones bs k + (if a then 1 else 0) :=
  countP_take_set_gt (fun b => b) a false bs i k hi hk

/-- The invariant is preserved by removing an only child `v`: its
parent `p` becomes an empty folder. -/
theorem floudsInv_remove_only (bs : List Bool) (tl : List Nat)
    (ns : List (List Nat)) (hinv : FloudsInv bs tl ns) (v p : Nat)
    (hv1 : 1 ≤ v) (hv : v < bs.length)
    (hpv : p < v) (htlp : tl.getD p 0 = 1)
    (htlv : isOne (tl.getD v 0) = false)
    (hbsv : bs.getD v false = true)
    (hpt : folders tl (p+1) = ones bs v)
    (hp0 : 2 < bs.length → 1 ≤ p) (hv2 : 2 < bs.length → 2 ≤ v) :
    FloudsInv (bs.eraseIdx v) ((tl.eraseIdx v).set p 2) (ns.eraseIdx v) := by
  have hnpos := hinv.npos
  have hone := hinv.ones_eq
  have hlt := hinv.len_types
  have hvt : v < tl.length := by omega
  have hpt0 : p < tl.length := by omega
  have hel : (tl.eraseIdx v).length = tl.length - 1 :=
    List.length_eraseIdx_of_lt hvt
  have hebs : (bs.eraseIdx v).length = bs.length - 1 :=
    List.length_eraseIdx_of_lt hv
  have hpe : (tl.eraseIdx v).getD p 0 = 1 := by
    rw [getD_eraseIdx_lt 0 tl v p hpv]
    exact htlp
  have hpel : p < (tl.eraseIdx v).length := by rw [hel]; omega
  have hfp1 : 1 ≤ folders tl (p+1) := by
    have h8 := folders_succ tl p hpt0
    rw [htlp, if_isOne1] at h8
    omega
  have hT2 : ∀ k, k ≤ p → folders ((tl.eraseIdx v).set p 2) k
      = folders tl k := by
    intro k hk
    rw [folders_set_le 2 (tl.eraseIdx v) p k hk,
      folders_eraseIdx_le tl v k (by omega)]
  have hT3 : ∀ k, p < k → k ≤ v → folders ((tl.eraseIdx v).set p 2) k
      = folders tl k - 1 ∧ 1 ≤ folders tl k := by
    intro k hk1 hk2
    have h5 := folders_set_gt 2 (tl.eraseIdx v) p k hpel hk1
    rw [hpe, if_isOne1, if_isOne2] at h5
    rw [folders_eraseIdx_le tl v k hk2] at h5
    have h6 : folders tl (p+1) ≤ folders tl k := folders_mono tl (by omega)
    omega
  have hT4 : ∀ k, v ≤ k → folders ((tl.eraseIdx v).set p 2) k
      = folders tl (k+1) - 1 ∧ 1 ≤ folders tl (k+1) := by
    intro k hk
    have h5 := folders_set_gt 2 (tl.eraseIdx v) p k hpel (by omega)
    rw [hpe, if_isOne1, if_isOne2] at h5
    have h6 := folders_eraseIdx_ge tl v k hvt hk
    rw [htlv, if_false_nat] at h6
    have h7 : folders tl (p+1) ≤ folders tl (k+1) :=
      folders_mono tl (by omega)
    omega
  have hB1 : ∀ k, k ≤ v → ones (bs.eraseIdx v) k = ones bs k :=
    fun k hk => ones_eraseIdx_le bs v k hk
  have hB2 : ∀ k, v ≤ k → ones (bs.eraseIdx v) k = ones bs (k+1) - 1
      ∧ 1 ≤ ones bs (k+1) := by
    intro k hk
    have h5 := ones_eraseIdx_ge bs v k hv hk
    rw [hbsv, if_true_nat] at h5
    omega
  refine ⟨?_, ?_, ?_, ?_, ?_, ?_, ?_, ?_, ?_⟩
  · rw [List.length_set, hel, hebs, hinv.len_types]
  · rw [List.length_eraseIdx_of_lt (by rw [hinv.len_names]; exact hv), hebs,
      hinv.len_names]
  · rw [hebs]
    omega
  · intro c hc
    rcases List.mem_or_eq_of_mem_set hc with h | h
    · exact hinv.bounded c (List.mem_of_mem_eraseIdx h)
    · omega
  · rw [getD_eraseIdx_lt false bs v 0 (by omega)]
    exact hinv.root_mark
  · by_cases hp : p = 0
    · subst hp
      right
      exact getD_set_self 2 0 (tl.eraseIdx v) 0 hpel
    · rw [getD_set_ne 2 0 (tl.eraseIdx v) p 0 (by omega),
        getD_eraseIdx_lt 0 tl v 0 (by omega)]
      exact hinv.root_type
  · have hA := countP_eraseIdx (fun b => b) false bs v hv
    rw [hbsv, if_id_true] at hA
    have hB := countP_eraseIdx isOne 0 tl v hvt
    rw [htlv, if_false_nat] at hB
    have hC := countP_set isOne 2 0 (tl.eraseIdx v) p hpel
    rw [hpe, if_isOne1, if_isOne2] at hC
    omega
  · intro h1n
    rw [hebs] at h1n
    constructor
    · rw [getD_eraseIdx_lt false bs v 1 (by have := hv2 (by omega); omega)]
      exact (hinv.block1 (by omega)).1
    · rw [getD_set_ne 2 0 (tl.eraseIdx v) p 0
          (by have := hp0 (by omega); omega),
        getD_eraseIdx_lt 0 tl v 0 (by omega)]
      exact (hinv.block1 (by omega)).2
  · intro k hk
    rw [hebs] at hk
    by_cases hkv : k < v
    · rw [hB1 (k+1) (by omega)]
      by_cases hkp : k ≤ p
      · rw [hT2 k hkp]
        exact hinv.order k (by omega)
      · rcases hT3 k (by omega) (by omega) with ⟨h5, h6⟩
        rw [h5]
        have h7 : ones bs (k+1) ≤ ones bs v := ones_mono bs (by omega)
        have h8 : folders tl (p+1) ≤ folders tl k := folders_mono tl (by omega)
        omega
    · rcases hB2 (k+1) (by omega) with ⟨h5, h6⟩
      rcases hT4 k (by omega) with ⟨h7, h8⟩
      rw [h5, h7]
      have h9 := hinv.order (k+1) (by omega)
      omega

/-- The invariant is preserved by removing a first child that has a
later sibling: the sibling inherits the first-child mark. -/
theorem floudsInv_remove_first (bs : List Bool) (tl : List Nat)
    (ns : List (List Nat)) (hinv : FloudsInv bs tl ns) (v : Nat)
    (hv1 : 1 ≤ v) (hv : v + 1 < bs.length)
    (htlv : isOne (tl.getD v 0) = false)
    (hbsv : bs.getD v false = true)
    (hbsv1 : bs.getD (v+1) false = false) :
    FloudsInv ((bs.eraseIdx v).set v true) (tl.eraseIdx v)
      (ns.eraseIdx v) := by
  have hnpos := hinv.npos
  have hone := hinv.ones_eq
  have hlt := hinv.len_types
  have hvt : v < tl.length := by omega
  have hebs : (bs.eraseIdx v).length = bs.length - 1 :=
    List.length_eraseIdx_of_lt (by omega)
  have hel : (tl.eraseIdx v).length = tl.length - 1 :=
    List.length_eraseIdx_of_lt hvt
  have hvel : v < (bs.eraseIdx v).length := by rw [hebs]; omega
  have hev : (bs.eraseIdx v).getD v false = false := by
    rw [getD_eraseIdx_ge false bs v v (by omega) (by omega)]
    exact hbsv1
  have hS1 : ∀ k, k ≤ v →
      ones ((bs.eraseIdx v).set v true) k = ones bs k := by
    intro k hk
    rw [ones_set_le true (bs.eraseIdx v) v k hk, ones_eraseIdx_le bs v k hk]
  have hS2 : ∀ k, v < k →
      ones ((bs.eraseIdx v).set v true) k = ones bs (k+1) := by
    intro k hk
    have h5 := ones_set_gt true (bs.eraseIdx v) v k hvel hk
    rw [hev, if_false_nat, if_true_nat] at h5
    have h6 := ones_eraseIdx_ge bs v k (by omega) (by omega)
    rw [hbsv, if_true_nat] at h6
    omega
  refine ⟨?_, ?_, ?_, ?_, ?_, ?_, ?_, ?_, ?_⟩
  · rw [hel, List.length_set, hebs, hinv.len_types]
  · rw [List.length_eraseIdx_of_lt (by rw [hinv.len_names]; omega),
      List.length_set, hebs, hinv.len_names]
  · rw [List.length_set, hebs]
    omega
  · intro c hc
    exact hinv.bounded c (List.mem_of_mem_eraseIdx hc)
  · rw [getD_set_ne true false (bs.eraseIdx v) v 0 (by omega),
      getD_eraseIdx_lt false bs v 0 (by omega)]
    exact hinv.root_mark
  · rw [getD_eraseIdx_lt 0 tl v 0 (by omega)]
    exact hinv.root_type
  · have hA := countP_eraseIdx (fun b => b) false bs v (by omega)
    rw [hbsv, if_id_true] at hA
    have hB := countP_set (fun b => b) true false (bs.eraseIdx v) v hvel
    rw [hev, if_id_false, if_id_true] at hB
    have hC := countP_eraseIdx isOne 0 tl v hvt
    rw [htlv, if_false_nat] at hC
    omega
  · intro h1n
    rw [List.length_set, hebs] at h1n
    constructor
    · by_cases hveq : v = 1
      · subst hveq
        exact getD_set_self true false (bs.eraseIdx 1) 1 hvel
      · rw [getD_set_ne true false (bs.eraseIdx v) v 1 (by omega),
          getD_eraseIdx_lt false bs v 1 (by omega)]
        exact (hinv.block1 (by omega)).1
    · rw [getD_eraseIdx_lt 0 tl v 0 (by omega)]
      exact (hinv.block1 (by omega)).2
  · intro k hk
    rw [List.length_set, hebs] at hk
    by_cases hkv : k < v
    · rw [hS1 (k+1) (by omega), folders_eraseIdx_le tl v k (by omega)]
      exact hinv.order k (by omega)
    · rw [hS2 (k+1) (by omega)]
      have h6 := folders_eraseIdx_ge tl v k hvt (by omega)
      rw [htlv, if_false_nat] at h6
      have h9 := hinv.order (k+1) (by omega)
      omega

/-- The invariant is preserved by removing a non-first child. -/
theorem floudsInv_remove_mid (bs : List Bool) (tl : List Nat)
    (ns : List (List Nat)) (hinv : FloudsInv bs tl ns) (v : Nat)
    (hv1 : 1 ≤ v) (hv : v < bs.length)
    (htlv : isOne (tl.getD v 0) = false)
    (hbsv : bs.getD v false = false) :
    FloudsInv (bs.eraseIdx v) (tl.eraseIdx v) (ns.eraseIdx v) := by
  have hnpos := hinv.npos
  have hone := hinv.ones_eq
  have hlt := hinv.len_types
  have hvt : v < tl.length := by omega
  have hebs : (bs.eraseIdx v).length = bs.length - 1 :=
    List.length_eraseIdx_of_lt hv
  have hel : (tl.eraseIdx v).length = tl.length - 1 :=
    List.length_eraseIdx_of_lt hvt
  have hv2 : 1 < bs.length → 2 ≤ v := by
    intro h1n
    by_contra hlt2
    have hveq : v = 1 := by omega
    have h5 := (hinv.block1 h1n).1
    rw [hveq, h5] at hbsv
    simp at hbsv
  refine ⟨?_, ?_, ?_, ?_, ?_, ?_, ?_, ?_, ?_⟩
  · rw [hel, hebs, hinv.len_types]
  · rw [List.length_eraseIdx_of_lt (by rw [hinv.len_names]; omega), hebs,
      hinv.len_names]
  · rw [hebs]
    omega
  · intro c hc
    exact hinv.bounded c (List.mem_of_mem_eraseIdx hc)
  · rw [getD_eraseIdx_lt false bs v 0 (by omega)]
    exact hinv.root_mark
  · rw [getD_eraseIdx_lt 0 tl v 0 (by omega)]
    exact hinv.root_type
  · have hA := countP_eraseIdx (fun b => b) false bs v hv
    rw [hbsv, if_id_false] at hA
    have hC := countP_eraseIdx isOne 0 tl v hvt
    rw [htlv, if_false_nat] at hC
    omega
  · intro h1n
    rw [hebs] at h1n
    constructor
    · rw [getD_eraseIdx_lt false bs v 1 (by have := hv2 (by omega); omega)]
      exact (hinv.block1 (by omega)).1
    · rw [getD_eraseIdx_lt 0 tl v 0 (by omega)]
      exact (hinv.block1 (by omega)).2
  · intro k hk
    rw [hebs] at hk
    by_cases hkv : k < v
    · rw [ones_eraseIdx_le bs v (k+1) (by omega),
        folders_eraseIdx_le tl v k (by omega)]
      exact hinv.order k (by omega)
    · have h5 := ones_eraseIdx_ge bs v (k+1) hv (by omega)
      rw [hbsv, if_false_nat] at h5
      have h6 := folders_eraseIdx_ge tl v k hvt (by omega)
      rw [htlv, if_false_nat] at h6
      have h9 := hinv.order (k+1) (by omega)
      omega

theorem flouds_remove_unfold (f : Flouds) (v p cc : Nat)
    (hpar : f.parent v = some p) (hcc : f.children_count p = some cc) :
    Flouds.remove f v
      = (if cc = 1 then
           some ⟨f.structure_bv.eraseIdx v, (f.types.remove v).set p 2,
                 f.names.eraseIdx v⟩
         else if f.structure_bv.getD v false then
           some ⟨(f.structure_bv.eraseIdx v).set v true, f.types.remove v,
                 f.names.eraseIdx v⟩
         else
           some ⟨f.structure_bv.eraseIdx v, f.types.remove v,
                 f.names.eraseIdx v⟩) := by
  simp only [Flouds.remove]
  rw [hpar, Option.some_bind, hcc, Option.some_bind]

/-- `Flouds::remove` under the invariant: on a non-root node of type 0
or 2 it succeeds, the parent has at least one child, the three
sequences each lose the entry at `v` (with the only-child and
first-child adjustments), and the well-formedness invariant is
preserved. -/
theorem flouds_remove_spec (f : Flouds) (tl : List Nat)
    (hty : f.types = wtEncode tl)
    (hinv : FloudsInv f.structure_bv tl f.names)
    (v : Nat) (hv1 : 1 ≤ v) (hv : v < f.structure_bv.length)
    (hnf : tl.getD v 0 = 0 ∨ tl.getD v 0 = 2) :
    ∃ p cc f2,
      f.parent v = some p ∧ f.children_count p = some cc ∧ 1 ≤ cc
      ∧ Flouds.remove f v = some f2
      ∧ f2.names = f.names.eraseIdx v
      ∧ (cc = 1 →
          f2 = ⟨f.structure_bv.eraseIdx v,
                wtEncode ((tl.eraseIdx v).set p 2), f.names.eraseIdx v⟩)
      ∧ (cc ≠ 1 → f.structure_bv.getD v false = true →
          f2 = ⟨(f.structure_bv.eraseIdx v).set v true,
                wtEncode (tl.eraseIdx v), f.names.eraseIdx v⟩
          ∧ v + 1 < f.structure_bv.length)
      ∧ (cc ≠ 1 → f.structure_bv.getD v false = false →
          f2 = ⟨f.structure_bv.eraseIdx v, wtEncode (tl.eraseIdx v),
                f.names.eraseIdx v⟩)
      ∧ FloudsWF f2 := by
  have hsb := symBounded_of_inv hinv
  have hone := hinv.ones_eq
  have hnpos := hinv.npos
  have hlt := hinv.len_types
  have hvt : v < tl.length := by omega
  have hvOne : isOne (tl.getD v 0) = false := by
    rcases hnf with h | h <;> rw [h] <;> rfl
  rcases parent_spec f tl hty hinv v hv1 hv with ⟨p, hpar, hpsel, htlp, hpv⟩
  rcases (selP_eq_some_iff_getD isOne tl (rank1L f.structure_bv v - 1) p
    0).mp hpsel with ⟨hpn1, hplen, hpbit, hpcnt⟩
  have hn2 : 1 < f.structure_bv.length := by omega
  have hblk := hinv.block1 hn2
  have hT2 : 2 ≤ rank1L f.structure_bv v :=
    ones_ge_two hn2 hinv.root_mark hblk.1 (v+1) (by omega)
  have hTones : rank1L f.structure_bv v = ones f.structure_bv (v+1) := rfl
  have hfp : folders tl p = rank1L f.structure_bv v - 2 := by
    show (tl.take p).countP isOne = rank1L f.structure_bv v - 2
    omega
  have hfp1 : folders tl (p+1) = rank1L f.structure_bv v - 1 := by
    have h5 := folders_succ tl p hplen
    rw [htlp, if_isOne1] at h5
    omega
  rcases children_block f tl hty hinv p (by omega) (by rw [htlp]; omega) with
    ⟨st, en, hsel, hcc, hsten, henle, hblock, hend⟩
  rcases (selP_eq_some_iff_getD (fun b => b) f.structure_bv
    (folders tl (p+1) + 1) st false).mp hsel with
    ⟨hx1, hstlen, hstbit, hstcnt⟩
  have hstv : st ≤ v := by
    by_contra hlt2
    have h5 : ones f.structure_bv (v+1) ≤ ones f.structure_bv st :=
      ones_mono f.structure_bv (by omega)
    have h6 : ones f.structure_bv st = folders tl (p+1) := by
      show (f.structure_bv.take st).countP (fun b => b) = folders tl (p+1)
      omega
    omega
  have hven : v < en := by
    by_contra hlt2
    rcases hend with h5 | h5
    · omega
    · have h6 : ones f.structure_bv (en+1) ≤ ones f.structure_bv (v+1) :=
        ones_mono f.structure_bv (by omega)
      omega
  by_cases hc1 : en - st = 1
  · -- v is its parent's only child
    have hvst : v = st := by omega
    have hbsv : f.structure_bv.getD v false = true := by
      rw [hvst]
      exact hstbit
    have hpt : folders tl (p+1) = ones f.structure_bv v := by
      rw [hvst]
      show folders tl (p+1) = (f.structure_bv.take st).countP (fun b => b)
      omega
    have hp0 : 2 < f.structure_bv.length → 1 ≤ p := by
      intro hn3
      by_contra hp00
      have hpz : p = 0 := by omega
      have hfz : folders tl 0 = 0 := rfl
      rw [hpz] at hfp
      have hTeq : rank1L f.structure_bv v = 2 := by omega
      have hones2 : ones f.structure_bv 2 = 2 := by
        have h5 := ones_ge_two hn2 hinv.root_mark hblk.1 2 (by omega)
        have h6 := ones_le f.structure_bv 2
        omega
      have hsel1 : selP (fun b => b) f.structure_bv 2 = some 1 := by
        have h5 := selP_at_own_rank (fun b => b) f.structure_bv 1
          (by omega) hblk.1
        have h6 : ones f.structure_bv (1+1) = 2 := hones2
        rw [show ((f.structure_bv.take (1+1)).countP (fun b => b)) = 2
          from h6] at h5
        exact h5
      have hsel2 : selP (fun b => b) f.structure_bv 2 = some st := by
        have h5 : folders tl (p+1) + 1 = 2 := by omega
        rw [← h5]
        exact hsel
      have hst1v : st = 1 := by
        rw [hsel1] at hsel2
        injection hsel2 with h
        omega
      have hen2 : en = 2 := by omega
      rcases hend with h5 | h5
      · omega
      · have h6 := hinv.order 2 (by omega)
        have h7 := folders_succ tl 1 (by omega)
        have h8 : tl.getD 1 0 = tl.getD v 0 := by
          rw [hvst, hst1v]
        rw [h8, hvOne, if_false_nat] at h7
        have h9 := folders_le tl 1
        have hpA : folders tl (p+1) = folders tl 1 := by rw [hpz]
        have hB2 : folders tl (1+1) = folders tl 2 := rfl
        rw [hen2] at h5
        omega
    have hv2 : 2 < f.structure_bv.length → 2 ≤ v := by
      intro hn3
      have h5 := hp0 hn3
      omega
    have hremty : (f.types.remove v).set p 2
        = wtEncode ((tl.eraseIdx v).set p 2) := by
      rw [hty, remove_encode tl v hvt,
        set_encode (tl.eraseIdx v) 2 p (by omega)
          (by rw [List.length_eraseIdx_of_lt hvt]; omega)]
    refine ⟨p, en - st, ⟨f.structure_bv.eraseIdx v,
      wtEncode ((tl.eraseIdx v).set p 2), f.names.eraseIdx v⟩,
      hpar, hcc, by omega, ?_, rfl, fun _ => rfl, ?_, ?_, ?_⟩
    · have hrem := flouds_remove_unfold f v p (en - st) hpar hcc
      rw [if_pos hc1, hremty] at hrem
      exact hrem
    · intro h _
      exact absurd hc1 h
    · intro h _
      exact absurd hc1 h
    · exact ⟨(tl.eraseIdx v).set p 2, rfl,
        floudsInv_remove_only f.structure_bv tl f.names hinv v p hv1 hv hpv
          htlp hvOne hbsv hpt hp0 hv2⟩
  · -- the parent keeps other children
    by_cases hwf : f.structure_bv.getD v false = true
    · -- v carries the first-child mark: v = st and the next sibling
      -- inherits the mark
      have hvst : v = st := by
        by_contra hne
        have hstv2 : st < v := by omega
        have h5 := ones_succ f.structure_bv st hstlen
        rw [show f.structure_bv.getD st false = true from hstbit,
          if_true_nat] at h5
        have h6 := ones_succ f.structure_bv v hv
        rw [hwf, if_true_nat] at h6
        have h7 : ones f.structure_bv (st+1) ≤ ones f.structure_bv v :=
          ones_mono f.structure_bv (by omega)
        have h8 : ones f.structure_bv st = folders tl (p+1) := by
          show (f.structure_bv.take st).countP (fun b => b)
            = folders tl (p+1)
          omega
        omega
      have hb1 : f.structure_bv.getD (v+1) false = false := by
        have h5 := hblock (v+1) (by omega) (by omega)
        have h6 := ones_succ f.structure_bv (v+1) (by omega)
        cases hbit : f.structure_bv.getD (v+1) false with
        | false => rfl
        | true =>
          rw [hbit, if_true_nat] at h6
          omega
      refine ⟨p, en - st, ⟨(f.structure_bv.eraseIdx v).set v true,
        wtEncode (tl.eraseIdx v), f.names.eraseIdx v⟩,
        hpar, hcc, by omega, ?_, rfl, ?_, fun _ _ => ⟨rfl, by omega⟩, ?_, ?_⟩
      · have hrem := flouds_remove_unfold f v p (en - st) hpar hcc
        rw [if_neg hc1, if_pos hwf, hty, remove_encode tl v hvt] at hrem
        exact hrem
      · intro h
        exact absurd h hc1
      · intro _ hfalse
        rw [hwf] at hfalse
        simp at hfalse
      · exact ⟨tl.eraseIdx v, rfl,
          floudsInv_remove_first f.structure_bv tl f.names hinv v hv1
            (by omega) hvOne hwf hb1⟩
    · -- v is not a first child
      have hwb : f.structure_bv.getD v false = false := by
        cases h5 : f.structure_bv.getD v false with
        | false => rfl
        | true => exact absurd h5 hwf
      refine ⟨p, en - st, ⟨f.structure_bv.eraseIdx v,
        wtEncode (tl.eraseIdx v), f.names.eraseIdx v⟩,
        hpar, hcc, by omega, ?_, rfl, ?_, ?_, fun _ _ => rfl, ?_⟩
      · have hrem := flouds_remove_unfold f v p (en - st) hpar hcc
        rw [if_neg hc1, if_neg hwf, hty, remove_encode tl v hvt] at hrem
        exact hrem
      · intro h
        exact absurd h hc1
      · intro _ htrue
        rw [hwb] at htrue
        simp at htrue
      · exact ⟨tl.eraseIdx v, rfl,
          floudsInv_remove_mid f.structure_bv tl f.names hinv v hv1 hv
            hvOne hwb⟩

/-! ### Reachable states are well formed -/

theorem create_flouds_wf : FloudsWF create_flouds := by
  refine ⟨[2], rfl, ⟨rfl, rfl, by decide, by decide, rfl, Or.inr rfl,
    by decide, ?_, ?_⟩⟩
  · intro h
    exact absurd h (by decide)
  · intro k hk
    have hk1 : k < 1 := hk
    have hk0 : k = 0 := by omega
    subst hk0
    decide

theorem reach_wf (f : Flouds) (h : Reach f) : FloudsWF f := by
  induction h with
  | init => exact create_flouds_wf
  | insert_step f parent_id name isf f2 v hr hp haccp hins ih =>
    rcases ih with ⟨tl, hty, hinv⟩
    have hsb := symBounded_of_inv hinv
    have hsz : f.types.size = f.structure_bv.length := types_size_eq hty hinv
    have hpn : parent_id < f.structure_bv.length := by omega
    have hpt : parent_id < tl.length := by rw [hinv.len_types]; exact hpn
    have hacc2 : f.types.access parent_id = tl.getD parent_id 0 := by
      rw [hty]
      exact access_encode tl hsb parent_id hpt
    have hfold : tl.getD parent_id 0 = 1 ∨ tl.getD parent_id 0 = 2 := by
      rcases haccp with h | h
      · left
        rw [← hacc2]
        exact h
      · right
        rw [← hacc2]
        exact h
    rcases flouds_insert_spec f tl hty hinv parent_id hpn hfold name isf with
      ⟨ipos, heq, h1, h2, hinv2⟩
    rw [hins] at heq
    injection heq with heq2
    injection heq2 with hf2 hv2
    subst hf2
    exact ⟨_, rfl, hinv2⟩
  | remove_step f node_id f2 hr hne hlt haccv hrem ih =>
    rcases ih with ⟨tl, hty, hinv⟩
    have hsb := symBounded_of_inv hinv
    have hsz : f.types.size = f.structure_bv.length := types_size_eq hty hinv
    have hvn : node_id < f.structure_bv.length := by omega
    have hvt : node_id < tl.length := by rw [hinv.len_types]; exact hvn
    have hacc2 : f.types.access node_id = tl.getD node_id 0 := by
      rw [hty]
      exact access_encode tl hsb node_id hvt
    have hnf : tl.getD node_id 0 = 0 ∨ tl.getD node_id 0 = 2 := by
      rcases haccv with h | h
      · left
        rw [← hacc2]
        exact h
      · right
        rw [← hacc2]
        exact h
    rcases flouds_remove_spec f tl hty hinv node_id (by omega) hvn hnf with
      ⟨p, cc, f2x, hpar, hcc, hcc1, hrem2, hnames, hc1, hc2, hc3, hwf⟩
    rw [hrem] at hrem2
    injection hrem2 with hf2
    subst hf2
    exact hwf

/-- The tree obtained from the initial state by inserting one file
(named `"a"`) under the root. -/
def flouds_after_file : Flouds :=
  { structure_bv := [true, true],
    types := { root_bv := [false, false], left_bv := [true, false],
               right_bv := [] },
    names := [[114, 111, 111, 116], [97]] }

theorem reach_flouds_after_file : Reach flouds_after_file :=
  Reach.insert_step create_flouds 0 [97] false flouds_after_file 1
    Reach.init (by decide) (Or.inr (by decide)) (by decide)

/-- **C1.** [corrected] For every reachable FLOUDS state: the type and
name sequences have the same length as the structure bit vector;
`children_count` succeeds on every node and returns `0` exactly for
empty folders; and `parent (child v k) = v` holds for every `k` below
the child count — but only when `v` is a non-empty folder.  The
specification asserts the parent/child identity for every node; on a
file `v` the code computes a nonzero `children_count` and positions
whose parent is not `v` (see the counterexample). -/
theorem C1_flouds_invariants (f : Flouds) (hr : Reach f) :
    f.types.size = f.size
    ∧ f.names.length = f.size
    ∧ (∀ v, v < f.size →
        ∃ c, f.children_count v = some c
          ∧ (c = 0 ↔ f.is_empty_folder v = true))
    ∧ (∀ v c k, v < f.size → f.is_folder v = true →
        f.is_empty_folder v = false →
        f.children_count v = some c → k < c →
        ∃ w, f.child v k = some w ∧ f.parent w = some v) := by
  rcases reach_wf f hr with ⟨tl, hty, hinv⟩
  have hsb := symBounded_of_inv hinv
  have hsz : f.types.size = f.structure_bv.length := types_size_eq hty hinv
  refine ⟨hsz, hinv.len_names, ?_, ?_⟩
  · intro v hv
    rcases children_count_spec f tl hty hinv v hv with ⟨c, hcc, hiff⟩
    refine ⟨c, hcc, ?_⟩
    have haccv : f.types.access v = tl.getD v 0 := by
      rw [hty]
      exact access_encode tl hsb v (by rw [hinv.len_types]; exact hv)
    unfold Flouds.is_empty_folder
    rw [haccv]
    constructor
    · intro h0
      exact decide_eq_true (hiff.mp h0)
    · intro hb
      exact hiff.mpr (of_decide_eq_true hb)
  · intro v c k hv hif hief hcc hk
    have haccv : f.types.access v = tl.getD v 0 := by
      rw [hty]
      exact access_encode tl hsb v (by rw [hinv.len_types]; exact hv)
    unfold Flouds.is_folder at hif
    unfold Flouds.is_empty_folder at hief
    rw [haccv] at hif hief
    simp only [Bool.or_eq_true, decide_eq_true_eq] at hif
    have hne2 : tl.getD v 0 ≠ 2 := by
      intro h2
      rw [h2] at hief
      simp at hief
    have htv1 : tl.getD v 0 = 1 := by
      rcases hif with h | h
      · exact h
      · exact absurd h hne2
    exact parent_child_spec f tl hty hinv v hv htv1 k c hcc hk

theorem C1_flouds_invariants_witness :
    Reach flouds_after_file
    ∧ (flouds_after_file.types.size = flouds_after_file.size
      ∧ flouds_after_file.names.length = flouds_after_file.size
      ∧ (∀ v, v < flouds_after_file.size →
          ∃ c, flouds_after_file.children_count v = some c
            ∧ (c = 0 ↔ flouds_after_file.is_empty_folder v = true))
      ∧ (∀ v c k, v < flouds_after_file.size →
          flouds_after_file.is_folder v = true →
          flouds_after_file.is_empty_folder v = false →
          flouds_after_file.children_count v = some c → k < c →
          ∃ w, flouds_after_file.child v k = some w
            ∧ flouds_after_file.parent w = some v)) :=
  ⟨reach_flouds_after_file,
    C1_flouds_invariants flouds_after_file reach_flouds_after_file⟩

/-- **C1, counterexample to the claim as stated.**  In the reachable
state with one file under the root, the file `v = 1` has
`children_count 1 = some 1` and `child 1 0 = some 1`, but
`parent (child 1 0) = some 0 ≠ some 1`: the parent/child identity
fails on nodes that are not non-empty folders. -/
theorem C1_flouds_invariants_counterexample :
    Reach flouds_after_file
    ∧ flouds_after_file.children_count 1 = some 1
    ∧ flouds_after_file.child 1 0 = some 1
    ∧ flouds_after_file.parent 1 = some 0
    ∧ ¬ flouds_after_file.parent 1 = some 1 :=
  ⟨reach_flouds_after_file, by decide, by decide, by decide, by decide⟩

/-- **C3.** [corrected] For every reachable state and non-root node
`v`, `parent v` is `select(types, 1, rank1(structure, v) - 1)` — the
code subtracts one from the rank before the select, returning the
`(f-1)`-st non-empty folder (1-based), not the `f`-th as the
specification states.  The returned position is a non-empty folder
strictly before `v`. -/
theorem C3_parent_formula (f : Flouds) (hr : Reach f) (v : Nat)
    (hv1 : 1 ≤ v) (hv : v < f.size) :
    ∃ tl p, f.types = wtEncode tl
      ∧ f.parent v = f.types.select 1 (rank1L f.structure_bv v - 1)
      ∧ f.parent v = some p
      ∧ selP isOne tl (rank1L f.structure_bv v - 1) = some p
      ∧ tl.getD p 0 = 1 ∧ p < v := by
  rcases reach_wf f hr with ⟨tl, hty, hinv⟩
  have hszeq : f.size = f.structure_bv.length := rfl
  have hvn : v < f.structure_bv.length := by omega
  rcases parent_spec f tl hty hinv v hv1 hvn with ⟨p, hpar, hpsel, hpt, hpv⟩
  refine ⟨tl, p, hty, ?_, hpar, hpsel, hpt, hpv⟩
  unfold Flouds.parent
  rw [if_neg (by omega)]

theorem C3_parent_formula_witness :
    Reach flouds_after_file
    ∧ (∃ tl p, flouds_after_file.types = wtEncode tl
      ∧ flouds_after_file.parent 1
        = flouds_after_file.types.select 1
            (rank1L flouds_after_file.structure_bv 1 - 1)
      ∧ flouds_after_file.parent 1 = some p
      ∧ selP isOne tl (rank1L flouds_after_file.structure_bv 1 - 1) = some p
      ∧ tl.getD p 0 = 1 ∧ p < 1) :=
  ⟨reach_flouds_after_file,
    C3_parent_formula flouds_after_file reach_flouds_after_file 1
      (by decide) (by decide)⟩

/-- **C3, counterexample to the claim as stated.**  In the reachable
state with one file under the root, `rank1(structure, 1) = 2`, and
`select(types, 1, 2)` throws (there is only one non-empty folder), yet
`parent 1 = some 0`: the claimed formula
`parent v = select(types, 1, rank1(structure, v))` is wrong — the code
uses `rank1(structure, v) - 1`. -/
theorem C3_parent_formula_counterexample :
    Reach flouds_after_file
    ∧ rank1L flouds_after_file.structure_bv 1 = 2
    ∧ flouds_after_file.parent 1 = some 0
    ∧ flouds_after_file.types.select 1 2 = none
    ∧ ¬ flouds_after_file.parent 1
        = flouds_after_file.types.select 1
            (rank1L flouds_after_file.structure_bv 1) :=
  ⟨reach_flouds_after_file, by decide, by decide, by decide, by decide⟩

/-- **C4.** For every reachable state and every non-root node `v` that
is a file or an empty folder, `remove v` succeeds and deletes position
`v` from the structure, type and name sequences; if `v` was its parent
`p`'s only child, afterwards `p` is an empty folder (type 2), and
otherwise, if `v` carried the first-child mark, the bit at position
`v` of the new structure vector is set (the next sibling inherits the
mark). -/
theorem C4_remove_behavior (f : Flouds) (hr : Reach f) (v : Nat)
    (hv0 : v ≠ 0) (hv : v < f.size)
    (hfe : f.is_file v = true ∨ f.is_empty_folder v = true) :
    ∃ tl p cc f2,
      f.types = wtEncode tl
      ∧ f.parent v = some p ∧ f.children_count p = some cc ∧ 1 ≤ cc
      ∧ Flouds.remove f v = some f2
      ∧ f2.names = f.names.eraseIdx v
      ∧ f2.structure_bv.length = f.structure_bv.length - 1
      ∧ (cc = 1 →
          f2.structure_bv = f.structure_bv.eraseIdx v
          ∧ f2.types = wtEncode ((tl.eraseIdx v).set p 2)
          ∧ f2.is_empty_folder p = true)
      ∧ (cc ≠ 1 →
          f2.types = wtEncode (tl.eraseIdx v)
          ∧ (f.structure_bv.getD v false = true →
              f2.structure_bv = (f.structure_bv.eraseIdx v).set v true
              ∧ f2.structure_bv.getD v false = true)
          ∧ (f.structure_bv.getD v false = false →
              f2.structure_bv = f.structure_bv.eraseIdx v)) := by
  rcases reach_wf f hr with ⟨tl, hty, hinv⟩
  have hsb := symBounded_of_inv hinv
  have hszeq : f.size = f.structure_bv.length := rfl
  have hvn : v < f.structure_bv.length := by omega
  have hvt : v < tl.length := by rw [hinv.len_types]; exact hvn
  have haccv : f.types.access v = tl.getD v 0 := by
    rw [hty]
    exact access_encode tl hsb v hvt
  have hnf : tl.getD v 0 = 0 ∨ tl.getD v 0 = 2 := by
    rcases hfe with h | h
    · left
      unfold Flouds.is_file at h
      have h2 := of_decide_eq_true h
      rw [← haccv]
      exact h2
    · right
      unfold Flouds.is_empty_folder at h
      have h2 := of_decide_eq_true h
      rw [← haccv]
      exact h2
  have hv1 : 1 ≤ v := by omega
  rcases flouds_remove_spec f tl hty hinv v hv1 hvn hnf with
    ⟨p, cc, f2, hpar, hcc, hcc1, hrem, hnames, hc1, hc2, hc3, hwf⟩
  rcases parent_spec f tl hty hinv v hv1 hvn with
    ⟨p2, hpar2, hpsel2, htlp2, hpv2⟩
  have hpp : p2 = p := by
    rw [hpar] at hpar2
    injection hpar2 with h
    exact h.symm
  subst hpp
  refine ⟨tl, p2, cc, f2, hty, hpar, hcc, hcc1, hrem, hnames, ?_, ?_, ?_⟩
  · by_cases h1 : cc = 1
    · rw [hc1 h1]
      exact List.length_eraseIdx_of_lt hvn
    · by_cases h2b : f.structure_bv.getD v false = true
      · rw [(hc2 h1 h2b).1]
        show ((f.structure_bv.eraseIdx v).set v true).length
          = f.structure_bv.length - 1
        rw [List.length_set]
        exact List.length_eraseIdx_of_lt hvn
      · have h2c : f.structure_bv.getD v false = false := by
          cases h5 : f.structure_bv.getD v false with
          | false => rfl
          | true => exact absurd h5 h2b
        rw [hc3 h1 h2c]
        exact List.length_eraseIdx_of_lt hvn
  · intro h1
    rw [hc1 h1]
    refine ⟨rfl, rfl, ?_⟩
    have hple : p2 < (tl.eraseIdx v).length := by
      rw [List.length_eraseIdx_of_lt hvt]
      omega
    have hpl2 : p2 < ((tl.eraseIdx v).set p2 2).length := by
      rw [List.length_set]
      exact hple
    have hsb2 : SymBounded ((tl.eraseIdx v).set p2 2) :=
      symBounded_set _ 2 p2 (symBounded_eraseIdx tl v hsb) (by omega)
    show decide ((wtEncode ((tl.eraseIdx v).set p2 2)).access p2 = 2) = true
    rw [access_encode _ hsb2 p2 hpl2, getD_set_self 2 0 _ p2 hple]
    decide
  · intro h1
    refine ⟨?_, ?_, ?_⟩
    · by_cases h2b : f.structure_bv.getD v false = true
      · rw [(hc2 h1 h2b).1]
      · have h2c : f.structure_bv.getD v false = false := by
          cases h5 : f.structure_bv.getD v false with
          | false => rfl
          | true => exact absurd h5 h2b
        rw [hc3 h1 h2c]
    · intro h2b
      rcases hc2 h1 h2b with ⟨hf2eq, hrange⟩
      rw [hf2eq]
      refine ⟨rfl, ?_⟩
      show ((f.structure_bv.eraseIdx v).set v true).getD v false = true
      exact getD_set_self true false _ v
        (by rw [List.length_eraseIdx_of_lt hvn]; omega)
    · intro h2c
      rw [hc3 h1 h2c]

theorem C4_remove_behavior_witness :
    Reach flouds_after_file
    ∧ (∃ tl p cc f2,
      flouds_after_file.types = wtEncode tl
      ∧ flouds_after_file.parent 1 = some p
      ∧ flouds_after_file.children_count p = some cc ∧ 1 ≤ cc
      ∧ Flouds.remove flouds_after_file 1 = some f2
      ∧ f2.names = flouds_after_file.names.eraseIdx 1
      ∧ f2.structure_bv.length = flouds_after_file.structure_bv.length - 1
      ∧ (cc = 1 →
          f2.structure_bv = flouds_after_file.structure_bv.eraseIdx 1
          ∧ f2.types = wtEncode ((tl.eraseIdx 1).set p 2)
          ∧ f2.is_empty_folder p = true)
      ∧ (cc ≠ 1 →
          f2.types = wtEncode (tl.eraseIdx 1)
          ∧ (flouds_after_file.structure_bv.getD 1 false = true →
              f2.structure_bv
                = (flouds_after_file.structure_bv.eraseIdx 1).set 1 true
              ∧ f2.structure_bv.getD 1 false = true)
          ∧ (flouds_after_file.structure_bv.getD 1 false = false →
              f2.structure_bv = flouds_after_file.structure_bv.eraseIdx 1))) :=
  ⟨reach_flouds_after_file,
    C4_remove_behavior flouds_after_file reach_flouds_after_file 1
      (by decide) (by decide) (Or.inl (by decide))⟩

/-! ### The word-packed bit vector (`WordBitVectorStrategy`) -/

structure WordBitVector where
  words : List Nat
  num_bits : Nat
  deriving Repr, DecidableEq

/-- The constructor: `n` bits, `ceil(n/64)` zero words. -/
def wordCreate (n : Nat) : WordBitVector :=
  ⟨List.replicate ((n + 63) / 64) 0, n⟩

/-- `WordBitVectorStrategy::set`: `words[position / 64] |=
(1ull << (position % 64))` — the `value` argument is not used. -/
def WordBitVector.set (w : WordBitVector) (position : Nat) (value : Bool) :
    Option WordBitVector :=
  if w.num_bits ≤ position then none
  else some ⟨w.words.set (position / 64)
      ((w.words.getD (position / 64) 0) ||| (1 <<< (position % 64))),
    w.num_bits⟩

/-- `WordBitVectorStrategy::access`:
`(words[position / 64] >> (position % 64)) & 1`. -/
def WordBitVector.access (w : WordBitVector) (position : Nat) :
    Option Bool :=
  if w.num_bits ≤ position then none
  else some (((w.words.getD (position / 64) 0 >>> (position % 64)) &&& 1)
    = 1)

/-! ### The naive array bit vector (`ArrayBitVectorStrategy`) -/

def arrayCreate (n : Nat) : List Bool := List.replicate n false

/-- `ArrayBitVectorStrategy::set`: stores the given value. -/
def arraySet (bits : List Bool) (position : Nat) (value : Bool) :
    Option (List Bool) :=
  if bits.length ≤ position then none
  else some (bits.set position value)

/-- `ArrayBitVectorStrategy::access`. -/
def arrayAccess (bits : List Bool) (position : Nat) : Option Bool :=
  if bits.length ≤ position then none
  else some (bits.getD position false)

/-- **C10.** The word-packed bit vector's `set` unconditionally ORs a
one bit into the word and ignores the `value` argument: after
`set position value` — for any `value`, including `false` — `access
position` returns `true`. -/
theorem C10_word_set_ors_one (w : WordBitVector) (position : Nat)
    (value : Bool) (h : position < w.num_bits)
    (hwlen : w.words.length = (w.num_bits + 63) / 64) :
    ∃ w2, w.set position value = some w2
      ∧ w2.access position = some true := by
  have hj : position / 64 < w.words.length := by
    rw [hwlen]
    omega
  refine ⟨_, by unfold WordBitVector.set; rw [if_neg (by omega)], ?_⟩
  unfold WordBitVector.access
  dsimp only
  rw [if_neg (by omega)]
  show some (decide _) = some true
  rw [getD_set_self _ 0 w.words (position / 64) hj]
  have hgoal : ((w.words.getD (position / 64) 0
      ||| 1 <<< (position % 64)) >>> (position % 64)) &&& 1 = 1 := by
    rw [Nat.and_one_is_mod, Nat.shiftRight_eq_div_pow, Nat.shiftLeft_eq,
      one_mul]
    have h1 : Nat.testBit
        (w.words.getD (position / 64) 0 ||| 2 ^ (position % 64))
        (position % 64) = true := by
      rw [Nat.testBit_or, Nat.testBit_two_pow_self, Bool.or_true]
    rw [Nat.testBit_to_div_mod] at h1
    exact of_decide_eq_true h1
  rw [show (1:Nat) <<< (position % 64) = 2 ^ (position % 64)
    from by rw [Nat.shiftLeft_eq, one_mul]] at hgoal
  rw [show (1:Nat) <<< (position % 64) = 2 ^ (position % 64)
    from by rw [Nat.shiftLeft_eq, one_mul]]
  rw [decide_eq_true hgoal]

theorem C10_word_set_ors_one_witness :
    0 < (wordCreate 1).num_bits
    ∧ (wordCreate 1).words.length = ((wordCreate 1).num_bits + 63) / 64
    ∧ ∃ w2, (wordCreate 1).set 0 false = some w2
        ∧ w2.access 0 = some true :=
  ⟨by decide, by decide,
    C10_word_set_ors_one (wordCreate 1) 0 false (by decide) (by decide)⟩

/-- **C6.** The two bit-vector implementations diverge after a single
in-range `set`: starting from the same all-zero contents of size 1,
`set 0 false` leaves the array implementation's bit `false` but turns
the word implementation's bit to `true` (its `set` ignores the value
and ORs in a one).  The claimed refinement equivalence fails. -/
theorem C6_bitvector_refinement_divergence :
    (∃ w2, (wordCreate 1).set 0 false = some w2
      ∧ w2.access 0 = some true)
    ∧ (∃ a2, arraySet (arrayCreate 1) 0 false = some a2
      ∧ arrayAccess a2 0 = some false)
    ∧ ¬ ((wordCreate 1).set 0 false).bind (fun w2 => w2.access 0)
        = (arraySet (arrayCreate 1) 0 false).bind
            (fun a2 => arrayAccess a2 0) := by
  refine ⟨⟨_, rfl, by decide⟩, ⟨_, rfl, by decide⟩, by decide⟩

/-! ### Byte-buffer serialization primitives -/

/-- `memcpy` of a `k`-byte unsigned integer, least significant byte
first (the machine layout of `size_t` on the target). -/
def natToBytesLE : Nat → Nat → List Nat
  | 0, _ => []
  | k+1, v => v % 256 :: natToBytesLE k (v / 256)

def natFromBytesLE : Nat → List Nat → Nat
  | 0, _ => 0
  | _+1, [] => 0
  | k+1, b :: bs => b + 256 * natFromBytesLE k bs

/-- Consume `k` bytes as an integer; `none` when the buffer is short. -/
def readNat (k : Nat) (buf : List Nat) : Option (Nat × List Nat) :=
  if buf.length < k then none
  else some (natFromBytesLE k (buf.take k), buf.drop k)

/-- Consume `k` raw bytes. -/
def readBytes (k : Nat) (buf : List Nat) : Option (List Nat × List Nat) :=
  if buf.length < k then none
  else some (buf.take k, buf.drop k)

theorem natToBytesLE_length (k v : Nat) : (natToBytesLE k v).length = k := by
  induction k generalizing v with
  | zero => rfl
  | succ k ih =>
    show (natToBytesLE k (v / 256)).length + 1 = k + 1
    rw [ih]

theorem natFromTo (k v : Nat) (h : v < 256 ^ k) :
    natFromBytesLE k (natToBytesLE k v) = v := by
  induction k generalizing v with
  | zero =>
    have h0 : v = 0 := by
      have h1 : (256:Nat) ^ 0 = 1 := rfl
      omega
    subst h0
    rfl
  | succ k ih =>
    show v % 256 + 256 * natFromBytesLE k (natToBytesLE k (v / 256)) = v
    rw [ih (v / 256) (by
      have h1 : (256:Nat) ^ (k+1) = 256 ^ k * 256 := by ring
      rw [h1] at h
      exact Nat.div_lt_of_lt_mul (by omega))]
    omega

theorem take_append_of_length (l1 l2 : List α) (k : Nat)
    (h : l1.length = k) : (l1 ++ l2).take k = l1 := by
  subst h
  exact List.take_left l1 l2

theorem drop_append_of_length (l1 l2 : List α) (k : Nat)
    (h : l1.length = k) : (l1 ++ l2).drop k = l2 := by
  subst h
  exact List.drop_left l1 l2

theorem readNat_append (k v : Nat) (h : v < 256 ^ k) (rest : List Nat) :
    readNat k (natToBytesLE k v ++ rest) = some (v, rest) := by
  unfold readNat
  rw [List.length_append, natToBytesLE_length,
    if_neg (by omega),
    take_append_of_length _ _ _ (natToBytesLE_length k v),
    drop_append_of_length _ _ _ (natToBytesLE_length k v),
    natFromTo k v h]

theorem readBytes_append (l rest : List Nat) (k : Nat) (h : l.length = k) :
    readBytes k (l ++ rest) = some (l, rest) := by
  unfold readBytes
  rw [List.length_append, if_neg (by omega),
    take_append_of_length _ _ _ h, drop_append_of_length _ _ _ h]

theorem map_getD_range (l : List α) (d : α) :
    (List.range l.length).map (fun i => l.getD i d) = l := by
  induction l with
  | nil => rfl
  | cons x xs ih =>
    show (List.range (xs.length + 1)).map (fun i => (x :: xs).getD i d)
      = x :: xs
    rw [List.range_succ_eq_map, List.map_cons, List.map_map]
    have h1 : ((fun i => (x :: xs).getD i d) ∘ Nat.succ)
        = fun i => xs.getD i d := by
      funext i
      rfl
    rw [h1, ih]
    rfl

theorem getD_append_add (l1 l2 : List α) (i : Nat) (d : α) :
    (l1 ++ l2).getD (l1.length + i) d = l2.getD i d := by
  induction l1 with
  | nil =>
    rw [List.nil_append, List.length_nil, Nat.zero_add]
  | cons x xs ih =>
    show (x :: (xs ++ l2)).getD ((x :: xs).length + i) d = l2.getD i d
    rw [List.length_cons,
      show xs.length + 1 + i = xs.length + i + 1 from by omega,
      List.getD_cons_succ]
    exact ih

/-! ### The MSB-first byte packing of the array bit vector -/

/-- Byte `j` of the array serialization:
`buffer[j] |= bits[i] << (7 - i % 8)` over the positions `i` with
`i / 8 = j`. -/
def msbByte (bits : List Bool) (j : Nat) : Nat :=
  (if bits.getD (8*j) false then 128 else 0)
  + (if bits.getD (8*j+1) false then 64 else 0)
  + (if bits.getD (8*j+2) false then 32 else 0)
  + (if bits.getD (8*j+3) false then 16 else 0)
  + (if bits.getD (8*j+4) false then 8 else 0)
  + (if bits.getD (8*j+5) false then 4 else 0)
  + (if bits.getD (8*j+6) false then 2 else 0)
  + (if bits.getD (8*j+7) false then 1 else 0)

theorem msbBitsAux : ∀ (b0 b1 b2 b3 b4 b5 b6 b7 : Bool) (r : Fin 8),
    (((if b0 then 128 else 0) + (if b1 then 64 else 0)
      + (if b2 then 32 else 0) + (if b3 then 16 else 0)
      + (if b4 then 8 else 0) + (if b5 then 4 else 0)
      + (if b6 then 2 else 0) + (if b7 then 1 else 0))
      / 2 ^ (7 - (r : Nat))) % 2
    = (if [b0, b1, b2, b3, b4, b5, b6, b7].getD (r : Nat) false
       then 1 else 0) := by
  decide

/-- Bit `r` of byte `j`, extracted with the mask `1 << (7 - r)`, is the
vector's bit at position `8 j + r`. -/
theorem msb_extract_bit (bits : List Bool) (j r : Nat) (hr : r < 8) :
    (msbByte bits j >>> (7 - r)) &&& 1
      = (if bits.getD (8*j + r) false then 1 else 0) := by
  rw [Nat.and_one_is_mod, Nat.shiftRight_eq_div_pow]
  have h8 : r = 0 ∨ r = 1 ∨ r = 2 ∨ r = 3 ∨ r = 4 ∨ r = 5 ∨ r = 6 ∨ r = 7 :=
    by omega
  rcases h8 with h | h | h | h | h | h | h | h <;> subst h
  · exact msbBitsAux (bits.getD (8*j) false) (bits.getD (8*j+1) false)
      (bits.getD (8*j+2) false) (bits.getD (8*j+3) false)
      (bits.getD (8*j+4) false) (bits.getD (8*j+5) false)
      (bits.getD (8*j+6) false) (bits.getD (8*j+7) false) (0 : Fin 8)
  · exact msbBitsAux (bits.getD (8*j) false) (bits.getD (8*j+1) false)
      (bits.getD (8*j+2) false) (bits.getD (8*j+3) false)
      (bits.getD (8*j+4) false) (bits.getD (8*j+5) false)
      (bits.getD (8*j+6) false) (bits.getD (8*j+7) false) (1 : Fin 8)
  · exact msbBitsAux (bits.getD (8*j) false) (bits.getD (8*j+1) false)
      (bits.getD (8*j+2) false) (bits.getD (8*j+3) false)
      (bits.getD (8*j+4) false) (bits.getD (8*j+5) false)
      (bits.getD (8*j+6) false) (bits.getD (8*j+7) false) (2 : Fin 8)
  · exact msbBitsAux (bits.getD (8*j) false) (bits.getD (8*j+1) false)
      (bits.getD (8*j+2) false) (bits.getD (8*j+3) false)
      (bits.getD (8*j+4) false) (bits.getD (8*j+5) false)
      (bits.getD (8*j+6) false) (bits.getD (8*j+7) false) (3 : Fin 8)
  · exact msbBitsAux (bits.getD (8*j) false) (bits.getD (8*j+1) false)
      (bits.getD (8*j+2) false) (bits.getD (8*j+3) false)
      (bits.getD (8*j+4) false) (bits.getD (8*j+5) false)
      (bits.getD (8*j+6) false) (bits.getD (8*j+7) false) (4 : Fin 8)
  · exact msbBitsAux (bits.getD (8*j) false) (bits.getD (8*j+1) false)
      (bits.getD (8*j+2) false) (bits.getD (8*j+3) false)
      (bits.getD (8*j+4) false) (bits.getD (8*j+5) false)
      (bits.getD (8*j+6) false) (bits.getD (8*j+7) false) (5 : Fin 8)
  · exact msbBitsAux (bits.getD (8*j) false) (bits.getD (8*j+1) false)
      (bits.getD (8*j+2) false) (bits.getD (8*j+3) false)
      (bits.getD (8*j+4) false) (bits.getD (8*j+5) false)
      (bits.getD (8*j+6) false) (bits.getD (8*j+7) false) (6 : Fin 8)
  · exact msbBitsAux (bits.getD (8*j) false) (bits.getD (8*j+1) false)
      (bits.getD (8*j+2) false) (bits.getD (8*j+3) false)
      (bits.getD (8*j+4) false) (bits.getD (8*j+5) false)
      (bits.getD (8*j+6) false) (bits.getD (8*j+7) false) (7 : Fin 8)

/-! ### Serialization of the two bit-vector strategies -/

/-- `ArrayBitVectorStrategy::serialize`: the size as one machine word,
then `ceil(n/8)` bytes, bit `i` at byte `i/8` under mask
`1 << (7 - i%8)`. -/
def arraySerialize (bits : List Bool) : List Nat :=
  natToBytesLE 8 bits.length
    ++ (List.range ((bits.length + 7) / 8)).map (msbByte bits)

/-- `ArrayBitVectorStrategy::deserialize`. -/
def arrayDeserialize (buf : List Nat) : Option (List Bool × List Nat) :=
  (readNat 8 buf).bind (fun p =>
    (readBytes ((p.1 + 7) / 8) p.2).map (fun q =>
      ((List.range p.1).map
        (fun i => ((q.1.getD (i / 8) 0 >>> (7 - i % 8)) &&& 1) = 1),
       q.2)))

theorem array_byte_bit (bits : List Bool) (i : Nat) (hi : i < bits.length) :
    ((((List.range ((bits.length + 7) / 8)).map (msbByte bits)).getD
        (i / 8) 0 >>> (7 - i % 8)) &&& 1)
      = (if bits.getD i false then 1 else 0) := by
  have hjr : i / 8 < (bits.length + 7) / 8 := by omega
  have hg : ((List.range ((bits.length + 7) / 8)).map (msbByte bits)).getD
      (i / 8) 0 = msbByte bits (i / 8) := by
    rw [getD_map (msbByte bits) _ (i / 8) 0 0 (by simpa using hjr)]
    have h1 : (List.range ((bits.length + 7) / 8)).getD (i / 8) 0 = i / 8 := by
      rw [List.getD_eq_getElem _ _ (by simpa using hjr)]
      simp
    rw [h1]
  rw [hg, msb_extract_bit bits (i / 8) (i % 8) (by omega)]
  have h2 : 8 * (i / 8) + i % 8 = i := by omega
  rw [h2]

theorem array_roundtrip (bits : List Bool) (h : bits.length < 2 ^ 64)
    (rest : List Nat) :
    arrayDeserialize (arraySerialize bits ++ rest) = some (bits, rest) := by
  unfold arraySerialize arrayDeserialize
  rw [List.append_assoc,
    readNat_append 8 bits.length
      (by have h1 : (256:Nat) ^ 8 = 2 ^ 64 := by norm_num
          omega)
      _,
    Option.some_bind]
  rw [readBytes_append _ rest ((bits.length + 7) / 8)
    (by rw [List.length_map, List.length_range])]
  show some ((List.range bits.length).map _, rest) = some (bits, rest)
  have hlist : (List.range bits.length).map
      (fun i => decide
        (((((List.range ((bits.length + 7) / 8)).map (msbByte bits)).getD
          (i / 8) 0) >>> (7 - i % 8)) &&& 1 = 1)) = bits := by
    have hcong : (List.range bits.length).map
        (fun i => decide
          (((((List.range ((bits.length + 7) / 8)).map (msbByte bits)).getD
            (i / 8) 0) >>> (7 - i % 8)) &&& 1 = 1))
        = (List.range bits.length).map (fun i => bits.getD i false) := by
      apply List.map_congr_left
      intro i hi
      have hilt : i < bits.length := List.mem_range.mp hi
      rw [array_byte_bit bits i hilt]
      cases hb : bits.getD i false with
      | false => rfl
      | true => rfl
    rw [hcong, map_getD_range bits false]
  rw [hlist]

/-- `WordBitVectorStrategy::serialize`: the size as one machine word,
then `ceil(n/64)` words of 8 bytes each. -/
def bytesConcat : List (List Nat) → List Nat
  | [] => []
  | b :: bs => b ++ bytesConcat bs

def serializeWords (ws : List Nat) : List Nat :=
  bytesConcat (ws.map (natToBytesLE 8))

def wordSerialize (w : WordBitVector) : List Nat :=
  natToBytesLE 8 w.num_bits
    ++ serializeWords ((List.range ((w.num_bits + 63) / 64)).map
        (fun i => w.words.getD i 0))

def readWords : Nat → List Nat → Option (List Nat × List Nat)
  | 0, buf => some ([], buf)
  | k+1, buf =>
    (readNat 8 buf).bind (fun p =>
      (readWords k p.2).map (fun q => (p.1 :: q.1, q.2)))

/-- `WordBitVectorStrategy::deserialize`. -/
def wordDeserialize (buf : List Nat) : Option (WordBitVector × List Nat) :=
  (readNat 8 buf).bind (fun p =>
    (readWords ((p.1 + 63) / 64) p.2).map (fun q => (⟨q.1, p.1⟩, q.2)))

theorem serializeWords_length (ws : List Nat) :
    (serializeWords ws).length = 8 * ws.length := by
  induction ws with
  | nil => rfl
  | cons x xs ih =>
    show (natToBytesLE 8 x ++ serializeWords xs).length = 8 * (xs.length + 1)
    rw [List.length_append, natToBytesLE_length, ih]
    omega

theorem readWords_append (ws : List Nat) (hb : ∀ x ∈ ws, x < 2 ^ 64)
    (rest : List Nat) :
    readWords ws.length (serializeWords ws ++ rest) = some (ws, rest) := by
  induction ws generalizing rest with
  | nil => rfl
  | cons x xs ih =>
    show (readNat 8 ((natToBytesLE 8 x ++ serializeWords xs) ++ rest)).bind _
      = some (x :: xs, rest)
    rw [List.append_assoc,
      readNat_append 8 x
        (by have h1 : (256:Nat) ^ 8 = 2 ^ 64 := by norm_num
            have h2 := hb x (by simp)
            omega)
        _,
      Option.some_bind,
      ih (fun y hy => hb y (by simp [hy])) rest]
    rfl

/-- The representation invariant of the word bit vector. -/
def WordWF (w : WordBitVector) : Prop :=
  w.words.length = (w.num_bits + 63) / 64 ∧ w.num_bits < 2 ^ 64
    ∧ ∀ x ∈ w.words, x < 2 ^ 64

theorem word_roundtrip (w : WordBitVector) (hwf : WordWF w)
    (rest : List Nat) :
    wordDeserialize (wordSerialize w ++ rest) = some (w, rest) := by
  rcases hwf with ⟨hlen, hnb, hbound⟩
  have hmg : (List.range ((w.num_bits + 63) / 64)).map
      (fun i => w.words.getD i 0) = w.words := by
    rw [← hlen]
    exact map_getD_range w.words 0
  unfold wordSerialize wordDeserialize
  rw [hmg, List.append_assoc,
    readNat_append 8 w.num_bits
      (by have h1 : (256:Nat) ^ 8 = 2 ^ 64 := by norm_num
          omega)
      _,
    Option.some_bind]
  rw [show (w.num_bits + 63) / 64 = w.words.length from hlen.symm,
    readWords_append w.words hbound rest]
  rfl

/-- **C7.** [corrected] The array bit vector serializes as the claim
states: the size as one machine word, then exactly `ceil(n/8)` bytes
with bit `i` of the vector at byte `i/8` under the mask
`1 << (7 - i%8)`.  The word-packed implementation does not follow this
format: it writes `ceil(n/64)` full 8-byte words after the size, so
the property does not hold for every implementation used by the
system. -/
theorem C7_bitvector_serialize_format (bits : List Bool)
    (w : WordBitVector) :
    arraySerialize bits
      = natToBytesLE 8 bits.length
        ++ (List.range ((bits.length + 7) / 8)).map (msbByte bits)
    ∧ (arraySerialize bits).length = 8 + (bits.length + 7) / 8
    ∧ (∀ i, i < bits.length →
        (((arraySerialize bits).getD (8 + i / 8) 0 >>> (7 - i % 8)) &&& 1)
          = (if bits.getD i false then 1 else 0))
    ∧ (wordSerialize w).length = 8 + 8 * ((w.num_bits + 63) / 64) := by
  refine ⟨rfl, ?_, ?_, ?_⟩
  · unfold arraySerialize
    rw [List.length_append, natToBytesLE_length, List.length_map,
      List.length_range]
  · intro i hi
    unfold arraySerialize
    rw [show (8:Nat) + i / 8 = (natToBytesLE 8 bits.length).length + i / 8
        from by rw [natToBytesLE_length],
      getD_append_add]
    exact array_byte_bit bits i hi
  · unfold wordSerialize
    rw [List.length_append, natToBytesLE_length, serializeWords_length,
      List.length_map, List.length_range]

theorem C7_bitvector_serialize_format_witness :
    (arraySerialize [true, false]).length
      = 8 + ([true, false].length + 7) / 8
    ∧ (0 < [true, false].length
        → (((arraySerialize [true, false]).getD (8 + 0 / 8) 0
            >>> (7 - 0 % 8)) &&& 1)
          = (if [true, false].getD 0 false then 1 else 0))
    ∧ (wordSerialize (wordCreate 1)).length
      = 8 + 8 * (((wordCreate 1).num_bits + 63) / 64) :=
  ⟨(C7_bitvector_serialize_format [true, false] (wordCreate 1)).2.1,
   fun h0 =>
     (C7_bitvector_serialize_format [true, false] (wordCreate 1)).2.2.1 0 h0,
   (C7_bitvector_serialize_format [true, false] (wordCreate 1)).2.2.2⟩

/-- **C7, counterexample to the claim as stated.**  For a word-packed
bit vector of size 1 the serialized output is 16 bytes (one machine
word for the size plus one full 8-byte data word), not the
`8 + ceil(1/8) = 9` bytes the claimed format prescribes. -/
theorem C7_bitvector_serialize_format_counterexample :
    (wordSerialize (wordCreate 1)).length = 16
    ∧ 8 + ((wordCreate 1).num_bits + 7) / 8 = 9
    ∧ ¬ (wordSerialize (wordCreate 1)).length
        = 8 + ((wordCreate 1).num_bits + 7) / 8 := by
  refine ⟨by decide, by decide, by decide⟩

/-! ### Serialization of the wavelet tree, name sequence, FLOUDS,
inode table and allocator (array bit-vector strategy for the bit
vectors of the wavelet tree and the FLOUDS structure vector) -/

def wtSerialize (w : TwoBitWaveletTree) : List Nat :=
  arraySerialize w.root_bv ++ arraySerialize w.left_bv
    ++ arraySerialize w.right_bv

def wtDeserialize (buf : List Nat) :
    Option (TwoBitWaveletTree × List Nat) :=
  (arrayDeserialize buf).bind (fun p =>
    (arrayDeserialize p.2).bind (fun q =>
      (arrayDeserialize q.2).map (fun s => (⟨p.1, q.1, s.1⟩, s.2))))

theorem wt_roundtrip (w : TwoBitWaveletTree)
    (h1 : w.root_bv.length < 2 ^ 64) (h2 : w.left_bv.length < 2 ^ 64)
    (h3 : w.right_bv.length < 2 ^ 64) (rest : List Nat) :
    wtDeserialize (wtSerialize w ++ rest) = some (w, rest) := by
  unfold wtSerialize wtDeserialize
  rw [List.append_assoc, List.append_assoc,
    array_roundtrip w.root_bv h1 _, Option.some_bind,
    array_roundtrip w.left_bv h2 _, Option.some_bind,
    array_roundtrip w.right_bv h3 rest]
  rfl

/-- `ImmerNameSequenceStrategy::serialize`: the count, then for each
name its length followed by its bytes. -/
def namesSerialize (ns : List (List Nat)) : List Nat :=
  natToBytesLE 8 ns.length
    ++ bytesConcat (ns.map (fun name => natToBytesLE 8 name.length ++ name))

def readNames : Nat → List Nat → Option (List (List Nat) × List Nat)
  | 0, buf => some ([], buf)
  | k+1, buf =>
    (readNat 8 buf).bind (fun p =>
      (readBytes p.1 p.2).bind (fun q =>
        (readNames k q.2).map (fun s => (q.1 :: s.1, s.2))))

def namesDeserialize (buf : List Nat) :
    Option (List (List Nat) × List Nat) :=
  (readNat 8 buf).bind (fun p => readNames p.1 p.2)

theorem readNames_append (ns : List (List Nat))
    (hb : ∀ name ∈ ns, name.length < 2 ^ 64) (rest : List Nat) :
    readNames ns.length
      (bytesConcat (ns.map (fun name => natToBytesLE 8 name.length ++ name))
        ++ rest) = some (ns, rest) := by
  induction ns generalizing rest with
  | nil => rfl
  | cons x xs ih =>
    show (readNat 8 (((natToBytesLE 8 x.length ++ x)
        ++ bytesConcat (xs.map (fun name =>
            natToBytesLE 8 name.length ++ name))) ++ rest)).bind _
      = some (x :: xs, rest)
    rw [List.append_assoc, List.append_assoc,
      readNat_append 8 x.length
        (by have e64 : (256:Nat) ^ 8 = 2 ^ 64 := by norm_num
            have h2 := hb x (by simp)
            omega)
        _,
      Option.some_bind,
      readBytes_append x _ x.length rfl, Option.some_bind,
      ih (fun y hy => hb y (by simp [hy])) rest]
    rfl

theorem names_roundtrip (ns : List (List Nat)) (h : ns.length < 2 ^ 64)
    (hb : ∀ name ∈ ns, name.length < 2 ^ 64) (rest : List Nat) :
    namesDeserialize (namesSerialize ns ++ rest) = some (ns, rest) := by
  unfold namesSerialize namesDeserialize
  rw [List.append_assoc,
    readNat_append 8 ns.length
      (by have e64 : (256:Nat) ^ 8 = 2 ^ 64 := by norm_num
          omega)
      _,
    Option.some_bind, readNames_append ns hb rest]

/-- `Flouds::serialize`: structure, types, names in order. -/
def floudsSerialize (f : Flouds) : List Nat :=
  arraySerialize f.structure_bv ++ wtSerialize f.types
    ++ namesSerialize f.names

def floudsDeserialize (buf : List Nat) : Option (Flouds × List Nat) :=
  (arrayDeserialize buf).bind (fun p =>
    (wtDeserialize p.2).bind (fun q =>
      (namesDeserialize q.2).map (fun s => (⟨p.1, q.1, s.1⟩, s.2))))

theorem flouds_serial_roundtrip (f : Flouds)
    (h1 : f.structure_bv.length < 2 ^ 64)
    (h2 : f.types.root_bv.length < 2 ^ 64)
    (h3 : f.types.left_bv.length < 2 ^ 64)
    (h4 : f.types.right_bv.length < 2 ^ 64)
    (h5 : f.names.length < 2 ^ 64)
    (h6 : ∀ name ∈ f.names, name.length < 2 ^ 64) (rest : List Nat) :
    floudsDeserialize (floudsSerialize f ++ rest) = some (f, rest) := by
  unfold floudsSerialize floudsDeserialize
  rw [List.append_assoc, List.append_assoc,
    array_roundtrip f.structure_bv h1 _, Option.some_bind,
    wt_roundtrip f.types h2 h3 h4 _, Option.some_bind,
    names_roundtrip f.names h5 h6 rest]
  rfl

/-! ### The inode table (`ArrayInodeManagerStrategy`) -/

structure Inode where
  allocation_handle : Nat
  size : Nat
  mode : Nat
  modification_time : Nat
  access_time : Nat
  creation_time : Nat
  deriving Repr, DecidableEq

def InodeWF (i : Inode) : Prop :=
  i.allocation_handle < 2 ^ 64 ∧ i.size < 2 ^ 64 ∧ i.mode < 2 ^ 32
    ∧ i.modification_time < 2 ^ 64 ∧ i.access_time < 2 ^ 64
    ∧ i.creation_time < 2 ^ 64

/-- `memcpy` of one 48-byte `Inode` record: two `size_t`, a
`uint32_t`, 4 bytes of struct padding, three `time_t`. -/
def inodeSerialize (i : Inode) : List Nat :=
  natToBytesLE 8 i.allocation_handle ++ natToBytesLE 8 i.size
    ++ natToBytesLE 4 i.mode ++ natToBytesLE 4 0
    ++ natToBytesLE 8 i.modification_time ++ natToBytesLE 8 i.access_time
    ++ natToBytesLE 8 i.creation_time

def inodeDeserialize (buf : List Nat) : Option (Inode × List Nat) :=
  (readNat 8 buf).bind (fun a =>
  (readNat 8 a.2).bind (fun b =>
  (readNat 4 b.2).bind (fun c =>
  (readBytes 4 c.2).bind (fun d =>
  (readNat 8 d.2).bind (fun e =>
  (readNat 8 e.2).bind (fun g =>
  (readNat 8 g.2).map (fun k => (⟨a.1, b.1, c.1, e.1, g.1, k.1⟩, k.2))))))))

theorem inode_roundtrip (i : Inode) (h : InodeWF i) (rest : List Nat) :
    inodeDeserialize (inodeSerialize i ++ rest) = some (i, rest) := by
  rcases h with ⟨h1, h2, h3, h4, h5, h6⟩
  have e64 : (256:Nat) ^ 8 = 2 ^ 64 := by norm_num
  have e32 : (256:Nat) ^ 4 = 2 ^ 32 := by norm_num
  unfold inodeSerialize inodeDeserialize
  simp only [List.append_assoc]
  rw [readNat_append 8 _ (by omega) _, Option.some_bind,
    readNat_append 8 _ (by omega) _, Option.some_bind,
    readNat_append 4 _ (by omega) _, Option.some_bind,
    readBytes_append _ _ 4 (natToBytesLE_length 4 0), Option.some_bind,
    readNat_append 8 _ (by omega) _, Option.some_bind,
    readNat_append 8 _ (by omega) _, Option.some_bind,
    readNat_append 8 _ (by omega) rest]
  rfl

/-- `ArrayInodeManagerStrategy::serialize`: the count, then the raw
inode records. -/
def inodeTableSerialize (inodes : List Inode) : List Nat :=
  natToBytesLE 8 inodes.length ++ bytesConcat (inodes.map inodeSerialize)

def readInodes : Nat → List Nat → Option (List Inode × List Nat)
  | 0, buf => some ([], buf)
  | k+1, buf =>
    (inodeDeserialize buf).bind (fun p =>
      (readInodes k p.2).map (fun q => (p.1 :: q.1, q.2)))

def inodeTableDeserialize (buf : List Nat) :
    Option (List Inode × List Nat) :=
  (readNat 8 buf).bind (fun p => readInodes p.1 p.2)

theorem readInodes_append (inodes : List Inode)
    (hb : ∀ i ∈ inodes, InodeWF i) (rest : List Nat) :
    readInodes inodes.length
      (bytesConcat (inodes.map inodeSerialize) ++ rest)
      = some (inodes, rest) := by
  induction inodes generalizing rest with
  | nil => rfl
  | cons x xs ih =>
    show (inodeDeserialize ((inodeSerialize x
        ++ bytesConcat (xs.map inodeSerialize)) ++ rest)).bind _
      = some (x :: xs, rest)
    rw [List.append_assoc, inode_roundtrip x (hb x (by simp)) _,
      Option.some_bind, ih (fun y hy => hb y (by simp [hy])) rest]
    rfl

theorem inodeTable_roundtrip (inodes : List Inode)
    (h : inodes.length < 2 ^ 64) (hb : ∀ i ∈ inodes, InodeWF i)
    (rest : List Nat) :
    inodeTableDeserialize (inodeTableSerialize inodes ++ rest)
      = some (inodes, rest) := by
  unfold inodeTableSerialize inodeTableDeserialize
  rw [List.append_assoc,
    readNat_append 8 _
      (by have e64 : (256:Nat) ^ 8 = 2 ^ 64 := by norm_num
          omega)
      _,
    Option.some_bind, readInodes_append inodes hb rest]

/-! ### The monotonic allocator (`BestFitAllocationStrategy`) -/

structure BestFitAllocation where
  next_block : Nat
  deriving Repr, DecidableEq

/-- `BestFitAllocationStrategy::serialize`: just `next_block`. -/
def allocSerialize (a : BestFitAllocation) : List Nat :=
  natToBytesLE 8 a.next_block

def allocDeserialize (buf : List Nat) :
    Option (BestFitAllocation × List Nat) :=
  (readNat 8 buf).map (fun p => (⟨p.1⟩, p.2))

theorem alloc_roundtrip (a : BestFitAllocation)
    (h : a.next_block < 2 ^ 64) (rest : List Nat) :
    allocDeserialize (allocSerialize a ++ rest) = some (a, rest) := by
  unfold allocSerialize allocDeserialize
  rw [readNat_append 8 _
    (by have e64 : (256:Nat) ^ 8 = 2 ^ 64 := by norm_num
        omega)
    rest]
  rfl

/-- **C5.** Serialize/deserialize round-trips for the six structures:
the word-packed bit vector, the two-bit wavelet tree, the name
sequence, FLOUDS, the inode table and the allocator.  Deserialization
consumes exactly the serialized prefix of the buffer — the left-over
suffix `rest` is returned unread, which is the statement that the read
offset advances by exactly the serialized size. -/
theorem C5_serialization_roundtrip :
    (∀ w : WordBitVector, WordWF w → ∀ rest,
      wordDeserialize (wordSerialize w ++ rest) = some (w, rest))
    ∧ (∀ w : TwoBitWaveletTree,
        w.root_bv.length < 2 ^ 64 → w.left_bv.length < 2 ^ 64 →
        w.right_bv.length < 2 ^ 64 → ∀ rest,
        wtDeserialize (wtSerialize w ++ rest) = some (w, rest))
    ∧ (∀ ns : List (List Nat), ns.length < 2 ^ 64 →
        (∀ name ∈ ns, name.length < 2 ^ 64) → ∀ rest,
        namesDeserialize (namesSerialize ns ++ rest) = some (ns, rest))
    ∧ (∀ f : Flouds, f.structure_bv.length < 2 ^ 64 →
        f.types.root_bv.length < 2 ^ 64 → f.types.left_bv.length < 2 ^ 64 →
        f.types.right_bv.length < 2 ^ 64 → f.names.length < 2 ^ 64 →
        (∀ name ∈ f.names, name.length < 2 ^ 64) → ∀ rest,
        floudsDeserialize (floudsSerialize f ++ rest) = some (f, rest))
    ∧ (∀ inodes : List Inode, inodes.length < 2 ^ 64 →
        (∀ i ∈ inodes, InodeWF i) → ∀ rest,
        inodeTableDeserialize (inodeTableSerialize inodes ++ rest)
          = some (inodes, rest))
    ∧ (∀ a : BestFitAllocation, a.next_block < 2 ^ 64 → ∀ rest,
        allocDeserialize (allocSerialize a ++ rest) = some (a, rest)) :=
  ⟨fun w h rest => word_roundtrip w h rest,
   fun w h1 h2 h3 rest => wt_roundtrip w h1 h2 h3 rest,
   fun ns h hb rest => names_roundtrip ns h hb rest,
   fun f h1 h2 h3 h4 h5 h6 rest =>
     flouds_serial_roundtrip f h1 h2 h3 h4 h5 h6 rest,
   fun inodes h hb rest => inodeTable_roundtrip inodes h hb rest,
   fun a h rest => alloc_roundtrip a h rest⟩

theorem C5_serialization_roundtrip_witness :
    wordDeserialize (wordSerialize (wordCreate 3) ++ [9])
      = some (wordCreate 3, [9])
    ∧ wtDeserialize (wtSerialize (wtEncode [2]) ++ [9])
      = some (wtEncode [2], [9])
    ∧ namesDeserialize (namesSerialize [[97, 98]] ++ [9])
      = some ([[97, 98]], [9])
    ∧ floudsDeserialize (floudsSerialize create_flouds ++ [9])
      = some (create_flouds, [9])
    ∧ inodeTableDeserialize
        (inodeTableSerialize [⟨1, 2, 3, 4, 5, 6⟩] ++ [9])
      = some ([⟨1, 2, 3, 4, 5, 6⟩], [9])
    ∧ allocDeserialize (allocSerialize ⟨1⟩ ++ [9]) = some (⟨1⟩, [9]) :=
  ⟨C5_serialization_roundtrip.1 (wordCreate 3)
      ⟨by decide, by decide, by decide⟩ [9],
   C5_serialization_roundtrip.2.1 (wtEncode [2]) (by decide) (by decide)
      (by decide) [9],
   C5_serialization_roundtrip.2.2.1 [[97, 98]] (by decide) (by decide) [9],
   C5_serialization_roundtrip.2.2.2.1 create_flouds (by decide) (by decide)
      (by decide) (by decide) (by decide) (by decide) [9],
   C5_serialization_roundtrip.2.2.2.2.1 [⟨1, 2, 3, 4, 5, 6⟩] (by decide)
      (by intro i hi
          simp only [List.mem_singleton] at hi
          subst hi
          exact ⟨by decide, by decide, by decide, by decide, by decide,
            by decide⟩) [9],
   C5_serialization_roundtrip.2.2.2.2.2 ⟨1⟩ (by decide) [9]⟩

/-! ### The file-system manager (`FileSystemManager::remove_node`) -/

structure FileSystemManager where
  flouds : Flouds
  inodes : List Inode
  deriving Repr, DecidableEq

/-- `FileSystemManager::remove_node`: `flouds->remove(inode)` then
`inode_manager->remove_inode(inode)` — the code performs no validity
check of any kind; an exception thrown by `Flouds::remove` propagates.
(The `ENOTEMPTY` check for `rmdir` lives in the FUSE bridge, not
here.) -/
def FileSystemManager.remove_node (m : FileSystemManager)
    (node_id : Nat) : Option FileSystemManager :=
  (m.flouds.remove node_id).map
    (fun f2 => ⟨f2, m.inodes.eraseIdx node_id⟩)

theorem flouds_remove_root_none (f : Flouds) (tl : List Nat)
    (hty : f.types = wtEncode tl)
    (hinv : FloudsInv f.structure_bv tl f.names) :
    Flouds.remove f 0 = none := by
  simp only [Flouds.remove]
  rw [parent_root_none f tl hty hinv]
  rfl

theorem flouds_remove_any_some (f : Flouds) (tl : List Nat)
    (hty : f.types = wtEncode tl)
    (hinv : FloudsInv f.structure_bv tl f.names)
    (v : Nat) (hv1 : 1 ≤ v) (hv : v < f.structure_bv.length) :
    ∃ f2, Flouds.remove f v = some f2 := by
  rcases parent_spec f tl hty hinv v hv1 hv with ⟨p, hpar, hsel2, htlp, hpv⟩
  rcases children_count_spec f tl hty hinv p (by omega) with ⟨cc, hcc, hiff⟩
  rw [flouds_remove_unfold f v p cc hpar hcc]
  by_cases h1 : cc = 1
  · rw [if_pos h1]
    exact ⟨_, rfl⟩
  · rw [if_neg h1]
    by_cases h2 : f.structure_bv.getD v false = true
    · rw [if_pos h2]
      exact ⟨_, rfl⟩
    · rw [if_neg h2]
      exact ⟨_, rfl⟩

/-- **C9.** [corrected] `remove_node` fails (the `parent` select
throws) exactly on the root: for every in-range non-root node —
including a NON-EMPTY FOLDER — it succeeds and removes the node.  The
claimed failure on non-empty folders does not happen in
`FileSystemManager::remove_node`, which calls `Flouds::remove` and
`remove_inode` without any check; only the FUSE `rmdir` entry point
rejects non-empty folders (ENOTEMPTY) before calling it. -/
theorem C9_remove_node_failure (m : FileSystemManager)
    (hwf : FloudsWF m.flouds) :
    m.remove_node 0 = none
    ∧ ∀ v, 1 ≤ v → v < m.flouds.size →
        ∃ m2, m.remove_node v = some m2 := by
  rcases hwf with ⟨tl, hty, hinv⟩
  constructor
  · unfold FileSystemManager.remove_node
    rw [flouds_remove_root_none m.flouds tl hty hinv]
    rfl
  · intro v hv1 hv
    rcases flouds_remove_any_some m.flouds tl hty hinv v hv1 hv with
      ⟨f2, h2⟩
    unfold FileSystemManager.remove_node
    rw [h2]
    exact ⟨_, rfl⟩

/-- The tree with a folder `"d"` under the root and a file `"x"`
inside that folder. -/
def flouds_nested : Flouds :=
  { structure_bv := [true, true, true],
    types := { root_bv := [false, false, false],
               left_bv := [true, true, false], right_bv := [] },
    names := [[114, 111, 111, 116], [100], [120]] }

theorem reach_flouds_nested : Reach flouds_nested := by
  have h1 : Reach (⟨[true, true],
      ⟨[false, true], [true], [false]⟩,
      [[114, 111, 111, 116], [100]]⟩ : Flouds) :=
    Reach.insert_step create_flouds 0 [100] true _ 1 Reach.init
      (by decide) (Or.inr (by decide)) (by decide)
  exact Reach.insert_step _ 1 [120] false flouds_nested 2 h1
    (by decide) (Or.inr (by decide)) (by decide)

def fsm_nested : FileSystemManager :=
  ⟨flouds_nested,
   [⟨0, 0, 0, 0, 0, 0⟩, ⟨0, 0, 0, 0, 0, 0⟩, ⟨0, 0, 0, 0, 0, 0⟩]⟩

/-- **C9, counterexample to the claim as stated.**  In the reachable
state with a non-empty folder at node 1, `remove_node 1` succeeds
(removing the folder and leaving its child orphaned) instead of
failing. -/
theorem C9_remove_node_failure_counterexample :
    Reach fsm_nested.flouds
    ∧ fsm_nested.flouds.is_folder 1 = true
    ∧ fsm_nested.flouds.is_empty_folder 1 = false
    ∧ fsm_nested.remove_node 1
      = some ⟨⟨[true, true],
               ⟨[true, false], [false], [false]⟩,
               [[114, 111, 111, 116], [120]]⟩,
              [⟨0, 0, 0, 0, 0, 0⟩, ⟨0, 0, 0, 0, 0, 0⟩]⟩ := by
  refine ⟨reach_flouds_nested, by decide, by decide, by decide⟩

theorem C9_remove_node_failure_witness :
    fsm_nested.remove_node 0 = none
    ∧ ∀ v, 1 ≤ v → v < fsm_nested.flouds.size →
        ∃ m2, fsm_nested.remove_node v = some m2 :=
  C9_remove_node_failure fsm_nested (reach_wf _ reach_flouds_nested)

/-! ### `BestFitAllocationStrategy`: allocation and the block loops -/

/-- `num_blocks = 1 + (size - 1) / block_size` in `size_t` arithmetic
(wrapping modulo `2^64`; for `size = 0` the subtraction wraps). -/
def allocNumBlocks (bs size : Nat) : Nat :=
  (1 + (size + (2 ^ 64 - 1)) % 2 ^ 64 / bs) % 2 ^ 64

/-- `allocate`: the handle is the old `next_block`, which advances by
`num_blocks` (wrapping modulo `2^64`). -/
def allocate (a : BestFitAllocation) (size bs : Nat) :
    BestFitAllocation × Nat :=
  (⟨(a.next_block + allocNumBlocks bs size) % 2 ^ 64⟩, a.next_block)

/-- The (handle, block count) pairs returned by a sequence of
`allocate` calls. -/
def allocSeq (bs : Nat) (a : BestFitAllocation) :
    List Nat → List (Nat × Nat)
  | [] => []
  | s :: rest =>
    ((allocate a s bs).2, allocNumBlocks bs s)
      :: allocSeq bs (allocate a s bs).1 rest

theorem allocSeq_bounds (bs : Nat) :
    ∀ (sizes : List Nat) (a : BestFitAllocation),
      a.next_block + (sizes.map (allocNumBlocks bs)).sum < 2 ^ 64 →
      ∀ p ∈ allocSeq bs a sizes,
        a.next_block ≤ p.1
        ∧ p.1 + p.2
          ≤ a.next_block + (sizes.map (allocNumBlocks bs)).sum := by
  intro sizes
  induction sizes with
  | nil =>
    intro a h p hp
    exact absurd hp (by simp [allocSeq])
  | cons s ss ih =>
    intro a h p hp
    have hsum : ((s :: ss).map (allocNumBlocks bs)).sum
        = allocNumBlocks bs s + (ss.map (allocNumBlocks bs)).sum := by
      simp
    rw [show allocSeq bs a (s :: ss)
        = ((allocate a s bs).2, allocNumBlocks bs s)
          :: allocSeq bs (allocate a s bs).1 ss from rfl] at hp
    have hproj2 : (allocate a s bs).1.next_block
        = (a.next_block + allocNumBlocks bs s) % 2 ^ 64 := rfl
    have hmod : (a.next_block + allocNumBlocks bs s) % 2 ^ 64
        = a.next_block + allocNumBlocks bs s :=
      Nat.mod_eq_of_lt (by omega)
    rcases List.mem_cons.mp hp with hp | hp
    · subst hp
      refine ⟨Nat.le_refl _, ?_⟩
      show a.next_block + allocNumBlocks bs s ≤ _
      omega
    · have hb := ih (allocate a s bs).1 (by rw [hproj2, hmod]; omega) p hp
      rw [hproj2, hmod] at hb
      constructor
      · omega
      · omega

theorem allocSeq_disjoint (bs : Nat) :
    ∀ (sizes : List Nat) (a : BestFitAllocation),
      a.next_block + (sizes.map (allocNumBlocks bs)).sum < 2 ^ 64 →
      List.Pairwise
        (fun p q : Nat × Nat => ∀ x, p.1 ≤ x → x < p.1 + p.2 →
          q.1 ≤ x → x < q.1 + q.2 → False)
        (allocSeq bs a sizes) := by
  intro sizes
  induction sizes with
  | nil =>
    intro a h
    exact List.Pairwise.nil
  | cons s ss ih =>
    intro a h
    have hsum : ((s :: ss).map (allocNumBlocks bs)).sum
        = allocNumBlocks bs s + (ss.map (allocNumBlocks bs)).sum := by
      simp
    have hproj2 : (allocate a s bs).1.next_block
        = (a.next_block + allocNumBlocks bs s) % 2 ^ 64 := rfl
    have hmod : (a.next_block + allocNumBlocks bs s) % 2 ^ 64
        = a.next_block + allocNumBlocks bs s :=
      Nat.mod_eq_of_lt (by omega)
    rw [show allocSeq bs a (s :: ss)
        = ((allocate a s bs).2, allocNumBlocks bs s)
          :: allocSeq bs (allocate a s bs).1 ss from rfl]
    refine List.Pairwise.cons ?_
      (ih (allocate a s bs).1 (by rw [hproj2, hmod]; omega))
    intro q hq x hx1 hx2 hx3 hx4
    have hb := allocSeq_bounds bs ss (allocate a s bs).1
      (by rw [hproj2, hmod]; omega) q hq
    rw [hproj2, hmod] at hb
    have hx1e : a.next_block ≤ x := hx1
    have hx2e : x < a.next_block + allocNumBlocks bs s := hx2
    omega

/-! The block-device write and read loops of
`BestFitAllocationStrategy::write` / `read`.  The device is a function
from block index and in-block offset to byte; each chunk touches a
single block (reading it first for a partial write). -/

def devUpdate (dev : Nat → Nat → Nat) (b bo : Nat) (chunk : List Nat) :
    Nat → Nat → Nat :=
  fun b2 i => if b2 = b ∧ bo ≤ i ∧ i < bo + chunk.length
    then chunk.getD (i - bo) 0 else dev b2 i

def awWriteAux (bs handle : Nat) :
    Nat → (Nat → Nat → Nat) → List Nat → Nat → (Nat → Nat → Nat)
  | 0, dev, _, _ => dev
  | fuel+1, dev, data, offset =>
    if data.length = 0 then dev
    else
      awWriteAux bs handle fuel
        (devUpdate dev ((handle + offset / bs) % 2 ^ 64) (offset % bs)
          (data.take (min data.length (bs - offset % bs))))
        (data.drop (min data.length (bs - offset % bs)))
        ((offset + min data.length (bs - offset % bs)) % 2 ^ 64)

def awWrite (bs handle : Nat) (data : List Nat) (offset : Nat)
    (dev : Nat → Nat → Nat) : Nat → Nat → Nat :=
  awWriteAux bs handle data.length dev data offset

def awReadAux (bs handle : Nat) :
    Nat → (Nat → Nat → Nat) → Nat → Nat → List Nat
  | 0, _, _, _ => []
  | fuel+1, dev, size, offset =>
    if size = 0 then []
    else
      (List.range (min size (bs - offset % bs))).map
        (fun t => dev ((handle + offset / bs) % 2 ^ 64) (offset % bs + t))
      ++ awReadAux bs handle fuel dev (size - min size (bs - offset % bs))
          ((offset + min size (bs - offset % bs)) % 2 ^ 64)

def awRead (bs handle size offset : Nat) (dev : Nat → Nat → Nat) :
    List Nat :=
  awReadAux bs handle size dev size offset

theorem awWriteAux_nil (bs handle : Nat) :
    ∀ (fuel : Nat) (dev : Nat → Nat → Nat) (offset : Nat),
      awWriteAux bs handle fuel dev [] offset = dev := by
  intro fuel
  cases fuel with
  | zero =>
    intro dev offset
    rfl
  | succ fuel =>
    intro dev offset
    show (if ([] : List Nat).length = 0 then dev else _) = dev
    exact if_pos rfl

theorem awReadAux_zero (bs handle : Nat) :
    ∀ (fuel : Nat) (dev : Nat → Nat → Nat) (offset : Nat),
      awReadAux bs handle fuel dev 0 offset = [] := by
  intro fuel
  cases fuel with
  | zero =>
    intro dev offset
    rfl
  | succ fuel =>
    intro dev offset
    show (if (0:Nat) = 0 then ([] : List Nat) else _) = []
    exact if_pos rfl

theorem chunk_div (offset bs : Nat) (hbs : 0 < bs) :
    (offset + (bs - offset % bs)) / bs = offset / bs + 1 := by
  have h1 := Nat.div_add_mod offset bs
  have h2 : offset % bs < bs := Nat.mod_lt _ hbs
  have h4 : bs * (offset / bs + 1) = bs * (offset / bs) + bs := by ring
  have h3 : offset + (bs - offset % bs) = bs * (offset / bs + 1) := by
    omega
  rw [h3, Nat.mul_div_cancel_left _ hbs]

theorem awWriteAux_frame (bs handle : Nat) (hbs : 0 < bs) :
    ∀ (fuel : Nat) (dev : Nat → Nat → Nat) (data : List Nat)
      (offset : Nat),
      offset + data.length ≤ 2 ^ 64 →
      handle + (offset + data.length) / bs < 2 ^ 64 →
      ∀ bq i, bq < handle + offset / bs →
        awWriteAux bs handle fuel dev data offset bq i = dev bq i := by
  intro fuel
  induction fuel with
  | zero =>
    intro dev data offset h1 h2 bq i hbq
    rfl
  | succ fuel ih =>
    intro dev data offset h1 h2 bq i hbq
    show (if data.length = 0 then dev
      else awWriteAux bs handle fuel
        (devUpdate dev ((handle + offset / bs) % 2 ^ 64) (offset % bs)
          (data.take (min data.length (bs - offset % bs))))
        (data.drop (min data.length (bs - offset % bs)))
        ((offset + min data.length (bs - offset % bs)) % 2 ^ 64)) bq i
      = dev bq i
    by_cases hemp : data.length = 0
    · rw [if_pos hemp]
    · rw [if_neg hemp]
      have hrpos : 0 < bs - offset % bs := by
        have := Nat.mod_lt offset hbs
        omega
      have hdivmono : offset / bs ≤ (offset + data.length) / bs :=
        Nat.div_le_div_right (by omega)
      have hbi : (handle + offset / bs) % 2 ^ 64 = handle + offset / bs :=
        Nat.mod_eq_of_lt (by omega)
      rcases Nat.lt_or_ge (bs - offset % bs) data.length with hmin | hmin
      · -- a full chunk, more data follows
        rw [Nat.min_eq_right (Nat.le_of_lt hmin)]
        have hlen : (data.drop (bs - offset % bs)).length
            = data.length - (bs - offset % bs) := List.length_drop _ _
        have hmod2 : (offset + (bs - offset % bs)) % 2 ^ 64
            = offset + (bs - offset % bs) :=
          Nat.mod_eq_of_lt (by omega)
        rw [hmod2]
        have hstep := ih (devUpdate dev ((handle + offset / bs) % 2 ^ 64)
            (offset % bs) (data.take (bs - offset % bs)))
          (data.drop (bs - offset % bs)) (offset + (bs - offset % bs))
          (by rw [hlen]; omega)
          (by rw [hlen]
              have he : offset + (bs - offset % bs)
                  + (data.length - (bs - offset % bs))
                  = offset + data.length := by omega
              rw [he]
              exact h2)
          bq i
          (by rw [chunk_div offset bs hbs]; omega)
        rw [hstep]
        unfold devUpdate
        rw [if_neg (by
          intro hc
          rcases hc with ⟨hc1, hc2, hc3⟩
          rw [hbi] at hc1
          omega)]
      · -- the final chunk
        rw [Nat.min_eq_left hmin, List.drop_length,
          awWriteAux_nil bs handle fuel _ _]
        unfold devUpdate
        rw [if_neg (by
          intro hc
          rcases hc with ⟨hc1, hc2, hc3⟩
          rw [hbi] at hc1
          omega)]

theorem map_getD_range_of_length (l : List α) (d : α) (n : Nat)
    (h : l.length = n) :
    (List.range n).map (fun i => l.getD i d) = l := by
  subst h
  exact map_getD_range l d

theorem awWrite_read_aux (bs handle : Nat) (hbs : 0 < bs) :
    ∀ (fuel : Nat) (data : List Nat) (offset : Nat)
      (dev : Nat → Nat → Nat),
      data.length ≤ fuel →
      offset + data.length ≤ 2 ^ 64 →
      handle + (offset + data.length) / bs < 2 ^ 64 →
      awReadAux bs handle fuel
        (awWriteAux bs handle fuel dev data offset) data.length offset
      = data := by
  intro fuel
  induction fuel with
  | zero =>
    intro data offset dev hf h1 h2
    have hdn : data = [] := List.length_eq_zero.mp (by omega)
    subst hdn
    rfl
  | succ fuel ih =>
    intro data offset dev hf h1 h2
    by_cases hemp : data.length = 0
    · have hdn : data = [] := List.length_eq_zero.mp hemp
      subst hdn
      rfl
    · have hrpos : 0 < bs - offset % bs := by
        have := Nat.mod_lt offset hbs
        omega
      have hdivmono : offset / bs ≤ (offset + data.length) / bs :=
        Nat.div_le_div_right (by omega)
      have hbi : (handle + offset / bs) % 2 ^ 64 = handle + offset / bs :=
        Nat.mod_eq_of_lt (by omega)
      have hW : awWriteAux bs handle (fuel+1) dev data offset
          = awWriteAux bs handle fuel
              (devUpdate dev ((handle + offset / bs) % 2 ^ 64)
                (offset % bs)
                (data.take (min data.length (bs - offset % bs))))
              (data.drop (min data.length (bs - offset % bs)))
              ((offset + min data.length (bs - offset % bs)) % 2 ^ 64) := by
        show (if data.length = 0 then dev else _) = _
        rw [if_neg hemp]
      show (if data.length = 0 then ([] : List Nat) else
          (List.range (min data.length (bs - offset % bs))).map
            (fun t => awWriteAux bs handle (fuel+1) dev data offset
              ((handle + offset / bs) % 2 ^ 64) (offset % bs + t))
          ++ awReadAux bs handle fuel
              (awWriteAux bs handle (fuel+1) dev data offset)
              (data.length - min data.length (bs - offset % bs))
              ((offset + min data.length (bs - offset % bs)) % 2 ^ 64))
        = data
      rw [if_neg hemp, hW]
      rcases Nat.lt_or_ge (bs - offset % bs) data.length with hmin | hmin
      · -- a full chunk, more data follows
        rw [Nat.min_eq_right (Nat.le_of_lt hmin)]
        have hlen : (data.drop (bs - offset % bs)).length
            = data.length - (bs - offset % bs) := List.length_drop _ _
        have htklen : (data.take (bs - offset % bs)).length
            = bs - offset % bs := by
          rw [List.length_take]
          exact Nat.min_eq_left (Nat.le_of_lt hmin)
        have hmod2 : (offset + (bs - offset % bs)) % 2 ^ 64
            = offset + (bs - offset % bs) :=
          Nat.mod_eq_of_lt (by omega)
        rw [hmod2]
        have hchunk : ∀ t ∈ List.range (bs - offset % bs),
            awWriteAux bs handle fuel
              (devUpdate dev ((handle + offset / bs) % 2 ^ 64)
                (offset % bs) (data.take (bs - offset % bs)))
              (data.drop (bs - offset % bs))
              (offset + (bs - offset % bs))
              ((handle + offset / bs) % 2 ^ 64) (offset % bs + t)
            = (data.take (bs - offset % bs)).getD t 0 := by
          intro t ht
          have htlt : t < bs - offset % bs := List.mem_range.mp ht
          rw [awWriteAux_frame bs handle hbs fuel _ _ _
            (by rw [hlen]; omega)
            (by rw [hlen]
                have he : offset + (bs - offset % bs)
                    + (data.length - (bs - offset % bs))
                    = offset + data.length := by omega
                rw [he]
                exact h2)
            _ _
            (by rw [chunk_div offset bs hbs, hbi]; omega)]
          unfold devUpdate
          rw [if_pos ⟨rfl, by omega, by rw [htklen]; omega⟩]
          rw [show offset % bs + t - offset % bs = t from by omega]
        have hmap : (List.range (bs - offset % bs)).map
            (fun t => awWriteAux bs handle fuel
              (devUpdate dev ((handle + offset / bs) % 2 ^ 64)
                (offset % bs) (data.take (bs - offset % bs)))
              (data.drop (bs - offset % bs))
              (offset + (bs - offset % bs))
              ((handle + offset / bs) % 2 ^ 64) (offset % bs + t))
            = data.take (bs - offset % bs) := by
          rw [List.map_congr_left hchunk]
          exact map_getD_range_of_length _ 0 _ htklen
        rw [hmap]
        have hrec := ih (data.drop (bs - offset % bs))
          (offset + (bs - offset % bs))
          (devUpdate dev ((handle + offset / bs) % 2 ^ 64) (offset % bs)
            (data.take (bs - offset % bs)))
          (by rw [hlen]; omega)
          (by rw [hlen]; omega)
          (by rw [hlen]
              have he : offset + (bs - offset % bs)
                  + (data.length - (bs - offset % bs))
                  = offset + data.length := by omega
              rw [he]
              exact h2)
        rw [hlen] at hrec
        rw [hrec]
        exact List.take_append_drop _ data
      · -- the final chunk
        rw [Nat.min_eq_left hmin, List.drop_length, List.take_length,
          awWriteAux_nil bs handle fuel _ _]
        have hsz : data.length - data.length = 0 := by omega
        rw [hsz, awReadAux_zero bs handle fuel _ _, List.append_nil]
        have hchunk : ∀ t ∈ List.range data.length,
            devUpdate dev ((handle + offset / bs) % 2 ^ 64) (offset % bs)
              data ((handle + offset / bs) % 2 ^ 64) (offset % bs + t)
            = data.getD t 0 := by
          intro t ht
          have htlt : t < data.length := List.mem_range.mp ht
          unfold devUpdate
          rw [if_pos ⟨rfl, by omega, by omega⟩]
          rw [show offset % bs + t - offset % bs = t from by omega]
        rw [List.map_congr_left hchunk]
        exact map_getD_range_of_length _ 0 _ rfl

/-- **C8.** [corrected] For the default monotonic allocator with a
positive block size: the handles of a sequence of `allocate` calls
address pairwise disjoint block ranges provided the total number of
allocated blocks does not overflow the 64-bit `next_block` counter;
and a `read` of the same handle, length and offset after a `write`
returns exactly the written bytes, for every offset and length —
including ranges crossing block boundaries — provided the byte offset
and the addressed block indices do not overflow `size_t`.  Without
the no-overflow side conditions both properties fail: `next_block`
wraps modulo `2^64` and a later `allocate` returns a handle already
in use (see the counterexample). -/
theorem C8_allocator_disjoint_rw (bs : Nat) (hbs : 0 < bs) :
    (∀ (a : BestFitAllocation) (sizes : List Nat),
      a.next_block + (sizes.map (allocNumBlocks bs)).sum < 2 ^ 64 →
      List.Pairwise
        (fun p q : Nat × Nat => ∀ x, p.1 ≤ x → x < p.1 + p.2 →
          q.1 ≤ x → x < q.1 + q.2 → False)
        (allocSeq bs a sizes))
    ∧ (∀ (handle : Nat) (data : List Nat) (offset : Nat)
        (dev : Nat → Nat → Nat),
        offset + data.length ≤ 2 ^ 64 →
        handle + (offset + data.length) / bs < 2 ^ 64 →
        awRead bs handle data.length offset
          (awWrite bs handle data offset dev) = data) :=
  ⟨fun a sizes h => allocSeq_disjoint bs sizes a h,
   fun handle data offset dev h1 h2 =>
     awWrite_read_aux bs handle hbs data.length data offset dev
       (Nat.le_refl _) h1 h2⟩

def allocIter (bs size : Nat) (a : BestFitAllocation) :
    Nat → BestFitAllocation
  | 0 => a
  | k+1 => (allocate (allocIter bs size a k) size bs).1

theorem allocIter_next (bs size : Nat) (a : BestFitAllocation)
    (ha : a.next_block < 2 ^ 64) :
    ∀ k, (allocIter bs size a k).next_block
      = (a.next_block + k * allocNumBlocks bs size) % 2 ^ 64 := by
  intro k
  induction k with
  | zero =>
    show a.next_block = (a.next_block + 0 * allocNumBlocks bs size) % 2 ^ 64
    rw [Nat.zero_mul, Nat.add_zero, Nat.mod_eq_of_lt ha]
  | succ k ih =>
    show ((allocIter bs size a k).next_block + allocNumBlocks bs size)
        % 2 ^ 64 = _
    rw [ih, Nat.mod_add_mod,
      show a.next_block + k * allocNumBlocks bs size
          + allocNumBlocks bs size
        = a.next_block + (k + 1) * allocNumBlocks bs size from by ring]

/-- **C8, counterexample to the claim as stated.**  With block size
4096, each `allocate(2^64 - 1)` advances `next_block` by `2^52`
blocks; after 4096 such calls the 64-bit counter wraps back to 1, and
the 4097-th call returns handle 1 — the same handle as the very first
call, whose range it therefore does not avoid: the ranges of distinct
calls are not disjoint, and a read through the first handle returns
the later write's bytes. -/
theorem C8_allocator_counterexample :
    allocNumBlocks 4096 (2 ^ 64 - 1) = 2 ^ 52
    ∧ (allocate (⟨1⟩ : BestFitAllocation) (2 ^ 64 - 1) 4096).2 = 1
    ∧ (allocate (allocIter 4096 (2 ^ 64 - 1) ⟨1⟩ 4096)
        (2 ^ 64 - 1) 4096).2 = 1 := by
  refine ⟨by decide, rfl, ?_⟩
  show (allocIter 4096 (2 ^ 64 - 1) ⟨1⟩ 4096).next_block = 1
  rw [allocIter_next 4096 (2 ^ 64 - 1) ⟨1⟩ (by decide) 4096]
  decide

theorem C8_allocator_disjoint_rw_witness :
    awRead 4096 1 3 4095
      (awWrite 4096 1 [10, 20, 30] 4095 (fun _ _ => 0)) = [10, 20, 30] :=
  (C8_allocator_disjoint_rw 4096 (by decide)).2 1 [10, 20, 30] 4095
    (fun _ _ => 0) (by decide) (by decide)

end SuccinctFS
